import Mathlib

/-!
Verification of the python-hll library (a HyperLogLog cardinality estimator)
against its natural-language specification.

The Lean definitions below are a shallow embedding of the Python sources:

- python_hll/util.py          (BitUtil, BitVector, LongIterator, NumberUtil)
- python_hll/hllutil.py       (HLLUtil constants)
- python_hll/hlltype.py       (HLLType)
- python_hll/serialization.py (word serializer/deserializer, schema v1 frame)
- python_hll/hll.py           (the HLL state machine)

Modelling conventions, used consistently and noted at each definition:

- Java/numpy 64-bit longs are modelled as Lean Int with explicit wrapping:
  np.int64 arithmetic wraps into the two's-complement range
  (wrap64 below), np.uint64 views take the residue mod 2^64 (toU64).
- Java/numpy 32-bit ints wrap with wrap32; shift counts of 32 or more are
  C undefined behaviour in the source's numpy and never occur under the
  hypotheses of any theorem in this file.
- Serialized byte arrays are kept as lists of Nat in 0..255 (the unsigned
  view).  The Python code stores the equivalent signed two's-complement
  view (to_signed_byte); the two encodings are in bijection byte by byte,
  and every read in the source masks bytes back to the unsigned view.
- Python dicts are modelled as insertion-ordered association lists:
  updating an existing key keeps its position, a new key is appended
  (the python 3.7+ dict contract used by the source).
- Python sets of ints are modelled as strictly ascending lists, fixing
  the iteration order to the sorted one; every observable computation in
  the source either sorts the set first or is independent of the order.
- Floating-point code (cardinality estimation, alpha constants) is not
  modelled; no claim below depends on a floating-point value.  The two
  integer-valued uses of float arithmetic in the source, namely
  int(NumberUtil.log2(x)) on threshold computations, are modelled with
  exact integer log2; the model was checked to agree with the source's
  float computation on every admissible parameter pair.
-/

namespace PyHLL

/-! ### 64-bit and 32-bit two's-complement emulation -/

/-- Residue of an integer mod 2^64, as a Nat: the np.uint64 view of a long. -/
def toU64 (v : Int) : Nat := (v % (2 ^ 64 : Int)).toNat

/-- Signed 64-bit view of a residue: natural numbers of 2^63 and above
denote negative longs. -/
def ofU64 (n : Nat) : Int := if n < 2 ^ 63 then (n : Int) else (n : Int) - 2 ^ 64

/-- Wrap an integer into the signed 64-bit range, as np.int64 arithmetic does. -/
def wrap64 (v : Int) : Int := ofU64 (toU64 v)

/-- Wrap an integer into the signed 32-bit range, as np.int32 arithmetic does. -/
def wrap32 (v : Int) : Int :=
  let r := (v % (2 ^ 32 : Int)).toNat
  if r < 2 ^ 31 then (r : Int) else (r : Int) - 2 ^ 32

/-- Python bitwise or of two ints confined to the 64-bit range
(two's-complement semantics: the result is negative iff an operand is). -/
def pyOr (a b : Int) : Int :=
  if 0 ≤ a ∧ 0 ≤ b then ((a.toNat ||| b.toNat : Nat) : Int)
  else ofU64 (toU64 a ||| toU64 b)

/-- Python bitwise and of an int with a non-negative mask below 2^64:
equals the mask applied to the unsigned 64-bit residue. -/
def landU (v : Int) (mask : Nat) : Nat := toU64 v &&& mask

/-- Complement of a 64-bit residue (the Python prefix tilde under the
unsigned 64-bit view). -/
def not64 (n : Nat) : Nat := (2 ^ 64 - 1) ^^^ (n % 2 ^ 64)

/-! ### BitUtil (python_hll/util.py) -/

namespace BitUtil

/-- The table of least-significant set bits for each byte, verbatim from
util.py; -1 marks the zero byte, which has no set bit. -/
def LEAST_SIGNIFICANT_BIT : List Int := [
  -1, 0, 1, 0, 2, 0, 1, 0, 3, 0, 1, 0, 2, 0, 1, 0,
  4, 0, 1, 0, 2, 0, 1, 0, 3, 0, 1, 0, 2, 0, 1, 0,
  5, 0, 1, 0, 2, 0, 1, 0, 3, 0, 1, 0, 2, 0, 1, 0,
  4, 0, 1, 0, 2, 0, 1, 0, 3, 0, 1, 0, 2, 0, 1, 0,
  6, 0, 1, 0, 2, 0, 1, 0, 3, 0, 1, 0, 2, 0, 1, 0,
  4, 0, 1, 0, 2, 0, 1, 0, 3, 0, 1, 0, 2, 0, 1, 0,
  5, 0, 1, 0, 2, 0, 1, 0, 3, 0, 1, 0, 2, 0, 1, 0,
  4, 0, 1, 0, 2, 0, 1, 0, 3, 0, 1, 0, 2, 0, 1, 0,
  7, 0, 1, 0, 2, 0, 1, 0, 3, 0, 1, 0, 2, 0, 1, 0,
  4, 0, 1, 0, 2, 0, 1, 0, 3, 0, 1, 0, 2, 0, 1, 0,
  5, 0, 1, 0, 2, 0, 1, 0, 3, 0, 1, 0, 2, 0, 1, 0,
  4, 0, 1, 0, 2, 0, 1, 0, 3, 0, 1, 0, 2, 0, 1, 0,
  6, 0, 1, 0, 2, 0, 1, 0, 3, 0, 1, 0, 2, 0, 1, 0,
  4, 0, 1, 0, 2, 0, 1, 0, 3, 0, 1, 0, 2, 0, 1, 0,
  5, 0, 1, 0, 2, 0, 1, 0, 3, 0, 1, 0, 2, 0, 1, 0,
  4, 0, 1, 0, 2, 0, 1, 0, 3, 0, 1, 0, 2, 0, 1, 0]

/-- Java unsigned right shift on a long: python_hll computes
np.uint64(val) shifted right, with the shift-by-zero case returned
unwrapped (util.py, unsigned_right_shift_long). -/
def unsigned_right_shift_long (val : Int) (n : Nat) : Int :=
  if n = 0 then val else ((toU64 val >>> n : Nat) : Int)

/-- Java unsigned right shift on an int (util.py, unsigned_right_shift_int). -/
def unsigned_right_shift_int (val : Int) (n : Nat) : Int :=
  if n = 0 then val else (((v32 val) >>> n : Nat) : Int)
where
  /-- np.uint32 residue of the value. -/
  v32 (val : Int) : Nat := (val % (2 ^ 32 : Int)).toNat

/-- Java unsigned right shift on a byte; the source reuses the 32-bit
variant (util.py, unsigned_right_shift_byte). -/
def unsigned_right_shift_byte (val : Int) (n : Nat) : Int :=
  unsigned_right_shift_int val n

/-- Convert an unsigned byte value 0..255 to the signed two's-complement
byte -128..127 (util.py, to_signed_byte). -/
def to_signed_byte (i : Int) : Int := if i ≤ 127 then i else i - 256

/-- Java left shift on a long: np.int64 arithmetic wraps into the signed
64-bit range (util.py, left_shift_long). -/
def left_shift_long (x : Int) (y : Nat) : Int := wrap64 (x * 2 ^ y)

/-- Java left shift on an int: np.int32 arithmetic wraps into the signed
32-bit range (util.py, left_shift_int).  Shift counts of 32 or more are
numpy/C undefined behaviour in the source; the wrap chosen here is never
relied upon for such counts. -/
def left_shift_int (x : Int) (y : Nat) : Int := wrap32 (x * 2 ^ y)

/-- Least-significant set bit of a long, zero-indexed, -1 for zero: the
byte-cascade over the lookup table, verbatim from util.py lines 34-83.
Each branch tests the unsigned residue of the value exactly as the Python
masks do. -/
def least_significant_bit (value : Int) : Int :=
  let R := toU64 value
  if value = 0 then -1
  else if R &&& 0xFF ≠ 0 then LEAST_SIGNIFICANT_BIT.getD (R &&& 0xFF) 0 + 0
  else if R &&& 0xFFFF ≠ 0 then LEAST_SIGNIFICANT_BIT.getD ((R >>> 8) &&& 0xFF) 0 + 8
  else if R &&& 0xFFFFFF ≠ 0 then LEAST_SIGNIFICANT_BIT.getD ((R >>> 16) &&& 0xFF) 0 + 16
  else if R &&& 0xFFFFFFFF ≠ 0 then LEAST_SIGNIFICANT_BIT.getD ((R >>> 24) &&& 0xFF) 0 + 24
  else if R &&& 0xFFFFFFFFFF ≠ 0 then LEAST_SIGNIFICANT_BIT.getD ((R >>> 32) &&& 0xFF) 0 + 32
  else if R &&& 0xFFFFFFFFFFFF ≠ 0 then LEAST_SIGNIFICANT_BIT.getD ((R >>> 40) &&& 0xFF) 0 + 40
  else if R &&& 0xFFFFFFFFFFFFFF ≠ 0 then LEAST_SIGNIFICANT_BIT.getD ((R >>> 48) &&& 0xFF) 0 + 48
  else LEAST_SIGNIFICANT_BIT.getD ((R >>> 56) &&& 0xFF) 0 + 56

end BitUtil

/-! ### NumberUtil.log2 as used on integer-valued inputs

The source computes int(log(value)/log(2)) in floating point.  Everywhere
this file uses it the argument is a positive integer (or the claim's
parameters make the integer floor exact, see the module comment), so the
computation is modelled as the floor of the exact base-2 logarithm.  The
fuel-based recursion keeps the definition kernel-reducible; 64 units of
fuel cover every argument below 2^64. -/

def log2_floor_go : Nat → Nat → Nat
  | 0, _ => 0
  | fuel + 1, n => if n < 2 then 0 else log2_floor_go fuel (n / 2) + 1

/-- Floor of the base-2 logarithm of a positive integer; 0 on 0. -/
def log2_floor (n : Nat) : Nat := log2_floor_go 64 n

/-- Trailing zero count of a positive natural; 0 on 0.  Fuel-based for
kernel reducibility; 64 units cover every value below 2^64. -/
def tz_go : Nat → Nat → Nat
  | 0, _ => 0
  | fuel + 1, n => if n % 2 = 1 ∨ n = 0 then 0 else tz_go fuel (n / 2) + 1

def tz (n : Nat) : Nat := tz_go 64 n

/-! ### HLLType (python_hll/hlltype.py) -/

inductive HLLType where
  | EMPTY
  | EXPLICIT
  | SPARSE
  | FULL
  | UNDEFINED
deriving DecidableEq, Repr

/-! ### HLLUtil constants (python_hll/hllutil.py) -/

namespace HLLUtil

/-- Number of bits in a long (hllutil.py, LONG_BIT_LENGTH). -/
def LONG_BIT_LENGTH : Nat := 64

/-- Precomputed pw_max_mask values indexed by register width, verbatim
from hllutil.py PW_MASK (signed 64-bit longs). -/
def PW_MASK : List Int := [
  -9223372036854775808,
  -1,
  -4,
  -64,
  -16384,
  -1073741824,
  -4611686018427387904,
  -4611686018427387904,
  -4611686018427387904]

/-- Mask preventing register overflow (hllutil.py, pw_max_mask). -/
def pw_max_mask (register_size_in_bits : Nat) : Int :=
  PW_MASK.getD register_size_in_bits 0

end HLLUtil

/-! ### BitVector (python_hll/util.py, lines 216-372)

Words are the unsigned 64-bit residues of the Python longs; every Python
bit operation on the words is mirrored on the residues (the signed view
carried by the source is in bijection with this one). -/

namespace BitVector

def LOG2_BITS_PER_WORD : Nat := 6
def BITS_PER_WORD : Nat := 64
def BITS_PER_WORD_MASK : Nat := 63

/-- Backing words for width-bit registers, count of them: ceil of
width*count over 64 words, all zero (util.py, BitVector constructor). -/
def mk_words (width count : Nat) : List Nat :=
  List.replicate ((width * count + BITS_PER_WORD_MASK) >>> LOG2_BITS_PER_WORD) 0

/-- The register mask: width low bits set (util.py, register_mask field;
width is at most 8, so the long shift cannot wrap). -/
def register_mask (width : Nat) : Nat := 2 ^ width - 1

/-- View of one bit of the backing words: bit b of the vector is bit
b mod 64 of word b div 64.  This is the spec's notion of a bit position
in the register array, used to state the frame invariant. -/
def bitAt (words : List Nat) (b : Nat) : Bool := (words.getD (b / 64) 0).testBit (b % 64)

/-- Value at the given register index (util.py, get_register).  The
result of the source is always non-negative, so it is returned as a Nat. -/
def get_register (width : Nat) (words : List Nat) (register_index : Nat) : Nat :=
  let bit_index := register_index * width
  let first_word_index := bit_index >>> LOG2_BITS_PER_WORD
  let second_word_index := (bit_index + width - 1) >>> LOG2_BITS_PER_WORD
  let bit_remainder := bit_index &&& BITS_PER_WORD_MASK
  if first_word_index = second_word_index then
    (words.getD first_word_index 0 >>> bit_remainder) &&& register_mask width
  else
    (words.getD first_word_index 0 >>> bit_remainder) |||
      (((words.getD second_word_index 0 <<< (BITS_PER_WORD - bit_remainder)) % 2 ^ 64) &&&
        register_mask width)

/-- Store a value at the given register index (util.py, set_register).
The value is an arbitrary long; the left shifts wrap at 64 bits exactly
as np.int64 does, and the complement of the shifted mask is the 64-bit
complement not64. -/
def set_register (width : Nat) (words : List Nat) (register_index : Nat) (value : Int) :
    List Nat :=
  let bit_index := register_index * width
  let first_word_index := bit_index >>> LOG2_BITS_PER_WORD
  let second_word_index := (bit_index + width - 1) >>> LOG2_BITS_PER_WORD
  let bit_remainder := bit_index &&& BITS_PER_WORD_MASK
  if first_word_index = second_word_index then
    -- clear then set
    let w := words.getD first_word_index 0
    let w := w &&& not64 ((register_mask width <<< bit_remainder) % 2 ^ 64)
    let w := w ||| ((toU64 value <<< bit_remainder) % 2 ^ 64)
    words.set first_word_index w
  else
    -- register spans words: clear then set each partial word
    let w1 := words.getD first_word_index 0
    let w1 := w1 &&& (2 ^ bit_remainder - 1)
    let w1 := w1 ||| ((toU64 value <<< bit_remainder) % 2 ^ 64)
    let words := words.set first_word_index w1
    let w2 := words.getD second_word_index 0
    let w2 := w2 &&& not64 (register_mask width >>> (BITS_PER_WORD - bit_remainder))
    let w2 := w2 ||| (toU64 value >>> (BITS_PER_WORD - bit_remainder))
    words.set second_word_index w2

/-- Monotone-max store (util.py, set_max_register): reads the register
exactly as get_register does and overwrites it, exactly as set_register
does, only when the given value is strictly greater.  The boolean result
of the source is ignored by every caller and is not modelled. -/
def set_max_register (width : Nat) (words : List Nat) (register_index : Nat) (value : Int) :
    List Nat :=
  let register_value := get_register width words register_index
  if value > (register_value : Int) then set_register width words register_index value
  else words

/-- Fill every register with the given value (util.py, fill). -/
def fill (width count : Nat) (words : List Nat) (value : Int) : List Nat :=
  (List.range count).foldl (fun ws i => set_register width ws i value) words

/-- One step of the LongIterator (util.py, lines 193-213): yields the next
register value from the running word state. -/
def iter_step (width : Nat) (words : List Nat)
    (st : Nat × Nat × Nat) : Nat × (Nat × Nat × Nat) :=
  let (word_index, remaining_word_bits, word) := st
  if remaining_word_bits ≥ width then
    (word &&& register_mask width,
      (word_index, remaining_word_bits - width, word >>> width))
  else
    let word_index := word_index + 1
    let next := words.getD word_index 0
    let register := (word ||| ((next <<< remaining_word_bits) % 2 ^ 64)) &&& register_mask width
    (register,
      (word_index, remaining_word_bits + BITS_PER_WORD - width,
        next >>> (width - remaining_word_bits)))

/-- The register sequence produced by the LongIterator, in ascending
index order (util.py, register_iterator). -/
def register_values (width count : Nat) (words : List Nat) : List Nat :=
  (go count (0, BITS_PER_WORD, words.getD 0 0)).1
where
  go : Nat → Nat × Nat × Nat → List Nat × (Nat × Nat × Nat)
    | 0, st => ([], st)
    | n + 1, st =>
      let (r, st') := iter_step width words st
      let (rs, st'') := go n st'
      (r :: rs, st'')

end BitVector

/-! ### Big-endian ascending word serializer
(python_hll/serialization.py, lines 149-275)

Bytes are kept in unsigned 0..255 form; the source ORs in
to_signed_byte(aligned_bits), which carries the same low eight bits. -/

structure Ser where
  word_length : Nat
  word_count : Nat
  bytes : List Nat
  bits_left_in_byte : Nat
  byte_index : Nat
  words_written : Nat
deriving DecidableEq, Repr

namespace Ser

/-- Fresh serializer (serialization.py, BigEndianAscendingWordSerializer
constructor): the byte array is sized to ceil(word_length*word_count/8)
data bytes after byte_padding leading bytes. -/
def init (word_length word_count byte_padding : Nat) : Ser :=
  let bits_required := word_length * word_count
  let leftover_bits_inc := if bits_required % 8 ≠ 0 then 1 else 0
  let bytes_required := bits_required / 8 + leftover_bits_inc + byte_padding
  { word_length := word_length
    word_count := word_count
    bytes := List.replicate bytes_required 0
    bits_left_in_byte := 8
    byte_index := byte_padding
    words_written := 0 }

/-- The while loop of write_word (serialization.py, lines 222-262),
one iteration per recursive step.  The loop runs at most once per bit of
the word, so any fuel of at least bits_left_in_word makes the fuel-out
branch unreachable; write_word passes 2*64 fuel. -/
def write_chunks (fuel : Nat) (word : Int) (word_length : Nat) (bytes : List Nat)
    (byte_index bits_left_in_byte bits_left_in_word : Nat) : List Nat × Nat × Nat :=
  match fuel with
  | 0 => (bytes, byte_index, bits_left_in_byte)
  | fuel + 1 =>
    if bits_left_in_word = 0 then (bytes, byte_index, bits_left_in_byte)
    else
      -- move to the next byte if the current one is fully packed
      let byte_index := if bits_left_in_byte = 0 then byte_index + 1 else byte_index
      let bits_left_in_byte := if bits_left_in_byte = 0 then 8 else bits_left_in_byte
      let consumed_mask : Int :=
        if bits_left_in_word = 64 then -1 else 2 ^ bits_left_in_word - 1
      let number_of_bits_to_write := min bits_left_in_byte bits_left_in_word
      let bits_in_byte_remaining_after_write := bits_left_in_byte - number_of_bits_to_write
      -- word & consumed_mask: the low bits_left_in_word bits of the word
      let remaining_bits_of_word_to_write : Int :=
        if consumed_mask = -1 then word else word % (2 ^ bits_left_in_word : Int)
      let bits_that_the_byte_can_accept : Int :=
        if bits_left_in_word > number_of_bits_to_write then
          BitUtil.unsigned_right_shift_long remaining_bits_of_word_to_write
            (bits_left_in_word - bits_left_in_byte)
        else remaining_bits_of_word_to_write
      let aligned_bits :=
        BitUtil.left_shift_long bits_that_the_byte_can_accept
          bits_in_byte_remaining_after_write
      -- bytes[byte_index] |= to_signed_byte(aligned_bits), in unsigned form
      let bytes := bytes.set byte_index (bytes.getD byte_index 0 ||| toU64 aligned_bits &&& 255)
      write_chunks fuel word word_length bytes byte_index
        bits_in_byte_remaining_after_write (bits_left_in_word - number_of_bits_to_write)

/-- Append one word (serialization.py, write_word).  The source raises
when the serializer is already full; every use in this file writes
exactly word_count words, so that branch returns the state unchanged. -/
def write_word (s : Ser) (word : Int) : Ser :=
  if s.words_written = s.word_count then s
  else
    let (bytes, byte_index, bits_left) :=
      write_chunks 128 word s.word_length s.bytes s.byte_index s.bits_left_in_byte
        s.word_length
    { s with
        bytes := bytes
        byte_index := byte_index
        bits_left_in_byte := bits_left
        words_written := s.words_written + 1 }

/-- Backing byte array (serialization.py, get_bytes).  The source raises
unless exactly word_count words were written; every use in this file
satisfies that. -/
def get_bytes (s : Ser) : List Nat := s.bytes

end Ser

/-- Serialize a word sequence: the one-shot use pattern of the source
(construct, write every word, take the bytes). -/
def serialize_words (word_length byte_padding : Nat) (ws : List Int) : List Nat :=
  (ws.foldl Ser.write_word (Ser.init word_length ws.length byte_padding)).get_bytes

/-! ### Big-endian ascending word deserializer
(python_hll/serialization.py, lines 7-146) -/

namespace Deser

/-- Number of whole words in the data region (serialization.py,
total_word_count / word_count field). -/
def total_word_count (word_length byte_padding : Nat) (bytes : List Nat) : Nat :=
  ((bytes.length - byte_padding) * 8) / word_length

/-- Read the word at a sequence position (serialization.py, _read_word).
The accumulator follows the source exactly: bytes enter masked to their
unsigned value and the running value is shifted with the wrapping 64-bit
left shift, so a 64-bit word with its top bit set comes back negative.
Out-of-range positions, which the source rejects with an exception, read
the byte array as zero-extended; no theorem below relies on them. -/
def read_word (word_length byte_padding : Nat) (bytes : List Nat) (position : Nat) : Int :=
  let first_bit_index := position * word_length
  let first_byte_index := byte_padding + first_bit_index / 8
  let first_byte_skip_bits := first_bit_index % 8
  let last_bit_index := first_bit_index + word_length - 1
  let last_byte_index := byte_padding + last_bit_index / 8
  let bits_after_byte_boundary := (last_bit_index + 1) % 8
  let last_byte_bits_to_consume :=
    if bits_after_byte_boundary = 0 then 8 else bits_after_byte_boundary
  let bits_remaining_in_first_byte := 8 - first_byte_skip_bits
  let bits_to_consume_in_first_byte := min bits_remaining_in_first_byte word_length
  let first_byte := bytes.getD first_byte_index 0
  let first_byte := first_byte &&& (2 ^ bits_remaining_in_first_byte - 1)
  let first_byte := first_byte >>> (bits_remaining_in_first_byte - bits_to_consume_in_first_byte)
  let value : Int := (first_byte : Int)
  if first_byte_index = last_byte_index then value
  else
    let middle_byte_count := last_byte_index - first_byte_index - 1
    let value := (List.range middle_byte_count).foldl
      (fun v i =>
        let middle_byte := bytes.getD (first_byte_index + i + 1) 0 &&& 255
        pyOr (BitUtil.left_shift_long v 8) (middle_byte : Int))
      value
    let last_byte := (bytes.getD last_byte_index 0 &&& 255) >>> (8 - last_byte_bits_to_consume)
    pyOr (BitUtil.left_shift_long value last_byte_bits_to_consume) (last_byte : Int)

end Deser

/-- Bit x of a byte array under the codec's bit order: bytes in ascending
index order, bits most-significant-first inside each byte.  This is the
specification-side view of the stream that the big-endian ascending word
serializer writes and its deserializer reads. -/
def byte_bit (bytes : List Nat) (x : Nat) : Bool :=
  (bytes.getD (x / 8) 0).testBit (7 - x % 8)

/-! ### SerializationUtil and the schema-v1 frame
(python_hll/serialization.py, lines 278-732)

Header bytes are handled in their unsigned 0..255 form; the nibble and
field extractions below coincide with the source's operations on the
signed byte values (the source masks every extraction down to a few low
bits after an unsigned shift, which sees the same residue). -/

namespace SerializationUtil

def REGISTER_WIDTH_BITS : Nat := 3
def REGISTER_WIDTH_MASK : Nat := 2 ^ REGISTER_WIDTH_BITS - 1
def LOG2_REGISTER_COUNT_BITS : Nat := 5
def LOG2_REGISTER_COUNT_MASK : Nat := 2 ^ LOG2_REGISTER_COUNT_BITS - 1
def EXPLICIT_CUTOFF_BITS : Nat := 6
def EXPLICIT_CUTOFF_MASK : Nat := 2 ^ EXPLICIT_CUTOFF_BITS - 1
def NIBBLE_BITS : Nat := 4
def NIBBLE_MASK : Nat := 2 ^ NIBBLE_BITS - 1

/-- Version byte: schema version in the high nibble, type ordinal in the
low nibble (serialization.py, pack_version_byte). -/
def pack_version_byte (schema_version type_ordinal : Nat) : Nat :=
  ((NIBBLE_MASK &&& schema_version) <<< NIBBLE_BITS) ||| (NIBBLE_MASK &&& type_ordinal)

/-- Cutoff byte: sparse-enabled flag on bit 6, explicit cutoff value in
the low six bits (serialization.py, pack_cutoff_byte). -/
def pack_cutoff_byte (explicit_cutoff : Nat) (sparse_enabled : Bool) : Nat :=
  let sparse_bit := if sparse_enabled then 1 <<< EXPLICIT_CUTOFF_BITS else 0
  sparse_bit ||| (EXPLICIT_CUTOFF_MASK &&& explicit_cutoff)

/-- Parameters byte: register width minus one in the high three bits,
log2 of the register count in the low five (serialization.py,
pack_parameters_byte). -/
def pack_parameters_byte (register_width register_count_log2 : Nat) : Nat :=
  let width_bits := (register_width - 1) &&& REGISTER_WIDTH_MASK
  let count_bits := register_count_log2 &&& LOG2_REGISTER_COUNT_MASK
  (width_bits <<< LOG2_REGISTER_COUNT_BITS) ||| count_bits

/-- Extract the sparse-enabled flag (serialization.py, sparse_enabled). -/
def sparse_enabled (cutoff_byte : Nat) : Bool :=
  ((cutoff_byte >>> EXPLICIT_CUTOFF_BITS) &&& 1) = 1

/-- Extract the explicit cutoff value (serialization.py, explicit_cutoff). -/
def explicit_cutoff (cutoff_byte : Nat) : Nat := cutoff_byte &&& EXPLICIT_CUTOFF_MASK

/-- Extract the schema version nibble (serialization.py, schema_version). -/
def schema_version (version_byte : Nat) : Nat := NIBBLE_MASK &&& (version_byte >>> NIBBLE_BITS)

/-- Extract the type ordinal nibble (serialization.py, type_ordinal). -/
def type_ordinal (version_byte : Nat) : Nat := version_byte &&& NIBBLE_MASK

/-- Extract the register width (serialization.py, register_width). -/
def register_width (parameters_byte : Nat) : Nat :=
  ((parameters_byte >>> LOG2_REGISTER_COUNT_BITS) &&& REGISTER_WIDTH_MASK) + 1

/-- Extract log2 of the register count (serialization.py,
register_count_log2). -/
def register_count_log2 (parameters_byte : Nat) : Nat :=
  parameters_byte &&& LOG2_REGISTER_COUNT_MASK

end SerializationUtil

namespace SchemaVersionOne

def SCHEMA_VERSION : Nat := 1
def HEADER_BYTE_COUNT : Nat := 3
def EXPLICIT_OFF : Nat := 0
def EXPLICIT_AUTO : Nat := 63

/-- Number of metadata padding bytes for any type (serialization.py,
padding_bytes). -/
def padding_bytes : Nat := HEADER_BYTE_COUNT

/-- Ordinal of an HLLType in the schema's TYPE_ORDINALS list. -/
def get_ordinal : HLLType → Nat
  | .UNDEFINED => 0
  | .EMPTY => 1
  | .EXPLICIT => 2
  | .SPARSE => 3
  | .FULL => 4

/-- Type for an ordinal; ordinals above 4 are rejected by the source with
a ValueError (serialization.py, _get_type). -/
def get_type (ordinal : Nat) : Except String HLLType :=
  match ordinal with
  | 0 => .ok .UNDEFINED
  | 1 => .ok .EMPTY
  | 2 => .ok .EXPLICIT
  | 3 => .ok .SPARSE
  | 4 => .ok .FULL
  | _ => .error "Invalid type ordinal. Only 0-4 inclusive allowed"

end SchemaVersionOne

/-- Metadata record recovered from or written to a frame header
(serialization.py, HLLMetadata). -/
structure HLLMetadata where
  schema_version : Nat
  hll_type : HLLType
  register_count_log2 : Nat
  register_width : Nat
  log2_explicit_cutoff : Int
  explicit_off : Bool
  explicit_auto : Bool
  sparse_enabled : Bool
deriving DecidableEq, Repr

namespace SchemaVersionOne

/-- Write the three header bytes (serialization.py, write_metadata). -/
def write_metadata (bytes : List Nat) (metadata : HLLMetadata) : List Nat :=
  let type_ordinal := get_ordinal metadata.hll_type
  let explicit_cut_off_value : Nat :=
    if metadata.explicit_off then EXPLICIT_OFF
    else if metadata.explicit_auto then EXPLICIT_AUTO
    else (metadata.log2_explicit_cutoff + 1).toNat
  let bytes := bytes.set 0 (SerializationUtil.pack_version_byte SCHEMA_VERSION type_ordinal)
  let bytes := bytes.set 1
    (SerializationUtil.pack_parameters_byte metadata.register_width metadata.register_count_log2)
  bytes.set 2 (SerializationUtil.pack_cutoff_byte explicit_cut_off_value metadata.sparse_enabled)

/-- Read the three header bytes (serialization.py, read_metadata). -/
def read_metadata (bytes : List Nat) : Except String HLLMetadata :=
  let version_byte := bytes.getD 0 0
  let parameters_byte := bytes.getD 1 0
  let cutoff_byte := bytes.getD 2 0
  let type_ordinal := SerializationUtil.type_ordinal version_byte
  let explicit_cut_off_value := SerializationUtil.explicit_cutoff cutoff_byte
  let explicit_off := explicit_cut_off_value = EXPLICIT_OFF
  let explicit_auto := explicit_cut_off_value = EXPLICIT_AUTO
  let log2_explicit_cutoff : Int :=
    if explicit_off ∨ explicit_auto then -1 else (explicit_cut_off_value : Int) - 1
  match get_type type_ordinal with
  | .error e => .error e
  | .ok t =>
    .ok { schema_version := SCHEMA_VERSION
          hll_type := t
          register_count_log2 := SerializationUtil.register_count_log2 parameters_byte
          register_width := SerializationUtil.register_width parameters_byte
          log2_explicit_cutoff := log2_explicit_cutoff
          explicit_off := explicit_off
          explicit_auto := explicit_auto
          sparse_enabled := SerializationUtil.sparse_enabled cutoff_byte }

end SchemaVersionOne

/-! ### Python container helpers -/

/-- Insert into an ascending list, keeping it ascending: one step of the
insertion sort modelling Python's sorted(). -/
def insert_sorted (v : Int) : List Int → List Int
  | [] => [v]
  | x :: xs => if v ≤ x then v :: x :: xs else x :: insert_sorted v xs

/-- Ascending sort of a list of ints: Python's sorted() builtin. -/
def py_sorted (l : List Int) : List Int := l.foldr insert_sorted []

/-- Insert into an ascending list of naturals, keeping it ascending. -/
def insert_sorted_nat (v : Nat) : List Nat → List Nat
  | [] => [v]
  | x :: xs => if v ≤ x then v :: x :: xs else x :: insert_sorted_nat v xs

/-- Ascending sort of a list of naturals: Python's sorted() builtin. -/
def py_sorted_nat (l : List Nat) : List Nat := l.foldr insert_sorted_nat []

/-- Insert a value into a Python set of ints, modelled as a strictly
ascending list (insertion is a no-op when the value is present). -/
def set_add : List Int → Int → List Int
  | [], v => [v]
  | x :: xs, v =>
    if v < x then v :: x :: xs
    else if v = x then x :: xs
    else x :: set_add xs v

/-- Python dict read with a default (d.get(k, dflt)). -/
def dict_get (d : List (Nat × Int)) (k : Nat) (dflt : Int) : Int :=
  match d.lookup k with
  | some v => v
  | none => dflt

/-- Python dict write (d[k] = v): updating an existing key keeps its
position, a new key is appended. -/
def dict_set (d : List (Nat × Int)) (k : Nat) (v : Int) : List (Nat × Int) :=
  if (d.lookup k).isSome then d.map (fun p => if p.1 = k then (k, v) else p)
  else d ++ [(k, v)]

/-! ### The HLL state (python_hll/hll.py)

One record holds the characteristic parameters, the computed constants
that later operations read, the representation tag, and the three
storages.  A storage that the source sets to None (or never creates) is
the empty list here.  The floating-point constants alpha_m_squared and
the two estimator cutoffs are not modelled; no claim depends on them. -/

structure HLL where
  log2m : Nat
  regwidth : Nat
  explicit_auto : Bool
  explicit_off : Bool
  explicit_threshold : Nat
  sparse_off : Bool
  sparse_threshold : Nat
  type : HLLType
  explicit_storage : List Int
  sparse_storage : List (Nat × Int)
  probabilistic_storage : List Nat
deriving DecidableEq, Repr

/-- Per the storage spec, the largest explicit threshold: the source's
HLL.MAXIMUM_EXPLICIT_THRESHOLD, left_shift_int(1, 18 - 1) = 131072. -/
def MAXIMUM_EXPLICIT_THRESHOLD : Nat := 131072

namespace HLL

/-- Register count: the source stores left_shift_int(1, log2m), which
equals this power for every constructible state (log2m at most 30). -/
def m (h : HLL) : Nat := 2 ^ h.log2m

/-- Mask of the low log2m bits (hll.py, _m_bits_mask). -/
def m_bits_mask (h : HLL) : Nat := h.m - 1

/-- Mask as wide as a register (hll.py, _value_mask); regwidth is at
most 8, so the int shift cannot wrap. -/
def value_mask (h : HLL) : Nat := 2 ^ h.regwidth - 1

/-- Width of sparse on-the-wire words (hll.py, _short_word_length). -/
def short_word_length (h : HLL) : Nat := h.regwidth + h.log2m

end HLL

/-- Initialize storage for a type and set the tag (hll.py,
_initialize_storage).  The source raises on UNDEFINED; every call site
in this file dispatches UNDEFINED away first, so it is returned inert. -/
def init_storage (h : HLL) (t : HLLType) : HLL :=
  match t with
  | .EMPTY => { h with type := t }
  | .EXPLICIT => { h with type := t, explicit_storage := [] }
  | .SPARSE => { h with type := t, sparse_storage := [] }
  | .FULL =>
    { h with type := t, probabilistic_storage := BitVector.mk_words h.regwidth h.m }
  | .UNDEFINED => h

/-- The constructor (hll.py, lines 94-176).  Raises are errors; the
documented log2m range check is transcribed exactly, including the
comparison against MAXIMUM_EXPLICIT_THRESHOLD where the error text
promises 30.  The check that m is at least 16 is raised by
HLLUtil.alpha_m_squared (hllutil.py line 69), which the constructor
calls unconditionally; the float value it returns is not modelled. -/
def mkHLL (log2m regwidth expthresh : Int) (sparseon : Bool) (type : HLLType) :
    Except String HLL :=
  if log2m < 4 ∨ log2m > (MAXIMUM_EXPLICIT_THRESHOLD : Int) then
    .error "log2m must be at least 4 and at most 30"
  else if regwidth < 1 ∨ regwidth > 8 then
    .error "regwidth must be at least 1 and at most 8"
  else
    let lm := log2m.toNat
    let w := regwidth.toNat
    let mI := BitUtil.left_shift_int 1 lm
    if mI < 16 then .error "m cannot be less than 16"
    else
      let mN := mI.toNat
      let flags : Except String (Bool × Bool × Nat) :=
        if expthresh = -1 then
          -- auto mode: min of the number of longs in a full representation
          -- and the maximum explicit threshold (hll.py, lines 144-155)
          let full_representation_size := (w * mN + 7) / 8
          let num_longs := full_representation_size / 8
          .ok (true, false,
            if num_longs > MAXIMUM_EXPLICIT_THRESHOLD then MAXIMUM_EXPLICIT_THRESHOLD
            else num_longs)
        else if expthresh = 0 then .ok (false, true, 0)
        else if 0 < expthresh ∧ expthresh ≤ 18 then
          -- left_shift_int(1, expthresh - 1); the exponent is at most 17
          .ok (false, false, 2 ^ (expthresh.toNat - 1))
        else .error "expthresh must be at least -1 and at most 18"
      match flags with
      | .error e => .error e
      | .ok flags =>
        let short_word_length := w + lm
        let sparse_threshold :=
          if sparseon then
            -- int(NumberUtil.log2((m * regwidth) / short_word_length)) then
            -- left_shift_int; checked exact against the source's float path
            -- on every admissible parameter pair
            2 ^ log2_floor ((mN * w) / short_word_length)
          else 0
        let base : HLL :=
          { log2m := lm
            regwidth := w
            explicit_auto := flags.1
            explicit_off := flags.2.1
            explicit_threshold := flags.2.2
            sparse_off := !sparseon
            sparse_threshold := sparse_threshold
            type := .EMPTY
            explicit_storage := []
            sparse_storage := []
            probabilistic_storage := [] }
        match type with
        | .UNDEFINED => .error "Unsupported HLL type"
        | t => .ok (init_storage base t)

/-- The rank p_w computed identically by both probabilistic update paths
(hll.py, _add_raw_sparse_probabilistic and _add_raw_probabilistic,
lines 282-323): zero for a zero substream, else one plus the
least-significant set bit of the substream ored with pw_max_mask. -/
def p_w (log2m regwidth : Nat) (raw_value : Int) : Int :=
  let sub_stream_value := BitUtil.unsigned_right_shift_long raw_value log2m
  if sub_stream_value = 0 then 0
  else BitUtil.to_signed_byte
    (1 + BitUtil.least_significant_bit (pyOr sub_stream_value (HLLUtil.pw_max_mask regwidth)))

/-- Sparse-path probabilistic update (hll.py, _add_raw_sparse_probabilistic). -/
def add_raw_sparse_probabilistic (h : HLL) (raw_value : Int) : HLL :=
  let sub_stream_value := BitUtil.unsigned_right_shift_long raw_value h.log2m
  let p_w : Int :=
    if sub_stream_value = 0 then 0
    else BitUtil.to_signed_byte
      (1 + BitUtil.least_significant_bit (pyOr sub_stream_value (HLLUtil.pw_max_mask h.regwidth)))
  if p_w = 0 then h
  else
    let j := landU raw_value h.m_bits_mask
    let current_value := dict_get h.sparse_storage j 0
    if p_w > current_value then { h with sparse_storage := dict_set h.sparse_storage j p_w }
    else h

/-- Full-path probabilistic update (hll.py, _add_raw_probabilistic). -/
def add_raw_probabilistic (h : HLL) (raw_value : Int) : HLL :=
  let sub_stream_value := BitUtil.unsigned_right_shift_long raw_value h.log2m
  let p_w : Int :=
    if sub_stream_value = 0 then 0
    else BitUtil.to_signed_byte
      (1 + BitUtil.least_significant_bit (pyOr sub_stream_value (HLLUtil.pw_max_mask h.regwidth)))
  if p_w = 0 then h
  else
    let j := landU raw_value h.m_bits_mask
    { h with probabilistic_storage :=
        BitVector.set_max_register h.regwidth h.probabilistic_storage j p_w }

/-- Copy every sparse register into the full storage with monotone-max
writes: the promotion loop shared by add_raw and homogeneous_union. -/
def promote_sparse_entries (h : HLL) (entries : List (Nat × Int)) : HLL :=
  entries.foldl
    (fun h p =>
      { h with probabilistic_storage :=
          BitVector.set_max_register h.regwidth h.probabilistic_storage p.1 p.2 })
    h

/-- Insert a pre-hashed value (hll.py, add_raw).  The source raises on
UNDEFINED; that tag is unreachable from every constructible state and is
returned inert. -/
def add_raw (h : HLL) (raw_value : Int) : HLL :=
  match h.type with
  | .EMPTY =>
    if h.explicit_threshold > 0 then
      let h := init_storage h .EXPLICIT
      { h with explicit_storage := set_add h.explicit_storage raw_value }
    else if ¬h.sparse_off then
      add_raw_sparse_probabilistic (init_storage h .SPARSE) raw_value
    else
      add_raw_probabilistic (init_storage h .FULL) raw_value
  | .EXPLICIT =>
    let h := { h with explicit_storage := set_add h.explicit_storage raw_value }
    if h.explicit_storage.length > h.explicit_threshold then
      if ¬h.sparse_off then
        let values := h.explicit_storage
        let h := values.foldl add_raw_sparse_probabilistic (init_storage h .SPARSE)
        { h with explicit_storage := [] }
      else
        let values := h.explicit_storage
        let h := values.foldl add_raw_probabilistic (init_storage h .FULL)
        { h with explicit_storage := [] }
    else h
  | .SPARSE =>
    let h := add_raw_sparse_probabilistic h raw_value
    if h.sparse_storage.length > h.sparse_threshold then
      let entries := h.sparse_storage
      let h := promote_sparse_entries (init_storage h .FULL) entries
      { h with sparse_storage := [] }
    else h
  | .FULL => add_raw_probabilistic h raw_value
  | .UNDEFINED => h

/-- Reset contents, preserving the tag (hll.py, clear). -/
def clear (h : HLL) : HLL :=
  match h.type with
  | .EMPTY => h
  | .EXPLICIT => { h with explicit_storage := [] }
  | .SPARSE => { h with sparse_storage := [] }
  | .FULL =>
    { h with probabilistic_storage :=
        BitVector.fill h.regwidth h.m h.probabilistic_storage 0 }
  | .UNDEFINED => h

/-! ### Union (hll.py, lines 491-691)

The source performs no compatibility validation: the TODO comment at the
top of union admits the check is missing, and the twelve tag cases merge
whatever storages the two operands hold.  Deep copies are plain values
here. -/

/-- Union into an EMPTY destination (hll.py,
_heterogeneous_union_for_empty_hll). -/
def heterogeneous_union_for_empty_hll (h other : HLL) : HLL :=
  match other.type with
  | .EXPLICIT =>
    if other.explicit_storage.length ≤ h.explicit_threshold then
      { h with type := .EXPLICIT, explicit_storage := other.explicit_storage }
    else
      let h :=
        if ¬h.sparse_off then init_storage h .SPARSE
        else init_storage h .FULL
      other.explicit_storage.foldl add_raw h
  | .SPARSE =>
    if ¬h.sparse_off then
      { h with type := .SPARSE, sparse_storage := other.sparse_storage }
    else
      promote_sparse_entries (init_storage h .FULL) other.sparse_storage
  | _ =>
    -- case FULL
    { h with type := .FULL, probabilistic_storage := other.probabilistic_storage }

/-- Union of two non-empty HLLs of different tags (hll.py,
_heterogeneous_union_for_non_empty_hll). -/
def heterogeneous_union_for_non_empty_hll (h other : HLL) : HLL :=
  match h.type with
  | .EXPLICIT =>
    -- reshape the destination into the source's representation, then
    -- fold the old explicit values back in through add_raw
    let h :=
      if other.type = .SPARSE then
        if ¬h.sparse_off then
          { h with type := .SPARSE, sparse_storage := other.sparse_storage }
        else
          promote_sparse_entries (init_storage h .FULL) other.sparse_storage
      else
        { h with type := .FULL, probabilistic_storage := other.probabilistic_storage }
    let values := h.explicit_storage
    let h := values.foldl add_raw h
    { h with explicit_storage := [] }
  | .SPARSE =>
    if other.type = .EXPLICIT then
      other.explicit_storage.foldl add_raw h
    else
      -- source is FULL: clone it and merge the old sparse registers in
      let entries := h.sparse_storage
      let h := { h with type := .FULL, probabilistic_storage := other.probabilistic_storage }
      let h := promote_sparse_entries h entries
      { h with sparse_storage := [] }
  | _ =>
    -- destination is FULL
    if other.type = .EXPLICIT then
      other.explicit_storage.foldl add_raw h
    else
      promote_sparse_entries h other.sparse_storage

/-- Heterogeneous union dispatcher (hll.py, _heterogenous_union). -/
def heterogenous_union (h other : HLL) : HLL :=
  if h.type = .EMPTY then heterogeneous_union_for_empty_hll h other
  else if other.type = .EMPTY then h
  else heterogeneous_union_for_non_empty_hll h other

/-- Union of two HLLs of the same tag (hll.py, _homogeneous_union).  In
the FULL case the source indexes the other operand's registers up to the
destination's register count; with mismatched parameters that read
raises IndexError in Python, while here missing words read as zero.  No
theorem below exercises that mismatch. -/
def homogeneous_union (h other : HLL) : HLL :=
  match h.type with
  | .EMPTY => h
  | .EXPLICIT => other.explicit_storage.foldl add_raw h
  | .SPARSE =>
    let h := other.sparse_storage.foldl
      (fun h p =>
        let register_value := p.2
        let current_register_value := dict_get h.sparse_storage p.1 0
        if register_value > current_register_value then
          { h with sparse_storage := dict_set h.sparse_storage p.1 register_value }
        else h)
      h
    if h.sparse_storage.length > h.sparse_threshold then
      let entries := h.sparse_storage
      let h := promote_sparse_entries (init_storage h .FULL) entries
      { h with sparse_storage := [] }
    else h
  | .FULL =>
    (List.range h.m).foldl
      (fun h i =>
        let register_value := BitVector.get_register other.regwidth other.probabilistic_storage i
        { h with probabilistic_storage :=
            (BitVector.set_max_register h.regwidth h.probabilistic_storage i
              (register_value : Int)) })
      h
  | .UNDEFINED => h

/-- Union, storing the result in the first operand (hll.py, union).  No
parameter compatibility is verified (the source's TODO). -/
def union (h other : HLL) : HLL :=
  if h.type = other.type then homogeneous_union h other
  else heterogenous_union h other

/-! ### Serialization of an HLL (hll.py, to_bytes / from_bytes) -/

/-- Serialize to the schema-v1 byte layout (hll.py, to_bytes).  Explicit
values and sparse register indices are sorted exactly as the source's
sorted() calls do; word serializers are sized and driven identically.
The UNDEFINED tag, on which the source raises, yields an empty array. -/
def to_bytes (h : HLL) : List Nat :=
  let byte_array :=
    match h.type with
    | .EMPTY => List.replicate SchemaVersionOne.padding_bytes 0
    | .EXPLICIT =>
      let values := py_sorted h.explicit_storage
      (values.foldl Ser.write_word
        (Ser.init HLLUtil.LONG_BIT_LENGTH h.explicit_storage.length
          SchemaVersionOne.padding_bytes)).get_bytes
    | .SPARSE =>
      let indices := py_sorted_nat (h.sparse_storage.map Prod.fst)
      (indices.foldl
        (fun s register_index =>
          let register_value := dict_get h.sparse_storage register_index 0
          -- pack index and value into a short word
          let short_word :=
            pyOr (BitUtil.left_shift_int (register_index : Int) h.regwidth) register_value
          s.write_word short_word)
        (Ser.init h.short_word_length h.sparse_storage.length
          SchemaVersionOne.padding_bytes)).get_bytes
    | .FULL =>
      ((BitVector.register_values h.regwidth h.m h.probabilistic_storage).foldl
        Ser.write_word
        (Ser.init h.regwidth h.m SchemaVersionOne.padding_bytes)).get_bytes
    | .UNDEFINED => []
  let log2_explicit_threshold : Int :=
    if ¬(h.explicit_auto || h.explicit_off) then (log2_floor h.explicit_threshold : Int)
    else 0
  SchemaVersionOne.write_metadata byte_array
    { schema_version := SchemaVersionOne.SCHEMA_VERSION
      hll_type := h.type
      register_count_log2 := h.log2m
      register_width := h.regwidth
      log2_explicit_cutoff := log2_explicit_threshold
      explicit_off := h.explicit_off
      explicit_auto := h.explicit_auto
      sparse_enabled := !h.sparse_off }

/-- Deserialize from the schema-v1 byte layout (hll.py, from_bytes). -/
def from_bytes (bytes : List Nat) : Except String HLL :=
  -- SerializationUtil.get_schema_version: only schema version one is
  -- registered; other numbers raise
  let version_byte := bytes.getD 0 0
  if SerializationUtil.schema_version version_byte ≠ SchemaVersionOne.SCHEMA_VERSION then
    .error "Unknown schema version number"
  else
    match SchemaVersionOne.read_metadata bytes with
    | .error e => .error e
    | .ok metadata =>
      let t := metadata.hll_type
      let reg_width := metadata.register_width
      let log_2m := metadata.register_count_log2
      let sparseon := metadata.sparse_enabled
      let expthresh : Int :=
        if metadata.explicit_auto then -1
        else if metadata.explicit_off then 0
        else metadata.log2_explicit_cutoff + 1
      match mkHLL (log_2m : Int) (reg_width : Int) expthresh sparseon t with
      | .error e => .error e
      | .ok hll =>
        -- short-circuit on empty, which needs no other deserialization
        if t = .EMPTY then .ok hll
        else match t with
        | .EXPLICIT =>
          let word_length := HLLUtil.LONG_BIT_LENGTH
          let n := Deser.total_word_count word_length SchemaVersionOne.padding_bytes bytes
          .ok ((List.range n).foldl
            (fun h i =>
              { h with explicit_storage :=
                  (set_add h.explicit_storage
                    (Deser.read_word word_length SchemaVersionOne.padding_bytes bytes i)) })
            hll)
        | .SPARSE =>
          let word_length := hll.short_word_length
          let n := Deser.total_word_count word_length SchemaVersionOne.padding_bytes bytes
          .ok ((List.range n).foldl
            (fun h i =>
              let short_word := Deser.read_word word_length SchemaVersionOne.padding_bytes bytes i
              let register_value :=
                BitUtil.to_signed_byte ((landU short_word h.value_mask : Nat) : Int)
              -- only set non-zero registers
              if register_value ≠ 0 then
                let register_key := toU64 short_word >>> h.regwidth
                { h with sparse_storage := dict_set h.sparse_storage register_key register_value }
              else h)
            hll)
        | .FULL =>
          let word_length := hll.regwidth
          .ok ((List.range hll.m).foldl
            (fun h i =>
              { h with probabilistic_storage :=
                  (BitVector.set_register h.regwidth h.probabilistic_storage i
                    (Deser.read_word word_length SchemaVersionOne.padding_bytes bytes i)) })
            hll)
        | _ => .error "Unsupported HLL type"

/-! ### Concrete states used by the claim analyses -/

/-- Extract the success value of an Except, with a fallback. -/
def except_get_ok {ε α : Type} (d : α) : Except ε α → α
  | .ok a => a
  | .error _ => d

/-- Placeholder state used only as the unreachable fallback of
except_get_ok. -/
def dummyHLL : HLL :=
  { log2m := 0, regwidth := 0, explicit_auto := false, explicit_off := false,
    explicit_threshold := 0, sparse_off := false, sparse_threshold := 0,
    type := .EMPTY, explicit_storage := [], sparse_storage := [],
    probabilistic_storage := [] }

/-- HLL(log2m = 4, regwidth = 5, expthresh = 5, sparseon), whose explicit
threshold is 16 and sparse threshold is 8: the configuration where the
Explicit-to-Sparse promotion overshoots the sparse threshold. -/
def overshoot_base : HLL := except_get_ok dummyHLL (mkHLL 4 5 5 true .EMPTY)

/-- The overshoot scenario after adding the sixteen values 16..31: an
Explicit HLL holding exactly explicit_threshold values. -/
def overshoot_h16 : HLL :=
  (List.range 16).foldl (fun h i => add_raw h (16 + (i : Int))) overshoot_base

/-! ### Reachability and structural invariants -/

instance {ε α : Type} [DecidableEq ε] [DecidableEq α] : DecidableEq (Except ε α) := fun a b =>
  match a, b with
  | .ok x, .ok y => if h : x = y then .isTrue (by rw [h]) else .isFalse (by simp [h])
  | .error x, .error y => if h : x = y then .isTrue (by rw [h]) else .isFalse (by simp [h])
  | .ok _, .error _ => .isFalse (by simp)
  | .error _, .ok _ => .isFalse (by simp)

/-- Operand compatibility for union: the parameter fields and computed
configuration agree (the compatibility that hll.py's union leaves to its
callers). -/
def SameParams (a b : HLL) : Prop :=
  a.log2m = b.log2m ∧ a.regwidth = b.regwidth ∧ a.explicit_auto = b.explicit_auto ∧
  a.explicit_off = b.explicit_off ∧ a.explicit_threshold = b.explicit_threshold ∧
  a.sparse_off = b.sparse_off ∧ a.sparse_threshold = b.sparse_threshold

/-- Structural well-formedness of an HLL state: the parameter ranges, the
tag/storage coherence, and the container invariants that hold for every
state the public operations can produce. -/
structure Inv (h : HLL) : Prop where
  log2m_lb : 4 ≤ h.log2m
  log2m_ub : h.log2m ≤ 30
  regwidth_lb : 1 ≤ h.regwidth
  regwidth_ub : h.regwidth ≤ 8
  type_ok : h.type ≠ .UNDEFINED
  full_len : h.type = .FULL → h.probabilistic_storage.length = (h.regwidth * h.m + 63) / 64
  full_words_lt : ∀ w ∈ h.probabilistic_storage, w < 2 ^ 64
  explicit_sorted : List.Sorted (· < ·) h.explicit_storage
  explicit_size : h.type = .EXPLICIT → h.explicit_storage.length ≤ h.explicit_threshold
  sparse_nodup : (h.sparse_storage.map Prod.fst).Nodup
  sparse_keys : ∀ p ∈ h.sparse_storage, p.1 < h.m
  sparse_values : ∀ p ∈ h.sparse_storage, 1 ≤ p.2 ∧ p.2 ≤ ((2 ^ h.regwidth - 1 : Nat) : Int)
  sparse_size : h.type = .SPARSE →
    h.sparse_storage.length ≤ max h.sparse_threshold (h.explicit_threshold + 1)

/-- States reachable through the public mutating interface: construction
with any arguments the constructor accepts, add_raw, clear, and union of
two reachable states over compatible parameters. -/
inductive Reached : HLL → Prop where
  | init : ∀ (log2m regwidth expthresh : Int) (sparseon : Bool) (t : HLLType) (h : HLL),
      mkHLL log2m regwidth expthresh sparseon t = .ok h → Reached h
  | add : ∀ (h : HLL) (v : Int), Reached h → Reached (add_raw h v)
  | clr : ∀ (h : HLL), Reached h → Reached (clear h)
  | uni : ∀ (a b : HLL), Reached a → Reached b → SameParams a b → Reached (union a b)

/-! ## Theorems

First a layer of facts about the 64-bit emulation and the
least-significant-bit cascade, then the BitVector, the word codec, the
state-machine invariants, and finally the claim theorems. -/

theorem toU64_lt (v : Int) : toU64 v < 2 ^ 64 := by
  have h := Int.emod_lt_of_pos v (b := (2 : Int) ^ 64) (by norm_num)
  have h0 := Int.emod_nonneg v (b := (2 : Int) ^ 64) (by norm_num)
  unfold toU64
  omega

theorem toU64_of_nonneg {v : Int} (h0 : 0 ≤ v) (hlt : v < 2 ^ 64) : toU64 v = v.toNat := by
  unfold toU64
  rw [Int.emod_eq_of_lt h0 (by exact_mod_cast hlt)]

theorem toU64_natCast (n : Nat) (h : n < 2 ^ 64) : toU64 (n : Int) = n := by
  rw [toU64_of_nonneg (by positivity) (by exact_mod_cast h)]
  exact Int.toNat_natCast n

theorem toU64_ofU64 (n : Nat) (h : n < 2 ^ 64) : toU64 (ofU64 n) = n := by
  unfold ofU64
  split
  · exact toU64_natCast n h
  · unfold toU64
    have : ((n : Int) - 2 ^ 64) % 2 ^ 64 = (n : Int) % 2 ^ 64 := by
      omega
    rw [this, Int.emod_eq_of_lt (by positivity) (by exact_mod_cast h)]
    exact Int.toNat_natCast n

theorem ofU64_ne_zero (n : Nat) (h : n ≠ 0) (hlt : n < 2 ^ 64) : ofU64 n ≠ 0 := by
  unfold ofU64
  split <;> intro hc <;> omega

/-! ### The least-significant-bit cascade -/

set_option maxRecDepth 100000 in
theorem lsb_table_le_seven :
    ∀ i, i < 256 → BitUtil.LEAST_SIGNIFICANT_BIT.getD i 0 ≤ 7 := by decide

set_option maxRecDepth 100000 in
theorem lsb_table_nonneg :
    ∀ i, i < 256 → i ≠ 0 → 0 ≤ BitUtil.LEAST_SIGNIFICANT_BIT.getD i 0 := by decide

set_option maxRecDepth 400000 in
theorem lsb_table_le_of_testBit :
    ∀ i, i < 256 → ∀ j : Nat, j < 8 → i.testBit j = true →
      BitUtil.LEAST_SIGNIFICANT_BIT.getD i 0 ≤ (j : Int) := by decide

/-- Bits below a zeroed low mask are clear. -/
theorem testBit_false_of_low_zero {R s j : Nat} (h : R &&& (2 ^ s - 1) = 0) (hj : j < s) :
    R.testBit j = false := by
  have := congrArg (fun z => z.testBit j) h
  simp only [Nat.testBit_land, Nat.testBit_two_pow_sub_one, Nat.zero_testBit] at this
  rcases hb : R.testBit j with _ | _
  · rfl
  · rw [hb] at this
    simp [hj] at this

/-- A set bit lies at or above a zeroed low mask. -/
theorem le_of_low_zero_testBit {R s k : Nat} (h : R &&& (2 ^ s - 1) = 0)
    (hk : R.testBit k = true) : s ≤ k := by
  by_contra hc
  rw [testBit_false_of_low_zero h (by omega)] at hk
  exact Bool.false_ne_true hk

/-- The byte group selected by a cascade branch is nonzero once the lower
groups are zero and the group's guard holds. -/
theorem byte_ne_zero_of_group {R b : Nat}
    (hlow : R &&& (2 ^ (8 * b) - 1) = 0)
    (hgrp : R &&& (2 ^ (8 * b + 8) - 1) ≠ 0) :
    (R >>> (8 * b)) &&& 255 ≠ 0 := by
  intro hidx
  apply hgrp
  apply Nat.eq_of_testBit_eq
  intro j
  simp only [Nat.testBit_land, Nat.testBit_two_pow_sub_one, Nat.zero_testBit]
  rcases lt_or_le j (8 * b) with hj | hj
  · rw [testBit_false_of_low_zero hlow hj]
    rfl
  · rcases lt_or_le j (8 * b + 8) with hj2 | hj2
    · have : ((R >>> (8 * b)) &&& 255).testBit (j - 8 * b) = false := by
        rw [hidx]
        exact Nat.zero_testBit _
      have h255 : (255 : Nat) = 2 ^ 8 - 1 := by norm_num
      rw [h255] at this
      simp only [Nat.testBit_land, Nat.testBit_shiftRight, Nat.testBit_two_pow_sub_one] at this
      have harith : 8 * b + (j - 8 * b) = j := by omega
      rw [harith] at this
      have : R.testBit j = false := by
        rcases hb : R.testBit j with _ | _
        · rfl
        · rw [hb] at this
          simp [show j - 8 * b < 8 by omega] at this
      rw [this]
      rfl
    · simp [show ¬(j < 8 * b + 8) by omega]

/-- Bound for one cascade branch: with the low 8*b bits zero and bit k
set, the branch's table value plus 8*b lands in the interval from 0 to k.
The hypothesis hbyte is needed only when bit k lies above the branch's
byte; it is supplied from the branch guard, or from hk being inside the
byte. -/
theorem branch_result_bound {R k b : Nat}
    (hbit : R.testBit k = true)
    (hlow : R &&& (2 ^ (8 * b) - 1) = 0)
    (hbyte : k < 8 * b + 8 ∨ (R >>> (8 * b)) &&& 255 ≠ 0) :
    0 ≤ BitUtil.LEAST_SIGNIFICANT_BIT.getD ((R >>> (8 * b)) &&& 255) 0 + 8 * b ∧
    BitUtil.LEAST_SIGNIFICANT_BIT.getD ((R >>> (8 * b)) &&& 255) 0 + 8 * b ≤ (k : Int) := by
  have hkb : 8 * b ≤ k := le_of_low_zero_testBit hlow hbit
  have hidx_lt : (R >>> (8 * b)) &&& 255 < 256 := by
    have := Nat.and_le_right (n := R >>> (8 * b)) (m := 255)
    omega
  rcases lt_or_le k (8 * b + 8) with hin | hout
  · -- bit k lies inside this branch's byte
    have hbitIdx : ((R >>> (8 * b)) &&& 255).testBit (k - 8 * b) = true := by
      have h255 : (255 : Nat) = 2 ^ 8 - 1 := by norm_num
      rw [h255]
      simp only [Nat.testBit_land, Nat.testBit_shiftRight, Nat.testBit_two_pow_sub_one]
      have harith : 8 * b + (k - 8 * b) = k := by omega
      rw [harith, hbit]
      simp [show k - 8 * b < 8 by omega]
    have hidx_ne : (R >>> (8 * b)) &&& 255 ≠ 0 := by
      intro hc
      rw [hc] at hbitIdx
      simp [Nat.zero_testBit] at hbitIdx
    refine ⟨?_, ?_⟩
    · have := lsb_table_nonneg _ hidx_lt hidx_ne
      positivity
    · have := lsb_table_le_of_testBit _ hidx_lt (k - 8 * b) (by omega) hbitIdx
      omega
  · -- bit k lies above this byte; the guard supplies a nonzero byte
    have hidx_ne : (R >>> (8 * b)) &&& 255 ≠ 0 := by
      rcases hbyte with hin2 | hne
      · omega
      · exact hne
    have h7 := lsb_table_le_seven _ hidx_lt
    have h0 := lsb_table_nonneg _ hidx_lt hidx_ne
    constructor
    · positivity
    · omega

/-- The cascade returns the position of some set bit at or below any set
bit: in particular it is non-negative and bounded by the position of the
lowest set bit. -/
theorem lsb_le_of_testBit (value : Int) (k : Nat)
    (hbit : (toU64 value).testBit k = true) (hnz : value ≠ 0) :
    0 ≤ BitUtil.least_significant_bit value ∧
    BitUtil.least_significant_bit value ≤ (k : Int) := by
  have hk64 : k < 64 := by
    by_contra hc
    have hlt : toU64 value < 2 ^ k :=
      lt_of_lt_of_le (toU64_lt value) (Nat.pow_le_pow_right (by norm_num) (by omega))
    rw [Nat.testBit_lt_two_pow hlt] at hbit
    exact Bool.false_ne_true hbit
  simp only [BitUtil.least_significant_bit]
  split_ifs with h0 h1 h2 h3 h4 h5 h6 h7
  · exact absurd h0 hnz
  · have := branch_result_bound (b := 0) hbit (by simp) (Or.inr (by simpa using h1))
    simpa using this
  · have hlow : toU64 value &&& (2 ^ (8 * 1) - 1) = 0 := by
      simpa using of_not_not (by simpa using h1)
    have hgrp : toU64 value &&& (2 ^ (8 * 1 + 8) - 1) ≠ 0 := by simpa using h2
    have := branch_result_bound (b := 1) hbit hlow
      (Or.inr (byte_ne_zero_of_group hlow hgrp))
    simpa using this
  · have hlow : toU64 value &&& (2 ^ (8 * 2) - 1) = 0 := by
      simpa using of_not_not (by simpa using h2)
    have hgrp : toU64 value &&& (2 ^ (8 * 2 + 8) - 1) ≠ 0 := by simpa using h3
    have := branch_result_bound (b := 2) hbit hlow
      (Or.inr (byte_ne_zero_of_group hlow hgrp))
    simpa using this
  · have hlow : toU64 value &&& (2 ^ (8 * 3) - 1) = 0 := by
      simpa using of_not_not (by simpa using h3)
    have hgrp : toU64 value &&& (2 ^ (8 * 3 + 8) - 1) ≠ 0 := by simpa using h4
    have := branch_result_bound (b := 3) hbit hlow
      (Or.inr (byte_ne_zero_of_group hlow hgrp))
    simpa using this
  · have hlow : toU64 value &&& (2 ^ (8 * 4) - 1) = 0 := by
      simpa using of_not_not (by simpa using h4)
    have hgrp : toU64 value &&& (2 ^ (8 * 4 + 8) - 1) ≠ 0 := by simpa using h5
    have := branch_result_bound (b := 4) hbit hlow
      (Or.inr (byte_ne_zero_of_group hlow hgrp))
    simpa using this
  · have hlow : toU64 value &&& (2 ^ (8 * 5) - 1) = 0 := by
      simpa using of_not_not (by simpa using h5)
    have hgrp : toU64 value &&& (2 ^ (8 * 5 + 8) - 1) ≠ 0 := by simpa using h6
    have := branch_result_bound (b := 5) hbit hlow
      (Or.inr (byte_ne_zero_of_group hlow hgrp))
    simpa using this
  · have hlow : toU64 value &&& (2 ^ (8 * 6) - 1) = 0 := by
      simpa using of_not_not (by simpa using h6)
    have hgrp : toU64 value &&& (2 ^ (8 * 6 + 8) - 1) ≠ 0 := by simpa using h7
    have := branch_result_bound (b := 6) hbit hlow
      (Or.inr (byte_ne_zero_of_group hlow hgrp))
    simpa using this
  · have hlow : toU64 value &&& (2 ^ (8 * 7) - 1) = 0 := by
      simpa using of_not_not (by simpa using h7)
    have := branch_result_bound (b := 7) hbit hlow (Or.inl (by omega))
    simpa using this

/-- Core of the register-rank bound: with a mask bit set at position kw,
the one-plus-cascade of any value ored with the mask stays within 1 and
1 + kw, and within the signed byte range for kw at most 126. -/
theorem p_w_bound_aux (x M kw : Nat) (hx : x < 2 ^ 64) (hM : M < 2 ^ 64)
    (hMk : M.testBit kw = true) (hk : (kw : Int) ≤ 126) :
    1 ≤ BitUtil.to_signed_byte (1 + BitUtil.least_significant_bit (ofU64 (x ||| M))) ∧
    BitUtil.to_signed_byte (1 + BitUtil.least_significant_bit (ofU64 (x ||| M))) ≤
      1 + (kw : Int) := by
  have hRk : (x ||| M).testBit kw = true := by
    rw [Nat.testBit_lor, hMk]
    simp
  have hRne : x ||| M ≠ 0 := by
    intro hc
    rw [hc] at hRk
    simp [Nat.zero_testBit] at hRk
  have hlt : x ||| M < 2 ^ 64 := Nat.or_lt_two_pow hx hM
  have h1 := lsb_le_of_testBit (ofU64 (x ||| M)) kw
    (by rw [toU64_ofU64 _ hlt]; exact hRk) (ofU64_ne_zero _ hRne hlt)
  unfold BitUtil.to_signed_byte
  rw [if_pos (by omega)]
  omega

/-- The rank written by the probabilistic update paths is at least 1 and
at most the register value mask: the pw_max_mask construction caps the
cascade at the mask's lowest set bit. -/
theorem p_w_value_bound (w : Nat) (hw1 : 1 ≤ w) (hw8 : w ≤ 8) (sub : Int) :
    1 ≤ BitUtil.to_signed_byte
        (1 + BitUtil.least_significant_bit (pyOr sub (HLLUtil.pw_max_mask w))) ∧
    BitUtil.to_signed_byte
        (1 + BitUtil.least_significant_bit (pyOr sub (HLLUtil.pw_max_mask w))) ≤
      ((2 ^ w - 1 : Nat) : Int) := by
  have hOr : pyOr sub (HLLUtil.pw_max_mask w) =
      ofU64 (toU64 sub ||| toU64 (HLLUtil.pw_max_mask w)) := by
    unfold pyOr
    rw [if_neg]
    intro hc
    rcases hc with ⟨_, hm⟩
    interval_cases w <;> revert hm <;> decide
  rw [hOr]
  have hxlt := toU64_lt sub
  interval_cases w
  · rw [show toU64 (HLLUtil.pw_max_mask 1) = 2 ^ 64 - 1 from by decide]
    have := p_w_bound_aux (toU64 sub) (2 ^ 64 - 1) 0 hxlt (by norm_num) (by decide) (by norm_num)
    constructor
    · exact this.1
    · refine le_trans this.2 (by norm_num)
  · rw [show toU64 (HLLUtil.pw_max_mask 2) = 2 ^ 64 - 4 from by decide]
    have := p_w_bound_aux (toU64 sub) (2 ^ 64 - 4) 2 hxlt (by norm_num) (by decide) (by norm_num)
    constructor
    · exact this.1
    · refine le_trans this.2 (by norm_num)
  · rw [show toU64 (HLLUtil.pw_max_mask 3) = 2 ^ 64 - 64 from by decide]
    have := p_w_bound_aux (toU64 sub) (2 ^ 64 - 64) 6 hxlt (by norm_num) (by decide) (by norm_num)
    constructor
    · exact this.1
    · refine le_trans this.2 (by norm_num)
  · rw [show toU64 (HLLUtil.pw_max_mask 4) = 2 ^ 64 - 16384 from by decide]
    have := p_w_bound_aux (toU64 sub) (2 ^ 64 - 16384) 14 hxlt (by norm_num) (by decide)
      (by norm_num)
    constructor
    · exact this.1
    · refine le_trans this.2 (by norm_num)
  · rw [show toU64 (HLLUtil.pw_max_mask 5) = 2 ^ 64 - 1073741824 from by decide]
    have := p_w_bound_aux (toU64 sub) (2 ^ 64 - 1073741824) 30 hxlt (by norm_num) (by decide)
      (by norm_num)
    constructor
    · exact this.1
    · refine le_trans this.2 (by norm_num)
  · rw [show toU64 (HLLUtil.pw_max_mask 6) = 2 ^ 64 - 4611686018427387904 from by decide]
    have := p_w_bound_aux (toU64 sub) (2 ^ 64 - 4611686018427387904) 62 hxlt (by norm_num)
      (by decide) (by norm_num)
    constructor
    · exact this.1
    · refine le_trans this.2 (by norm_num)
  · rw [show toU64 (HLLUtil.pw_max_mask 7) = 2 ^ 64 - 4611686018427387904 from by decide]
    have := p_w_bound_aux (toU64 sub) (2 ^ 64 - 4611686018427387904) 62 hxlt (by norm_num)
      (by decide) (by norm_num)
    constructor
    · exact this.1
    · refine le_trans this.2 (by norm_num)
  · rw [show toU64 (HLLUtil.pw_max_mask 8) = 2 ^ 64 - 4611686018427387904 from by decide]
    have := p_w_bound_aux (toU64 sub) (2 ^ 64 - 4611686018427387904) 62 hxlt (by norm_num)
      (by decide) (by norm_num)
    constructor
    · exact this.1
    · refine le_trans this.2 (by norm_num)

/-! ### BitVector correctness -/

theorem land_mask_eq_mod (x n : Nat) : x &&& (2 ^ n - 1) = x % 2 ^ n := by
  apply Nat.eq_of_testBit_eq
  intro i
  simp [Nat.testBit_land, Nat.testBit_mod_two_pow, Nat.testBit_two_pow_sub_one, Bool.and_comm]

theorem lt_two_pow_of_high_bits {x n : Nat} (h : ∀ i, n ≤ i → x.testBit i = false) :
    x < 2 ^ n := by
  have hx : x = x % 2 ^ n := by
    apply Nat.eq_of_testBit_eq
    intro i
    rcases lt_or_le i n with hi | hi
    · simp [Nat.testBit_mod_two_pow, hi]
    · rw [h i hi]
      have hlt : x % 2 ^ n < 2 ^ i :=
        lt_of_lt_of_le (Nat.mod_lt x (by positivity)) (Nat.pow_le_pow_right (by norm_num) hi)
      rw [Nat.testBit_lt_two_pow hlt]
  rw [hx]
  exact Nat.mod_lt x (by positivity)

theorem words_getD_lt {l : List Nat} (h : ∀ x ∈ l, x < 2 ^ 64) (i : Nat) :
    l.getD i 0 < 2 ^ 64 := by
  rcases lt_or_le i l.length with hi | hi
  · rw [List.getD_eq_getElem l 0 hi]
    exact h _ (l.getElem_mem hi)
  · rw [List.getD_eq_default l 0 hi]
    positivity

theorem getD_set_self {l : List Nat} {i : Nat} (a d : Nat) (h : i < l.length) :
    (l.set i a).getD i d = a := by
  simp [List.getD_eq_getElem?_getD, List.getElem?_set_self, h]

theorem getD_set_ne {l : List Nat} {i j : Nat} (a d : Nat) (h : i ≠ j) :
    (l.set i a).getD j d = l.getD j d := by
  simp [List.getD_eq_getElem?_getD, List.getElem?_set_ne h]

theorem testBit_mod64 (x p : Nat) : (x % 2 ^ 64).testBit p = (decide (p < 64) && x.testBit p) :=
  Nat.testBit_mod_two_pow x 64 p

theorem not64_testBit (x p : Nat) (hp : p < 64) :
    (not64 x).testBit p = !((x % 2 ^ 64).testBit p) := by
  unfold not64
  rw [Nat.testBit_xor, Nat.testBit_two_pow_sub_one]
  simp [hp]

/-- Bit-level description of get_register: bit t of the result is bit
j*w + t of the vector for t below the register width, and clear above. -/
theorem get_register_testBit (w : Nat) (hw1 : 1 ≤ w) (hw8 : w ≤ 8)
    (words : List Nat) (hwords : ∀ x ∈ words, x < 2 ^ 64)
    (j : Nat) (t : Nat) :
    (BitVector.get_register w words j).testBit t =
      if t < w then BitVector.bitAt words (j * w + t) else false := by
  have h64 : (64 : Nat) = 2 ^ 6 := by norm_num
  have hshift : ∀ y : Nat, y >>> BitVector.LOG2_BITS_PER_WORD = y / 64 := by
    intro y
    rw [show BitVector.LOG2_BITS_PER_WORD = 6 from rfl, Nat.shiftRight_eq_div_pow]
  have hmask : ∀ y : Nat, y &&& BitVector.BITS_PER_WORD_MASK = y % 64 := by
    intro y
    rw [show BitVector.BITS_PER_WORD_MASK = 2 ^ 6 - 1 from rfl, land_mask_eq_mod]
    norm_num
  have hdm := Nat.div_add_mod (j * w) 64
  set bi := j * w with hbi
  set f := bi / 64 with hf
  set rem := bi % 64 with hrem
  have hremlt : rem < 64 := Nat.mod_lt _ (by norm_num)
  have hWf := words_getD_lt hwords f
  simp only [BitVector.get_register, BitVector.register_mask, hshift, hmask]
  rw [← hbi, ← hf, ← hrem]
  by_cases hspan : rem + w ≤ 64
  · -- the register fits in one word
    have hfs : (bi + w - 1) / 64 = f := by omega
    rw [hfs, if_pos rfl]
    rw [Nat.testBit_land, Nat.testBit_shiftRight, Nat.testBit_two_pow_sub_one]
    by_cases ht : t < w
    · rw [if_pos ht]
      unfold BitVector.bitAt
      have hq : (bi + t) / 64 = f := by omega
      have hr : (bi + t) % 64 = rem + t := by omega
      rw [hq, hr]
      simp [ht]
    · rw [if_neg ht]
      simp [ht]
  · -- the register spans two words
    have hfs : (bi + w - 1) / 64 = f + 1 := by omega
    rw [hfs, if_neg (by omega)]
    have hWs := words_getD_lt hwords (f + 1)
    simp only [show BitVector.BITS_PER_WORD = 64 from rfl, Nat.testBit_lor, Nat.testBit_land,
      testBit_mod64, Nat.testBit_shiftLeft, Nat.testBit_shiftRight,
      Nat.testBit_two_pow_sub_one]
    by_cases ht : t < w
    · rw [if_pos ht]
      unfold BitVector.bitAt
      by_cases htlow : t < 64 - rem
      · -- bit comes from the first word
        have hq : (bi + t) / 64 = f := by omega
        have hr : (bi + t) % 64 = rem + t := by omega
        rw [hq, hr]
        simp [ht, show ¬(64 - rem ≤ t) by omega, show t < 64 by omega]
      · -- bit comes from the second word
        have hq : (bi + t) / 64 = f + 1 := by omega
        have hr : (bi + t) % 64 = t - (64 - rem) := by omega
        rw [hq, hr]
        have hA : (words.getD f 0).testBit (rem + t) = false := by
          apply Nat.testBit_lt_two_pow
          exact lt_of_lt_of_le hWf (Nat.pow_le_pow_right (by norm_num) (by omega))
        rw [List.getD_eq_getElem?_getD] at hA
        simp [hA, ht, show 64 - rem ≤ t by omega, show t < 64 by omega]
    · rw [if_neg ht]
      have hA : (words.getD f 0).testBit (rem + t) = false := by
        apply Nat.testBit_lt_two_pow
        exact lt_of_lt_of_le hWf (Nat.pow_le_pow_right (by norm_num) (by omega))
      rw [List.getD_eq_getElem?_getD] at hA
      simp [hA, ht]

theorem shiftRight_two_pow_sub_one (w k : Nat) (hk : k ≤ w) :
    (2 ^ w - 1) >>> k = 2 ^ (w - k) - 1 := by
  apply Nat.eq_of_testBit_eq
  intro i
  rw [Nat.testBit_shiftRight, Nat.testBit_two_pow_sub_one, Nat.testBit_two_pow_sub_one]
  by_cases hi : i < w - k <;> simp [hi] <;> omega

/-- Bit-level description of set_register: with an in-range value, the
register's field takes the value's bits and every other bit of the
vector is untouched. -/
theorem set_register_bitAt (w : Nat) (hw1 : 1 ≤ w) (hw8 : w ≤ 8)
    (words : List Nat) (j : Nat) (v : Int) (hv : toU64 v < 2 ^ w)
    (hfit : (j + 1) * w ≤ 64 * words.length) (b : Nat) :
    BitVector.bitAt (BitVector.set_register w words j v) b =
      if j * w ≤ b ∧ b < j * w + w then (toU64 v).testBit (b - j * w)
      else BitVector.bitAt words b := by
  have hshift : ∀ y : Nat, y >>> BitVector.LOG2_BITS_PER_WORD = y / 64 := by
    intro y
    rw [show BitVector.LOG2_BITS_PER_WORD = 6 from rfl, Nat.shiftRight_eq_div_pow]
  have hmask : ∀ y : Nat, y &&& BitVector.BITS_PER_WORD_MASK = y % 64 := by
    intro y
    rw [show BitVector.BITS_PER_WORD_MASK = 2 ^ 6 - 1 from rfl, land_mask_eq_mod]
    norm_num
  have hjw : (j + 1) * w = j * w + w := by ring
  have hdm := Nat.div_add_mod (j * w) 64
  have hdb := Nat.div_add_mod b 64
  set bi := j * w with hbi
  set f := bi / 64 with hf
  set rem := bi % 64 with hrem
  have hremlt : rem < 64 := Nat.mod_lt _ (by norm_num)
  have hflen : f < words.length := by
    apply Nat.div_lt_of_lt_mul
    omega
  set p := b % 64 with hp
  have hplt : p < 64 := Nat.mod_lt _ (by norm_num)
  simp only [BitVector.set_register, BitVector.register_mask,
    show BitVector.BITS_PER_WORD = 64 from rfl, hshift, hmask]
  rw [← hbi, ← hf, ← hrem]
  by_cases hspan : rem + w ≤ 64
  · -- the register fits in one word
    have hfs : (bi + w - 1) / 64 = f := by omega
    rw [hfs, if_pos rfl]
    unfold BitVector.bitAt
    by_cases hbf : b / 64 = f
    · rw [hbf, getD_set_self _ _ hflen, ← hp]
      rw [Nat.testBit_lor, Nat.testBit_land, not64_testBit _ _ hplt]
      have hm1 : ((2 ^ w - 1) <<< rem % 2 ^ 64) % 2 ^ 64 = (2 ^ w - 1) <<< rem % 2 ^ 64 :=
        Nat.mod_mod_of_dvd _ dvd_rfl
      rw [hm1]
      rw [testBit_mod64, testBit_mod64, Nat.testBit_shiftLeft, Nat.testBit_shiftLeft,
        Nat.testBit_two_pow_sub_one]
      by_cases hin : rem ≤ p ∧ p < rem + w
      · have hgoal : (bi ≤ b ∧ b < bi + w) := by omega
        rw [if_pos hgoal]
        have hb1 : b - bi = p - rem := by omega
        rw [hb1]
        simp [show rem ≤ p by omega, show p - rem < w by omega, hplt]
      · rw [if_neg (by omega)]
        by_cases hpr : rem ≤ p
        · -- above the field: the value contributes nothing
          have hvb : (toU64 v).testBit (p - rem) = false := by
            apply Nat.testBit_lt_two_pow
            exact lt_of_lt_of_le hv (Nat.pow_le_pow_right (by norm_num) (by omega))
          simp [hvb, hplt, hpr, show ¬(p - rem < w) by omega, BitVector.bitAt, hbf, ← hp]
        · simp [hplt, hpr, BitVector.bitAt, hbf, ← hp]
    · rw [getD_set_ne _ _ (by omega)]
      rw [if_neg (by omega)]
  · -- the register spans two words
    have hfs : (bi + w - 1) / 64 = f + 1 := by omega
    have hslen : f + 1 < words.length := by omega
    rw [hfs, if_neg (by omega)]
    unfold BitVector.bitAt
    rw [← hp]
    by_cases hbf : b / 64 = f
    · -- first word: low bits kept, field bits from the value
      rw [hbf, getD_set_ne _ _ (by omega), getD_set_self _ _ hflen]
      rw [Nat.testBit_lor, Nat.testBit_land, testBit_mod64, Nat.testBit_shiftLeft,
        Nat.testBit_two_pow_sub_one]
      by_cases hpr : rem ≤ p
      · have hgoal : (bi ≤ b ∧ b < bi + w) := by omega
        rw [if_pos hgoal]
        have hb1 : b - bi = p - rem := by omega
        rw [hb1]
        simp [hpr, hplt, show ¬(p < rem) by omega]
      · rw [if_neg (by omega)]
        simp [hpr, hplt, show p < rem by omega, BitVector.bitAt, hbf, ← hp]
    · by_cases hbs : b / 64 = f + 1
      · -- second word: field remainder from the value, high bits kept
        rw [hbs, getD_set_self _ _ (by rw [List.length_set]; exact hslen)]
        rw [Nat.testBit_lor, Nat.testBit_land, not64_testBit _ _ hplt]
        rw [shiftRight_two_pow_sub_one w (64 - rem) (by omega)]
        have hm2 : (2 ^ (w - (64 - rem)) - 1) % 2 ^ 64 = 2 ^ (w - (64 - rem)) - 1 := by
          apply Nat.mod_eq_of_lt
          have : (2 : Nat) ^ (w - (64 - rem)) ≤ 2 ^ 64 := Nat.pow_le_pow_right (by norm_num) (by omega)
          omega
        rw [hm2, Nat.testBit_two_pow_sub_one, Nat.testBit_shiftRight]
        rw [getD_set_ne _ _ (by omega)]
        by_cases hin : p < w - (64 - rem)
        · have hgoal : (bi ≤ b ∧ b < bi + w) := by omega
          rw [if_pos hgoal]
          have hb1 : b - bi = 64 - rem + p := by omega
          rw [hb1]
          simp [hin]
        · rw [if_neg (by omega)]
          have hvb : (toU64 v).testBit (64 - rem + p) = false := by
            apply Nat.testBit_lt_two_pow
            exact lt_of_lt_of_le hv (Nat.pow_le_pow_right (by norm_num) (by omega))
          simp [hvb, hin, BitVector.bitAt, hbs, ← hp]
      · -- untouched words
        rw [getD_set_ne _ _ (by omega), getD_set_ne _ _ (by omega)]
        rw [if_neg (by omega)]

/-- Every register read is within the register mask. -/
theorem get_register_lt (w : Nat) (hw1 : 1 ≤ w) (hw8 : w ≤ 8)
    (words : List Nat) (hwords : ∀ x ∈ words, x < 2 ^ 64) (j : Nat) :
    BitVector.get_register w words j < 2 ^ w := by
  apply lt_two_pow_of_high_bits
  intro i hi
  rw [get_register_testBit w hw1 hw8 words hwords j i, if_neg (by omega)]

theorem not64_lt (x : Nat) : not64 x < 2 ^ 64 := by
  apply lt_two_pow_of_high_bits
  intro i hi
  unfold not64
  rw [Nat.testBit_xor, Nat.testBit_two_pow_sub_one, testBit_mod64]
  simp [show ¬ i < 64 by omega]

theorem length_set_register (w : Nat) (words : List Nat) (j : Nat) (v : Int) :
    (BitVector.set_register w words j v).length = words.length := by
  simp only [BitVector.set_register]
  split <;> simp

theorem set_register_words_lt (w : Nat) (words : List Nat)
    (hwords : ∀ x ∈ words, x < 2 ^ 64) (j : Nat) (v : Int) :
    ∀ x ∈ BitVector.set_register w words j v, x < 2 ^ 64 := by
  have hrem63 : j * w &&& BitVector.BITS_PER_WORD_MASK ≤ 63 := Nat.and_le_right
  have hr1 : (2 : Nat) ^ (j * w &&& BitVector.BITS_PER_WORD_MASK) ≤ 2 ^ 63 :=
    Nat.pow_le_pow_right (by norm_num) hrem63
  have hr2 : (2 : Nat) ^ 63 < 2 ^ 64 := by norm_num
  have hshr : toU64 v >>> (BitVector.BITS_PER_WORD -
      (j * w &&& BitVector.BITS_PER_WORD_MASK)) < 2 ^ 64 := by
    rw [Nat.shiftRight_eq_div_pow]
    exact lt_of_le_of_lt (Nat.div_le_self _ _) (toU64_lt v)
  simp only [BitVector.set_register]
  split
  · intro x hx
    rcases List.mem_or_eq_of_mem_set hx with hx | hx
    · exact hwords x hx
    · subst hx
      apply Nat.or_lt_two_pow
      · exact lt_of_le_of_lt Nat.and_le_right (not64_lt _)
      · exact Nat.mod_lt _ (by norm_num)
  · intro x hx
    rcases List.mem_or_eq_of_mem_set hx with hx | hx
    · rcases List.mem_or_eq_of_mem_set hx with hx | hx
      · exact hwords x hx
      · subst hx
        apply Nat.or_lt_two_pow
        · exact lt_of_le_of_lt Nat.and_le_right (by omega)
        · exact Nat.mod_lt _ (by norm_num)
    · subst hx
      apply Nat.or_lt_two_pow
      · exact lt_of_le_of_lt Nat.and_le_right (not64_lt _)
      · exact hshr

/-- Reading back the register just written returns the value's low bits
(the whole value when it fits the register width). -/
theorem get_set_self (w : Nat) (hw1 : 1 ≤ w) (hw8 : w ≤ 8)
    (words : List Nat) (hwords : ∀ x ∈ words, x < 2 ^ 64) (j : Nat) (v : Int)
    (hv : toU64 v < 2 ^ w) (hfit : (j + 1) * w ≤ 64 * words.length) :
    BitVector.get_register w (BitVector.set_register w words j v) j = toU64 v := by
  have hwords' := set_register_words_lt w words hwords j v
  apply Nat.eq_of_testBit_eq
  intro t
  rw [get_register_testBit w hw1 hw8 _ hwords' j t]
  by_cases ht : t < w
  · rw [if_pos ht, set_register_bitAt w hw1 hw8 words j v hv hfit,
      if_pos (by constructor <;> omega), show j * w + t - j * w = t by omega]
  · rw [if_neg ht]
    symm
    apply Nat.testBit_lt_two_pow
    exact lt_of_lt_of_le hv (Nat.pow_le_pow_right (by norm_num) (by omega))

/-- Writing one register leaves every other register unchanged. -/
theorem get_set_other (w : Nat) (hw1 : 1 ≤ w) (hw8 : w ≤ 8)
    (words : List Nat) (hwords : ∀ x ∈ words, x < 2 ^ 64) (j : Nat) (v : Int)
    (hv : toU64 v < 2 ^ w) (hfit : (j + 1) * w ≤ 64 * words.length)
    (i : Nat) (hij : i ≠ j) :
    BitVector.get_register w (BitVector.set_register w words j v) i =
      BitVector.get_register w words i := by
  have hwords' := set_register_words_lt w words hwords j v
  apply Nat.eq_of_testBit_eq
  intro t
  rw [get_register_testBit w hw1 hw8 _ hwords' i t,
    get_register_testBit w hw1 hw8 _ hwords i t]
  by_cases ht : t < w
  · rw [if_pos ht, if_pos ht, set_register_bitAt w hw1 hw8 words j v hv hfit]
    rw [if_neg ?_]
    rcases lt_or_le i j with hij2 | hij2
    · have := Nat.mul_le_mul_right w (show i + 1 ≤ j from by omega)
      rw [Nat.succ_mul] at this
      omega
    · have := Nat.mul_le_mul_right w (show j + 1 ≤ i from by omega)
      rw [Nat.succ_mul] at this
      omega
  · rw [if_neg ht, if_neg ht]

/-- A freshly allocated vector reads zero at every register. -/
theorem get_mk_words (w : Nat) (hw1 : 1 ≤ w) (hw8 : w ≤ 8) (m j : Nat) :
    BitVector.get_register w (BitVector.mk_words w m) j = 0 := by
  have hwords : ∀ x ∈ BitVector.mk_words w m, x < 2 ^ 64 := by
    intro x hx
    unfold BitVector.mk_words at hx
    rw [List.eq_of_mem_replicate hx]
    norm_num
  apply Nat.eq_of_testBit_eq
  intro t
  rw [get_register_testBit w hw1 hw8 _ hwords j t, Nat.zero_testBit]
  by_cases ht : t < w
  · rw [if_pos ht]
    unfold BitVector.bitAt BitVector.mk_words
    rcases lt_or_le ((j * w + t) / 64) (List.replicate ((w * m + BitVector.BITS_PER_WORD_MASK) >>> BitVector.LOG2_BITS_PER_WORD) (0:Nat)).length with hl | hl
    · rw [List.getD_eq_getElem _ _ hl]
      simp [Nat.zero_testBit]
    · rw [List.getD_eq_default _ _ hl]
      simp [Nat.zero_testBit]
  · rw [if_neg ht]

/-- For a value within the register range, the Int form of toU64 is the
value itself. -/
theorem toU64_small {v : Int} {w : Nat} (hw8 : w ≤ 8) (h0 : 0 ≤ v)
    (hv : v < ((2 ^ w : Nat) : Int)) : ((toU64 v : Nat) : Int) = v ∧ toU64 v < 2 ^ w := by
  have hpow : (2 ^ w : Nat) ≤ 2 ^ 64 := Nat.pow_le_pow_right (by norm_num) (by omega)
  have hlt : v < 2 ^ 64 := by
    have h1 : ((2 ^ w : Nat) : Int) ≤ ((2 ^ 64 : Nat) : Int) := by exact_mod_cast hpow
    have h2 : ((2 ^ 64 : Nat) : Int) = (2 : Int) ^ 64 := by norm_num
    omega
  rw [toU64_of_nonneg h0 hlt]
  refine ⟨Int.toNat_of_nonneg h0, ?_⟩
  omega

/-- The monotone-max write leaves the addressed register at least as
large as the written value. -/
theorem get_set_max_ge (w : Nat) (hw1 : 1 ≤ w) (hw8 : w ≤ 8)
    (words : List Nat) (hwords : ∀ x ∈ words, x < 2 ^ 64) (j : Nat) (v : Int)
    (h0 : 0 ≤ v) (hv : v < ((2 ^ w : Nat) : Int))
    (hfit : (j + 1) * w ≤ 64 * words.length) :
    v ≤ (BitVector.get_register w (BitVector.set_max_register w words j v) j : Int) := by
  obtain ⟨hcast, hvlt⟩ := toU64_small hw8 h0 hv
  simp only [BitVector.set_max_register]
  split
  · rw [get_set_self w hw1 hw8 words hwords j v hvlt hfit]
    omega
  · omega

/-- The monotone-max write never decreases any register. -/
theorem get_set_max_mono (w : Nat) (hw1 : 1 ≤ w) (hw8 : w ≤ 8)
    (words : List Nat) (hwords : ∀ x ∈ words, x < 2 ^ 64) (j : Nat) (v : Int)
    (h0 : 0 ≤ v) (hv : v < ((2 ^ w : Nat) : Int))
    (hfit : (j + 1) * w ≤ 64 * words.length) (i : Nat) :
    BitVector.get_register w words i ≤
      BitVector.get_register w (BitVector.set_max_register w words j v) i := by
  obtain ⟨hcast, hvlt⟩ := toU64_small hw8 h0 hv
  simp only [BitVector.set_max_register]
  split
  · rename_i hgt
    by_cases hij : i = j
    · subst hij
      rw [get_set_self w hw1 hw8 words hwords i v hvlt hfit]
      omega
    · rw [get_set_other w hw1 hw8 words hwords j v hvlt hfit i hij]
  · omega

theorem mk_words_length (w c : Nat) :
    (BitVector.mk_words w c).length = (w * c + 63) / 64 := by
  unfold BitVector.mk_words
  rw [List.length_replicate, show BitVector.LOG2_BITS_PER_WORD = 6 from rfl,
    Nat.shiftRight_eq_div_pow]
  rfl

theorem fit_of_lt {w m i len : Nat} (hi : i < m) (hlen : len = (w * m + 63) / 64) :
    (i + 1) * w ≤ 64 * len := by
  have h1 : (i + 1) * w ≤ m * w := Nat.mul_le_mul_right w hi
  have h3 : m * w = w * m := Nat.mul_comm m w
  omega

/-! ### Claim C6: set_register / get_register correctness -/

/-- Claim C6, counterexample.  The claim quantifies over every 64-bit
value; set_register does not mask its value, so a value above the
register mask smears into the neighbouring register: with width 4 and
two registers backed by the single word 0, set_register(0, 16) makes
get_register(1) read 1 even though register 1 was 0 before and the claim
promises it unchanged. -/
theorem c6_set_register_out_of_range_cex :
    BitVector.get_register 4 (BitVector.set_register 4 [0] 0 16) 1 = 1 ∧
    BitVector.get_register 4 [0] 1 = 0 := by decide

/-- Claim C6, amended: for every BitVector of m registers of width W
(1 ≤ W ≤ 8), every register index i < m, and every value v in the range
0..value_mask (the claim's arbitrary 64-bit v must be restricted to the
register range: set_register does not mask, see the counterexample),
after set_register(i, v): get_register(i) returns v & value_mask (which
is v itself), every register with index j ≠ i is unchanged, no bit at
position m*W or beyond in the backing words is modified, and the word
count is unchanged. -/
theorem c6_set_register_correct (W m : Nat) (hw1 : 1 ≤ W) (hw8 : W ≤ 8)
    (words : List Nat) (hlen : words.length = (W * m + 63) / 64)
    (hwords : ∀ x ∈ words, x < 2 ^ 64)
    (i : Nat) (hi : i < m) (v : Int) (h0 : 0 ≤ v)
    (hv : v ≤ ((BitVector.register_mask W : Nat) : Int)) :
    ((BitVector.get_register W (BitVector.set_register W words i v) i : Nat) : Int) =
        v ∧
    (∀ j, j < m → j ≠ i →
      BitVector.get_register W (BitVector.set_register W words i v) j =
        BitVector.get_register W words j) ∧
    (∀ b, m * W ≤ b →
      BitVector.bitAt (BitVector.set_register W words i v) b = BitVector.bitAt words b) ∧
    (BitVector.set_register W words i v).length = words.length := by
  have hvm : v < ((2 ^ W : Nat) : Int) := by
    unfold BitVector.register_mask at hv
    have h1 : (1 : Nat) ≤ 2 ^ W := Nat.one_le_two_pow
    have h2 : ((2 ^ W - 1 : Nat) : Int) < ((2 ^ W : Nat) : Int) := by
      push_cast [h1]
      omega
    omega
  obtain ⟨hcast, hvlt⟩ := toU64_small hw8 h0 hvm
  have hfit : (i + 1) * W ≤ 64 * words.length := fit_of_lt hi hlen
  refine ⟨?_, ?_, ?_, length_set_register W words i v⟩
  · rw [get_set_self W hw1 hw8 words hwords i v hvlt hfit]
    exact hcast
  · intro j _ hj
    exact get_set_other W hw1 hw8 words hwords i v hvlt hfit j hj
  · intro b hb
    rw [set_register_bitAt W hw1 hw8 words i v hvlt hfit b, if_neg ?_]
    have h1 : (i + 1) * W ≤ m * W := Nat.mul_le_mul_right W hi
    have h3 : m * W = W * m := Nat.mul_comm m W
    have h4 : (i + 1) * W = i * W + W := by ring
    omega

/-- Witness for the amended claim C6 at a concrete instance: width 4,
two registers over one word, writing 5 into register 0. -/
theorem c6_set_register_correct_witness :
    ((BitVector.get_register 4 (BitVector.set_register 4 [0] 0 5) 0 : Nat) : Int) = 5 ∧
    (∀ j, j < 2 → j ≠ 0 →
      BitVector.get_register 4 (BitVector.set_register 4 [0] 0 5) j =
        BitVector.get_register 4 [0] j) ∧
    (∀ b, 2 * 4 ≤ b →
      BitVector.bitAt (BitVector.set_register 4 [0] 0 5) b = BitVector.bitAt [0] b) ∧
    (BitVector.set_register 4 [0] 0 5).length = ([0] : List Nat).length :=
  c6_set_register_correct 4 2 (by decide) (by decide) [0] (by decide)
    (by decide) 0 (by decide) 5 (by decide) (by decide)

/-! ### Structural facts about the state machine -/

/-- init_storage sets the representation tag it is given (except for the
inert UNDEFINED fallback). -/
theorem init_storage_type (h : HLL) (t : HLLType) (ht : t ≠ .UNDEFINED) :
    (init_storage h t).type = t := by
  cases t <;> first | rfl | exact absurd rfl ht

/-- The sparse probabilistic update never changes the representation tag. -/
theorem arsp_type (h : HLL) (v : Int) :
    (add_raw_sparse_probabilistic h v).type = h.type := by
  simp only [add_raw_sparse_probabilistic]
  repeat' split
  all_goals rfl

/-- The full probabilistic update never changes the representation tag. -/
theorem arp_type (h : HLL) (v : Int) :
    (add_raw_probabilistic h v).type = h.type := by
  simp only [add_raw_probabilistic]
  repeat' split
  all_goals rfl

/-- On an Empty state whose explicit threshold is zero, add_raw promotes
directly past the Explicit representation: to Sparse when sparse is
enabled, to Full otherwise. -/
theorem add_raw_empty_type (h : HLL) (v : Int) (ht : h.type = .EMPTY)
    (hthr : h.explicit_threshold = 0) :
    (add_raw h v).type = (if h.sparse_off then HLLType.FULL else .SPARSE) := by
  by_cases hs : h.sparse_off
  · simp [add_raw, ht, hthr, hs, arp_type, init_storage]
  · simp [add_raw, ht, hthr, hs, arsp_type, init_storage]

/-- C10: with expthresh = -1 (auto mode), log2m = 4 and regwidth at most 3,
the automatically computed explicit threshold is 0 — the full representation
fits in fewer than 8 bytes, so num_longs = 0 — and the very first add_raw on
the resulting Empty estimator skips the Explicit representation entirely,
promoting straight to Sparse (or to Full when sparse is disabled), even
though expthresh = -1 nominally enables the Explicit representation. -/
theorem c10_auto_threshold_zero_skips_explicit
    (w : Nat) (hw1 : 1 ≤ w) (hw3 : w ≤ 3) (sparseon : Bool) (v : Int) (h : HLL)
    (hok : mkHLL 4 (w : Int) (-1) sparseon .EMPTY = .ok h) :
    h.explicit_threshold = 0 ∧
    (add_raw h v).type = (if sparseon then HLLType.SPARSE else .FULL) := by
  have hh : h = except_get_ok dummyHLL (mkHLL 4 (w : Int) (-1) sparseon .EMPTY) := by
    rw [hok]; rfl
  subst hh
  interval_cases w <;> cases sparseon <;>
    (refine ⟨by decide, ?_⟩
     rw [add_raw_empty_type _ v (by decide) (by decide)]
     decide)

/-- C10 witness: log2m = 4, regwidth = 2, sparse enabled, value 7. -/
theorem c10_auto_threshold_zero_skips_explicit_witness :
    (except_get_ok dummyHLL (mkHLL 4 2 (-1) true .EMPTY)).explicit_threshold = 0 ∧
    (add_raw (except_get_ok dummyHLL (mkHLL 4 2 (-1) true .EMPTY)) 7).type
      = (if true then HLLType.SPARSE else .FULL) :=
  c10_auto_threshold_zero_skips_explicit 2 (by decide) (by decide) true 7
    (except_get_ok dummyHLL (mkHLL 4 2 (-1) true .EMPTY)) (by decide)

set_option maxRecDepth 10000 in
/-- C1: serialization is not a normal form.  With log2m = 28 and
regwidth = 5 the sparse short words are 33 bits wide, and the int32 left
shift used to pack them (BitUtil.left_shift_int in the sparse branch of
to_bytes, hll.py line 736) wraps: a valid two-register Sparse estimator
serializes to a 12-byte frame whose decoding is again Sparse but whose own
byte image is only 8 bytes, so the byte images of h and
from_bytes(to_bytes(h)) differ. -/
theorem c1_roundtrip_not_normal_form :
    (mkHLL 28 5 0 true .EMPTY).map (fun h =>
      let h := add_raw (add_raw h (2 ^ 28)) (2 ^ 28 + 2 ^ 27)
      ((to_bytes h).length,
       (from_bytes (to_bytes h)).map (fun g => ((to_bytes g).length, g.type, h.type))))
    = .ok (12, .ok (8, .SPARSE, .SPARSE)) := by decide

/-- C4: the constructor's log2m guard compares against
MAXIMUM_EXPLICIT_THRESHOLD = 131072 rather than against the documented
maximum 30.  log2m = 31 passes that range check and the construction fails
only afterwards, inside alpha_m_squared, because the int32 shift 1 << 31
wraps negative — with the unrelated message about m; the range error
itself fires only above 131072. -/
theorem c4_log2m_validation_accepts_31 :
    mkHLL 31 5 (-1) true .EMPTY = .error "m cannot be less than 16" ∧
    mkHLL 131073 5 (-1) true .EMPTY
      = .error "log2m must be at least 4 and at most 30" := by decide

set_option maxRecDepth 10000 in
/-- C5: union performs no parameter validation (the source carries a TODO
in its place): merging a log2m = 4 estimator into a log2m = 5 estimator
returns normally and silently mixes registers of both address spaces — the
result even holds the key 16, which is out of range for the 16-register
receiver — instead of reporting InvalidParameter. -/
theorem c5_union_mismatched_params_silent :
    (mkHLL 4 5 0 true .EMPTY).map (fun a =>
      (mkHLL 5 5 0 true .EMPTY).map (fun b =>
        (union (add_raw a 16) (add_raw b 48)).sparse_storage))
    = .ok (.ok [(0, 1), (16, 1)]) := by decide

/-- init_storage never changes the explicit threshold. -/
theorem init_storage_explicit_threshold (h : HLL) (t : HLLType) :
    (init_storage h t).explicit_threshold = h.explicit_threshold := by
  cases t <;> rfl

/-- A fold whose step preserves a projection preserves it overall. -/
theorem foldl_preserves {α β : Type} (f : β → α → β) (g : β → Nat)
    (hf : ∀ b a, g (f b a) = g b) (l : List α) (b : β) :
    g (l.foldl f b) = g b := by
  induction l generalizing b with
  | nil => rfl
  | cons x xs ih => rw [List.foldl_cons, ih, hf]

/-- A successful construction with a positive integral expthresh implies
that expthresh is at most 18 and that the explicit threshold is
2 ^ (expthresh - 1). -/
theorem mkHLL_explicit_threshold (log2m regwidth : Int) (n : Nat) (sparseon : Bool)
    (t : HLLType) (h : HLL) (hn1 : 1 ≤ n)
    (hok : mkHLL log2m regwidth (n : Int) sparseon t = .ok h) :
    n ≤ 18 ∧ h.explicit_threshold = 2 ^ (n - 1) := by
  have h1 : ¬((n : Int) = -1) := by omega
  have h2 : ¬((n : Int) = 0) := by omega
  by_cases h3 : 0 < (n : Int) ∧ (n : Int) ≤ 18
  · have hn18 : n ≤ 18 := by omega
    refine ⟨hn18, ?_⟩
    simp only [mkHLL, h1, h2, h3, and_self, if_true, if_false, ite_true, ite_false,
      iff_false, not_false_eq_true] at hok
    split at hok
    · simp at hok
    split at hok
    · simp at hok
    split at hok
    · simp at hok
    cases t
    · simp at hok
      rw [← hok, init_storage_explicit_threshold]
    · simp at hok
      rw [← hok, init_storage_explicit_threshold]
    · simp at hok
      rw [← hok, init_storage_explicit_threshold]
    · simp at hok
      rw [← hok, init_storage_explicit_threshold]
    · simp at hok
  · exfalso
    simp only [mkHLL, h1, h2, h3, if_true, if_false, ite_true, ite_false,
      iff_false, not_false_eq_true] at hok
    split at hok
    · simp at hok
    split at hok
    · simp at hok
    split at hok
    · simp at hok
    simp at hok

/-- C8: when from_bytes succeeds on a frame whose explicit-cutoff field
(low six bits of header byte 2) holds n with 1 ≤ n ≤ 31, the reconstructed
explicit threshold is 2 ^ (n - 1) — but success itself forces n ≤ 18:
from_bytes feeds n back to the constructor as expthresh, whose range check
rejects every cutoff in 19..31 that the storage format can express. -/
theorem c8_cutoff_threshold (bytes : List Nat) (h : HLL) (n : Nat)
    (hok : from_bytes bytes = .ok h)
    (hn : SerializationUtil.explicit_cutoff (bytes.getD 2 0) = n)
    (hn1 : 1 ≤ n) (hn31 : n ≤ 31) :
    n ≤ 18 ∧ h.explicit_threshold = 2 ^ (n - 1) := by
  have hne0 : ¬(n = 0) := by omega
  have hne63 : ¬(n = 63) := by omega
  simp only [from_bytes] at hok
  split at hok
  · simp at hok
  split at hok
  next e heq => simp at hok
  next metadata hmeta =>
    simp only [SchemaVersionOne.read_metadata, hn] at hmeta
    split at hmeta
    next e heq => simp at hmeta
    next t hty =>
      simp only [Except.ok.injEq] at hmeta
      subst hmeta
      simp [SchemaVersionOne.EXPLICIT_OFF, SchemaVersionOne.EXPLICIT_AUTO,
        hne0, hne63] at hok
      split at hok
      next e hmk => simp at hok
      next hll hmk =>
        obtain ⟨hn18, hthr⟩ := mkHLL_explicit_threshold _ _ n _ t hll hn1 hmk
        refine ⟨hn18, ?_⟩
        split at hok
        · simp at hok
          subst hok
          exact hthr
        · split at hok
          · simp at hok
            subst hok
            refine (foldl_preserves _ HLL.explicit_threshold ?_ _ _).trans hthr
            intro b a
            rfl
          · simp at hok
            subst hok
            refine (foldl_preserves _ HLL.explicit_threshold ?_ _ _).trans hthr
            intro b a
            dsimp only
            split <;> rfl
          · simp at hok
            subst hok
            refine (foldl_preserves _ HLL.explicit_threshold ?_ _ _).trans hthr
            intro b a
            rfl
          all_goals simp at hok

/-- C8 counterexample: the cutoff value 19 lies in the claimed range
1..31, yet a frame carrying it is rejected by from_bytes. -/
theorem c8_cutoff_19_rejected_cex :
    SerializationUtil.explicit_cutoff 0x53 = 19 ∧
    from_bytes [0x11, 0x25, 0x53]
      = .error "expthresh must be at least -1 and at most 18" := by decide

set_option maxRecDepth 10000 in
/-- C8 witness: the frame 11 25 44 (cutoff field 4) decodes with explicit
threshold 8. -/
theorem c8_cutoff_threshold_witness :
    4 ≤ 18 ∧
    (except_get_ok dummyHLL (from_bytes [0x11, 0x25, 0x44])).explicit_threshold
      = 2 ^ (4 - 1) :=
  c8_cutoff_threshold [0x11, 0x25, 0x44]
    (except_get_ok dummyHLL (from_bytes [0x11, 0x25, 0x44])) 4
    (by decide) (by decide) (by decide) (by decide)

/-! ### Dictionary and sorted-set container lemmas -/

theorem dict_get_cons (a : Nat) (b : Int) (ps : List (Nat × Int)) (k : Nat) (dflt : Int) :
    dict_get ((a, b) :: ps) k dflt = if a = k then b else dict_get ps k dflt := by
  unfold dict_get
  by_cases h : a = k
  · subst h
    simp [List.lookup]
  · simp [List.lookup, show (k == a) = false from by simp [Ne.symm h], h]

theorem dict_set_nil (k : Nat) (v : Int) : dict_set [] k v = [(k, v)] := by
  simp [dict_set, List.lookup]

theorem dict_set_cons (a : Nat) (b : Int) (ps : List (Nat × Int)) (k : Nat) (v : Int) :
    dict_set ((a, b) :: ps) k v =
      if a = k then (k, v) :: ps.map (fun p => if p.1 = k then (k, v) else p)
      else (a, b) :: dict_set ps k v := by
  by_cases h : a = k
  · subst h
    simp [dict_set, List.lookup]
  · rw [if_neg h]
    unfold dict_set
    simp only [List.lookup, show (k == a) = false from by simp [Ne.symm h]]
    by_cases hs : (ps.lookup k).isSome
    · simp [hs, h]
    · simp [hs, h]

theorem dict_get_set_self (d : List (Nat × Int)) (k : Nat) (v : Int) (dflt : Int) :
    dict_get (dict_set d k v) k dflt = v := by
  induction d with
  | nil => simp [dict_set_nil, dict_get_cons]
  | cons p ps ih =>
    rcases p with ⟨a, b⟩
    rw [dict_set_cons]
    by_cases h : a = k
    · simp [h, dict_get_cons]
    · simp [h, dict_get_cons, ih]

theorem dict_get_map_update (ps : List (Nat × Int)) (k : Nat) (v : Int) (q : Nat)
    (dflt : Int) (hqk : ¬(q = k)) :
    dict_get (ps.map (fun p => if p.1 = k then (k, v) else p)) q dflt
      = dict_get ps q dflt := by
  induction ps with
  | nil => rfl
  | cons p ps ih =>
    rcases p with ⟨a, b⟩
    by_cases h : a = k
    · subst h
      simp [dict_get_cons, Ne.symm hqk, ih]
    · simp [dict_get_cons, h, ih]

theorem dict_get_set_ne (d : List (Nat × Int)) (k : Nat) (v : Int) (q : Nat)
    (dflt : Int) (hqk : ¬(q = k)) :
    dict_get (dict_set d k v) q dflt = dict_get d q dflt := by
  induction d with
  | nil => simp [dict_set_nil, dict_get_cons, Ne.symm hqk]
  | cons p ps ih =>
    rcases p with ⟨a, b⟩
    rw [dict_set_cons]
    by_cases h : a = k
    · subst h
      simp [dict_get_cons, Ne.symm hqk, dict_get_map_update ps _ v q dflt hqk]
    · simp [dict_get_cons, h, ih]

theorem dict_set_length_le (d : List (Nat × Int)) (k : Nat) (v : Int) :
    (dict_set d k v).length ≤ d.length + 1 := by
  unfold dict_set
  split <;> simp

theorem dict_set_mem (d : List (Nat × Int)) (k : Nat) (v : Int) (p : Nat × Int)
    (hp : p ∈ dict_set d k v) : p = (k, v) ∨ p ∈ d := by
  unfold dict_set at hp
  split at hp
  · rcases List.mem_map.mp hp with ⟨q, hq, hfq⟩
    by_cases h : q.1 = k
    · rw [if_pos h] at hfq
      left
      exact hfq.symm
    · rw [if_neg h] at hfq
      right
      rw [← hfq]
      exact hq
  · rcases List.mem_append.mp hp with h | h
    · right
      exact h
    · left
      simpa using h

theorem keys_map_update (ps : List (Nat × Int)) (k : Nat) (v : Int) :
    (ps.map (fun p => if p.1 = k then (k, v) else p)).map Prod.fst
      = ps.map Prod.fst := by
  induction ps with
  | nil => rfl
  | cons q ps ih =>
    by_cases h : q.1 = k
    · simp [h, ih]
    · simp [h, ih]

theorem lookup_none_not_mem_keys (d : List (Nat × Int)) (k : Nat)
    (h : (d.lookup k).isSome = false) : k ∉ d.map Prod.fst := by
  induction d with
  | nil => simp
  | cons p ps ih =>
    rcases p with ⟨a, b⟩
    rcases hab : (k == a) with _ | _
    · simp only [List.lookup, hab] at h
      simp only [List.map_cons, List.mem_cons]
      push_neg
      exact ⟨by simpa using hab, ih h⟩
    · simp only [List.lookup, hab] at h
      simp at h

theorem dict_set_nodup (d : List (Nat × Int)) (k : Nat) (v : Int)
    (hn : (d.map Prod.fst).Nodup) : ((dict_set d k v).map Prod.fst).Nodup := by
  unfold dict_set
  split
  · rw [keys_map_update]
    exact hn
  · rename_i hnone
    have hfalse : (d.lookup k).isSome = false := by
      rcases hh : (d.lookup k).isSome with _ | _
      · rfl
      · exact absurd hh hnone
    rw [List.map_append]
    rw [List.nodup_append]
    refine ⟨hn, by simp, ?_⟩
    intro a ha hb
    simp at hb
    subst hb
    exact lookup_none_not_mem_keys d a hfalse ha

theorem dict_get_mem (d : List (Nat × Int)) (k : Nat) (hne : dict_get d k 0 ≠ 0) :
    (k, dict_get d k 0) ∈ d := by
  induction d with
  | nil => simp [dict_get] at hne
  | cons p ps ih =>
    rcases p with ⟨a, b⟩
    rw [dict_get_cons] at hne ⊢
    by_cases h : a = k
    · subst h
      simp at hne ⊢
    · rw [if_neg h] at hne ⊢
      exact List.mem_cons_of_mem _ (ih hne)

theorem set_add_mem (l : List Int) (v y : Int) (hy : y ∈ set_add l v) : y = v ∨ y ∈ l := by
  induction l with
  | nil => simpa [set_add] using hy
  | cons x xs ih =>
    unfold set_add at hy
    split at hy
    · rcases List.mem_cons.mp hy with rfl | hy
      · left
        rfl
      · right
        exact hy
    · split at hy
      · right
        exact hy
      · rcases List.mem_cons.mp hy with rfl | hy
        · right
          exact List.mem_cons_self _ _
        · rcases ih hy with h | h
          · left
            exact h
          · right
            exact List.mem_cons_of_mem _ h

theorem set_add_sorted (l : List Int) (v : Int) (hs : List.Sorted (· < ·) l) :
    List.Sorted (· < ·) (set_add l v) := by
  induction l with
  | nil => simp [set_add]
  | cons x xs ih =>
    rw [List.sorted_cons] at hs
    obtain ⟨hx, hxs⟩ := hs
    unfold set_add
    split
    · rename_i hvx
      rw [List.sorted_cons]
      refine ⟨?_, ?_⟩
      · intro y hy
        rcases List.mem_cons.mp hy with rfl | hy
        · exact hvx
        · exact lt_trans hvx (hx y hy)
      · rw [List.sorted_cons]
        exact ⟨hx, hxs⟩
    · split
      · rw [List.sorted_cons]
        exact ⟨hx, hxs⟩
      · rename_i hvx hvex
        rw [List.sorted_cons]
        refine ⟨?_, ih hxs⟩
        intro y hy
        rcases set_add_mem xs v y hy with rfl | hy
        · omega
        · exact hx y hy

theorem set_add_length_le (l : List Int) (v : Int) :
    (set_add l v).length ≤ l.length + 1 := by
  induction l with
  | nil => simp [set_add]
  | cons x xs ih =>
    unfold set_add
    split
    · simp
    · split
      · simp
      · simp only [List.length_cons]
        omega

theorem set_add_cons (x : Int) (xs : List Int) (v : Int) :
    set_add (x :: xs) v =
      if v < x then v :: x :: xs else if v = x then x :: xs else x :: set_add xs v := rfl

theorem set_add_idem (l : List Int) (v : Int) : set_add (set_add l v) v = set_add l v := by
  induction l with
  | nil =>
    show set_add [v] v = [v]
    rw [set_add_cons]
    simp
  | cons x xs ih =>
    rw [set_add_cons]
    by_cases h1 : v < x
    · rw [if_pos h1, set_add_cons, if_neg (lt_irrefl v), if_pos rfl]
    · rw [if_neg h1]
      by_cases h2 : v = x
      · rw [if_pos h2, set_add_cons]
        subst h2
        rw [if_neg (lt_irrefl v), if_pos rfl]
      · rw [if_neg h2, set_add_cons, if_neg h1, if_neg h2, ih]

/-! ### Structure of the probabilistic update paths -/

theorem arsp_eq (h : HLL) (v : Int) :
    add_raw_sparse_probabilistic h v =
      { h with sparse_storage := (add_raw_sparse_probabilistic h v).sparse_storage } := by
  simp only [add_raw_sparse_probabilistic]
  repeat' split
  all_goals rfl

theorem arp_eq (h : HLL) (v : Int) :
    add_raw_probabilistic h v =
      { h with probabilistic_storage := (add_raw_probabilistic h v).probabilistic_storage } := by
  simp only [add_raw_probabilistic]
  repeat' split
  all_goals rfl

theorem arsp_zero (h : HLL) (v : Int)
    (hsub : BitUtil.unsigned_right_shift_long v h.log2m = 0) :
    add_raw_sparse_probabilistic h v = h := by
  simp [add_raw_sparse_probabilistic, hsub]

theorem arp_zero (h : HLL) (v : Int)
    (hsub : BitUtil.unsigned_right_shift_long v h.log2m = 0) :
    add_raw_probabilistic h v = h := by
  simp [add_raw_probabilistic, hsub]

theorem arsp_spec (h : HLL) (v : Int)
    (hsub : ¬(BitUtil.unsigned_right_shift_long v h.log2m = 0))
    (hne : ¬(BitUtil.to_signed_byte (1 + BitUtil.least_significant_bit
      (pyOr (BitUtil.unsigned_right_shift_long v h.log2m)
        (HLLUtil.pw_max_mask h.regwidth))) = 0)) :
    add_raw_sparse_probabilistic h v =
      (if BitUtil.to_signed_byte (1 + BitUtil.least_significant_bit
            (pyOr (BitUtil.unsigned_right_shift_long v h.log2m)
              (HLLUtil.pw_max_mask h.regwidth)))
          > dict_get h.sparse_storage (landU v h.m_bits_mask) 0 then
        { h with sparse_storage :=
            (dict_set h.sparse_storage (landU v h.m_bits_mask)
              (BitUtil.to_signed_byte (1 + BitUtil.least_significant_bit
                (pyOr (BitUtil.unsigned_right_shift_long v h.log2m)
                  (HLLUtil.pw_max_mask h.regwidth))))) }
      else h) := by
  simp [add_raw_sparse_probabilistic, hsub, hne]

theorem arp_spec (h : HLL) (v : Int)
    (hsub : ¬(BitUtil.unsigned_right_shift_long v h.log2m = 0))
    (hne : ¬(BitUtil.to_signed_byte (1 + BitUtil.least_significant_bit
      (pyOr (BitUtil.unsigned_right_shift_long v h.log2m)
        (HLLUtil.pw_max_mask h.regwidth))) = 0)) :
    add_raw_probabilistic h v =
      { h with probabilistic_storage :=
          (BitVector.set_max_register h.regwidth h.probabilistic_storage
            (landU v h.m_bits_mask)
            (BitUtil.to_signed_byte (1 + BitUtil.least_significant_bit
              (pyOr (BitUtil.unsigned_right_shift_long v h.log2m)
                (HLLUtil.pw_max_mask h.regwidth))))) } := by
  simp [add_raw_probabilistic, hsub, hne]

theorem landU_lt_m (h : HLL) (v : Int) : landU v h.m_bits_mask < h.m := by
  unfold landU HLL.m_bits_mask HLL.m
  rw [land_mask_eq_mod]
  exact Nat.mod_lt _ (by positivity)

theorem arsp_cases (h : HLL) (v : Int) (hw1 : 1 ≤ h.regwidth) (hw8 : h.regwidth ≤ 8) :
    add_raw_sparse_probabilistic h v = h ∨
    ∃ j p, j < h.m ∧ 1 ≤ p ∧ p ≤ ((2 ^ h.regwidth - 1 : Nat) : Int) ∧
      dict_get h.sparse_storage j 0 < p ∧
      add_raw_sparse_probabilistic h v =
        { h with sparse_storage := dict_set h.sparse_storage j p } := by
  by_cases hsub : BitUtil.unsigned_right_shift_long v h.log2m = 0
  · left
    exact arsp_zero h v hsub
  · obtain ⟨hP1, hP2⟩ := p_w_value_bound h.regwidth hw1 hw8
      (BitUtil.unsigned_right_shift_long v h.log2m)
    rw [arsp_spec h v hsub (by omega)]
    by_cases hgt : BitUtil.to_signed_byte (1 + BitUtil.least_significant_bit
          (pyOr (BitUtil.unsigned_right_shift_long v h.log2m)
            (HLLUtil.pw_max_mask h.regwidth)))
        > dict_get h.sparse_storage (landU v h.m_bits_mask) 0
    · right
      rw [if_pos hgt]
      exact ⟨landU v h.m_bits_mask, _, landU_lt_m h v, hP1, hP2, hgt, rfl⟩
    · left
      rw [if_neg hgt]

theorem arp_cases (h : HLL) (v : Int) (hw1 : 1 ≤ h.regwidth) (hw8 : h.regwidth ≤ 8) :
    add_raw_probabilistic h v = h ∨
    ∃ j p, j < h.m ∧ 1 ≤ p ∧ p ≤ ((2 ^ h.regwidth - 1 : Nat) : Int) ∧
      add_raw_probabilistic h v =
        { h with probabilistic_storage :=
            BitVector.set_max_register h.regwidth h.probabilistic_storage j p } := by
  by_cases hsub : BitUtil.unsigned_right_shift_long v h.log2m = 0
  · left
    exact arp_zero h v hsub
  · obtain ⟨hP1, hP2⟩ := p_w_value_bound h.regwidth hw1 hw8
      (BitUtil.unsigned_right_shift_long v h.log2m)
    right
    exact ⟨landU v h.m_bits_mask, _, landU_lt_m h v, hP1, hP2,
      arp_spec h v hsub (by omega)⟩

/-! ### Monotone-max folds over the backing words -/

theorem length_set_max (w : Nat) (ws : List Nat) (j : Nat) (v : Int) :
    (BitVector.set_max_register w ws j v).length = ws.length := by
  simp only [BitVector.set_max_register]
  split
  · exact length_set_register w ws j v
  · rfl

theorem set_max_words_lt (w : Nat) (ws : List Nat) (hw : ∀ x ∈ ws, x < 2 ^ 64)
    (j : Nat) (v : Int) : ∀ x ∈ BitVector.set_max_register w ws j v, x < 2 ^ 64 := by
  simp only [BitVector.set_max_register]
  split
  · exact set_register_words_lt w ws hw j v
  · exact hw

theorem foldl_set_max_len (w : Nat) (qs : List (Nat × Int)) (ws : List Nat) :
    (qs.foldl (fun a p => BitVector.set_max_register w a p.1 p.2) ws).length
      = ws.length := by
  induction qs generalizing ws with
  | nil => rfl
  | cons q qs ih => rw [List.foldl_cons, ih, length_set_max]

theorem foldl_set_max_words_lt (w : Nat) (qs : List (Nat × Int)) (ws : List Nat)
    (hw : ∀ x ∈ ws, x < 2 ^ 64) :
    ∀ x ∈ qs.foldl (fun a p => BitVector.set_max_register w a p.1 p.2) ws, x < 2 ^ 64 := by
  induction qs generalizing ws with
  | nil => exact hw
  | cons q qs ih =>
    rw [List.foldl_cons]
    exact ih _ (set_max_words_lt w ws hw q.1 q.2)

theorem foldl_set_max_mono (w : Nat) (hw1 : 1 ≤ w) (hw8 : w ≤ 8) (m : Nat) :
    ∀ (qs : List (Nat × Int)) (ws : List Nat),
      (∀ p ∈ qs, p.1 < m) → (∀ p ∈ qs, 0 ≤ p.2 ∧ p.2 < ((2 ^ w : Nat) : Int)) →
      (∀ x ∈ ws, x < 2 ^ 64) → ws.length = (w * m + 63) / 64 → ∀ i,
      BitVector.get_register w ws i ≤
        BitVector.get_register w
          (qs.foldl (fun a p => BitVector.set_max_register w a p.1 p.2) ws) i := by
  intro qs
  induction qs with
  | nil =>
    intro ws _ _ _ _ i
    exact le_refl _
  | cons q qs ih =>
    intro ws hkeys hvals hw hlen i
    rw [List.foldl_cons]
    refine le_trans (get_set_max_mono w hw1 hw8 ws hw q.1 q.2
      (hvals q (List.mem_cons_self _ _)).1 (hvals q (List.mem_cons_self _ _)).2
      (fit_of_lt (hkeys q (List.mem_cons_self _ _)) hlen) i) ?_
    exact ih _ (fun p hp => hkeys p (List.mem_cons_of_mem _ hp))
      (fun p hp => hvals p (List.mem_cons_of_mem _ hp))
      (set_max_words_lt w ws hw q.1 q.2) (by rw [length_set_max]; exact hlen) i

theorem foldl_set_max_ge (w : Nat) (hw1 : 1 ≤ w) (hw8 : w ≤ 8) (m : Nat) :
    ∀ (qs : List (Nat × Int)) (ws : List Nat),
      (∀ p ∈ qs, p.1 < m) → (∀ p ∈ qs, 0 ≤ p.2 ∧ p.2 < ((2 ^ w : Nat) : Int)) →
      (∀ x ∈ ws, x < 2 ^ 64) → ws.length = (w * m + 63) / 64 →
      ∀ q ∈ qs,
      q.2 ≤ (BitVector.get_register w
          (qs.foldl (fun a p => BitVector.set_max_register w a p.1 p.2) ws) q.1 : Int) := by
  intro qs
  induction qs with
  | nil =>
    intro ws _ _ _ _ q hq
    cases hq
  | cons r rs ih =>
    intro ws hkeys hvals hw hlen q hq
    rw [List.foldl_cons]
    rcases List.mem_cons.mp hq with rfl | hq
    · refine le_trans (get_set_max_ge w hw1 hw8 ws hw q.1 q.2
        (hvals q (List.mem_cons_self _ _)).1 (hvals q (List.mem_cons_self _ _)).2
        (fit_of_lt (hkeys q (List.mem_cons_self _ _)) hlen)) ?_
      have hmono := foldl_set_max_mono w hw1 hw8 m rs
        (BitVector.set_max_register w ws q.1 q.2)
        (fun p hp => hkeys p (List.mem_cons_of_mem _ hp))
        (fun p hp => hvals p (List.mem_cons_of_mem _ hp))
        (set_max_words_lt w ws hw q.1 q.2) (by rw [length_set_max]; exact hlen) q.1
      exact_mod_cast hmono
    · exact ih _ (fun p hp => hkeys p (List.mem_cons_of_mem _ hp))
        (fun p hp => hvals p (List.mem_cons_of_mem _ hp))
        (set_max_words_lt w ws hw r.1 r.2) (by rw [length_set_max]; exact hlen) q hq

theorem promote_spec (qs : List (Nat × Int)) (h : HLL) :
    promote_sparse_entries h qs =
      { h with probabilistic_storage :=
          (qs.foldl (fun a p => BitVector.set_max_register h.regwidth a p.1 p.2)
            h.probabilistic_storage) } := by
  induction qs generalizing h with
  | nil => rfl
  | cons q qs ih =>
    have h1 : promote_sparse_entries h (q :: qs)
        = promote_sparse_entries ({ h with probabilistic_storage :=
            (BitVector.set_max_register h.regwidth h.probabilistic_storage q.1 q.2) }) qs := rfl
    rw [h1, ih]
    rfl

/-! ### The structural invariant: establishment and preservation -/

/-- Above log2m 30 the int32 register-count shift wraps below 16. -/
theorem left_shift_int_one_lt_16 (lm : Nat) (h31 : 31 ≤ lm) :
    BitUtil.left_shift_int 1 lm < 16 := by
  rcases Nat.lt_or_ge lm 32 with h32 | h32
  · have hlm : lm = 31 := by omega
    subst hlm
    decide
  · unfold BitUtil.left_shift_int wrap32
    rw [one_mul]
    have hdvd : ((2 : Int) ^ 32) ∣ (2 : Int) ^ lm := pow_dvd_pow 2 h32
    have hmod : ((2 : Int) ^ lm) % ((2 : Int) ^ 32) = 0 := Int.emod_eq_zero_of_dvd hdvd
    simp only [hmod]
    norm_num

/-- Freshly initialized storage of any non-UNDEFINED tag satisfies the
invariant, for any in-range parameters. -/
theorem inv_init_base (lm w et st : Nat) (ea eo so : Bool) (t : HLLType)
    (h4 : 4 ≤ lm) (h30 : lm ≤ 30) (hw1 : 1 ≤ w) (hw8 : w ≤ 8) (ht : t ≠ .UNDEFINED) :
    Inv (init_storage
      { log2m := lm, regwidth := w, explicit_auto := ea, explicit_off := eo,
        explicit_threshold := et, sparse_off := so, sparse_threshold := st,
        type := .EMPTY, explicit_storage := [], sparse_storage := [],
        probabilistic_storage := [] } t) := by
  cases t
  case UNDEFINED => exact absurd rfl ht
  case EMPTY =>
    exact ⟨h4, h30, hw1, hw8, by simp [init_storage], by simp [init_storage],
      by simp [init_storage], List.sorted_nil, by simp [init_storage],
      by simp [init_storage], by simp [init_storage], by simp [init_storage],
      by simp [init_storage]⟩
  case EXPLICIT =>
    exact ⟨h4, h30, hw1, hw8, by simp [init_storage], by simp [init_storage],
      by simp [init_storage], List.sorted_nil, by simp [init_storage],
      by simp [init_storage], by simp [init_storage], by simp [init_storage],
      by simp [init_storage]⟩
  case SPARSE =>
    exact ⟨h4, h30, hw1, hw8, by simp [init_storage], by simp [init_storage],
      by simp [init_storage], List.sorted_nil, by simp [init_storage],
      by simp [init_storage], by simp [init_storage], by simp [init_storage],
      by simp [init_storage]⟩
  case FULL =>
    refine ⟨h4, h30, hw1, hw8, by simp [init_storage], ?_, ?_, List.sorted_nil,
      by simp [init_storage], by simp [init_storage], by simp [init_storage],
      by simp [init_storage], by simp [init_storage]⟩
    · intro _
      show (BitVector.mk_words w (2 ^ lm)).length = _
      rw [mk_words_length]
      rfl
    · show ∀ x ∈ BitVector.mk_words w (2 ^ lm), x < 2 ^ 64
      intro x hx
      unfold BitVector.mk_words at hx
      rw [List.eq_of_mem_replicate hx]
      norm_num

/-- The constructor establishes the invariant. -/
theorem inv_mkHLL (log2m regwidth expthresh : Int) (sparseon : Bool) (t : HLLType)
    (h : HLL) (hok : mkHLL log2m regwidth expthresh sparseon t = .ok h) : Inv h := by
  simp only [mkHLL] at hok
  split at hok
  · simp at hok
  rename_i hlr
  split at hok
  · simp at hok
  rename_i hrr
  split at hok
  · simp at hok
  rename_i hm16
  split at hok
  · simp at hok
  rename_i flags hflags
  have h4 : 4 ≤ log2m.toNat := by omega
  have hw1 : 1 ≤ regwidth.toNat := by omega
  have hw8 : regwidth.toNat ≤ 8 := by omega
  have h30 : log2m.toNat ≤ 30 := by
    by_contra hc
    exact hm16 (left_shift_int_one_lt_16 log2m.toNat (by omega))
  cases t
  case UNDEFINED => simp at hok
  all_goals
    simp only [Except.ok.injEq] at hok
    subst hok
    exact inv_init_base _ _ _ _ _ _ _ _ h4 h30 hw1 hw8 (by decide)

/-- fill never changes the number of backing words. -/
theorem fill_length (w c : Nat) (ws : List Nat) (v : Int) :
    (BitVector.fill w c ws v).length = ws.length := by
  unfold BitVector.fill
  generalize List.range c = l
  induction l generalizing ws with
  | nil => rfl
  | cons i l ih => rw [List.foldl_cons, ih, length_set_register]

/-- fill keeps every backing word below 2^64. -/
theorem fill_words_lt (w c : Nat) (ws : List Nat) (v : Int)
    (hw : ∀ x ∈ ws, x < 2 ^ 64) : ∀ x ∈ BitVector.fill w c ws v, x < 2 ^ 64 := by
  unfold BitVector.fill
  generalize List.range c = l
  induction l generalizing ws with
  | nil => exact hw
  | cons i l ih =>
    rw [List.foldl_cons]
    exact ih _ (set_register_words_lt w ws hw i v)

/-- A fold of sparse probabilistic updates only rewrites the sparse
dictionary. -/
theorem foldl_arsp_proj (values : List Int) (g : HLL) :
    ∃ d, values.foldl add_raw_sparse_probabilistic g = { g with sparse_storage := d } := by
  induction values generalizing g with
  | nil => exact ⟨g.sparse_storage, rfl⟩
  | cons x xs ih =>
    rw [List.foldl_cons]
    obtain ⟨d, hd⟩ := ih (add_raw_sparse_probabilistic g x)
    refine ⟨d, ?_⟩
    rw [hd, arsp_eq g x]

/-- A fold of full probabilistic updates only rewrites the backing words. -/
theorem foldl_arp_proj (values : List Int) (g : HLL) :
    ∃ d, values.foldl add_raw_probabilistic g = { g with probabilistic_storage := d } := by
  induction values generalizing g with
  | nil => exact ⟨g.probabilistic_storage, rfl⟩
  | cons x xs ih =>
    rw [List.foldl_cons]
    obtain ⟨d, hd⟩ := ih (add_raw_probabilistic g x)
    refine ⟨d, ?_⟩
    rw [hd, arp_eq g x]

/-- A fold of sparse probabilistic updates keeps the sparse dictionary
well-formed and grows it by at most one entry per folded value. -/
theorem foldl_arsp_facts (values : List Int) (g : HLL) (hw1 : 1 ≤ g.regwidth)
    (hw8 : g.regwidth ≤ 8) (hnd : (g.sparse_storage.map Prod.fst).Nodup)
    (hk : ∀ p ∈ g.sparse_storage, p.1 < g.m)
    (hv : ∀ p ∈ g.sparse_storage, 1 ≤ p.2 ∧ p.2 ≤ ((2 ^ g.regwidth - 1 : Nat) : Int)) :
    (((values.foldl add_raw_sparse_probabilistic g).sparse_storage.map Prod.fst).Nodup) ∧
    (∀ p ∈ (values.foldl add_raw_sparse_probabilistic g).sparse_storage, p.1 < g.m) ∧
    (∀ p ∈ (values.foldl add_raw_sparse_probabilistic g).sparse_storage,
      1 ≤ p.2 ∧ p.2 ≤ ((2 ^ g.regwidth - 1 : Nat) : Int)) ∧
    (values.foldl add_raw_sparse_probabilistic g).sparse_storage.length
      ≤ g.sparse_storage.length + values.length := by
  induction values generalizing g with
  | nil => exact ⟨hnd, hk, hv, by simp⟩
  | cons x xs ih =>
    rw [List.foldl_cons]
    rcases arsp_cases g x hw1 hw8 with heq | ⟨j, p, hj, hp1, hp2, _, heq⟩
    · rw [heq]
      obtain ⟨a1, a2, a3, a4⟩ := ih g hw1 hw8 hnd hk hv
      refine ⟨a1, a2, a3, ?_⟩
      simp only [List.length_cons]
      omega
    · rw [heq]
      have hnd1 : ((dict_set g.sparse_storage j p).map Prod.fst).Nodup :=
        dict_set_nodup _ _ _ hnd
      have hk1 : ∀ q ∈ dict_set g.sparse_storage j p, q.1 < g.m := by
        intro q hq
        rcases dict_set_mem _ _ _ q hq with rfl | hq
        · exact hj
        · exact hk q hq
      have hv1 : ∀ q ∈ dict_set g.sparse_storage j p,
          1 ≤ q.2 ∧ q.2 ≤ ((2 ^ g.regwidth - 1 : Nat) : Int) := by
        intro q hq
        rcases dict_set_mem _ _ _ q hq with rfl | hq
        · exact ⟨hp1, hp2⟩
        · exact hv q hq
      obtain ⟨a1, a2, a3, a4⟩ :=
        ih { g with sparse_storage := dict_set g.sparse_storage j p } hw1 hw8 hnd1 hk1 hv1
      refine ⟨a1, a2, a3, ?_⟩
      have hlen := dict_set_length_le g.sparse_storage j p
      have ha4 : (List.foldl add_raw_sparse_probabilistic
          { g with sparse_storage := dict_set g.sparse_storage j p } xs).sparse_storage.length
          ≤ (dict_set g.sparse_storage j p).length + xs.length := a4
      simp only [List.length_cons]
      omega

/-- A fold of full probabilistic updates keeps the backing words sized
and bounded. -/
theorem foldl_arp_facts (values : List Int) (g : HLL) (hw1 : 1 ≤ g.regwidth)
    (hw8 : g.regwidth ≤ 8)
    (hlen : g.probabilistic_storage.length = (g.regwidth * g.m + 63) / 64)
    (hwlt : ∀ x ∈ g.probabilistic_storage, x < 2 ^ 64) :
    (values.foldl add_raw_probabilistic g).probabilistic_storage.length
      = (g.regwidth * g.m + 63) / 64 ∧
    ∀ x ∈ (values.foldl add_raw_probabilistic g).probabilistic_storage, x < 2 ^ 64 := by
  induction values generalizing g with
  | nil => exact ⟨hlen, hwlt⟩
  | cons x xs ih =>
    rw [List.foldl_cons]
    rcases arp_cases g x hw1 hw8 with heq | ⟨j, p, hj, hp1, hp2, heq⟩
    · rw [heq]
      exact ih g hw1 hw8 hlen hwlt
    · rw [heq]
      exact ih _ hw1 hw8 (by rw [length_set_max]; exact hlen)
        (set_max_words_lt _ _ hwlt _ _)

/-- Every backing word of a fresh register array is below 2^64. -/
theorem mk_words_lt (w c : Nat) : ∀ x ∈ BitVector.mk_words w c, x < 2 ^ 64 := by
  intro x hx
  unfold BitVector.mk_words at hx
  rw [List.eq_of_mem_replicate hx]
  norm_num

/-- add_raw preserves the structural invariant. -/
theorem inv_add_raw (h : HLL) (v : Int) (hI : Inv h) : Inv (add_raw h v) := by
  obtain ⟨h4, h30, hw1, hw8, htok, hflen, hfwlt, hesort, hesize, hnodup, hkeys, hvals,
    hssize⟩ := hI
  cases htype : h.type
  case UNDEFINED => exact absurd htype htok
  case EMPTY =>
    simp only [add_raw, htype]
    split
    · rename_i hthr
      exact ⟨h4, h30, hw1, hw8, by simp [init_storage], by simp [init_storage],
        hfwlt, List.sorted_singleton v,
        by intro _; show 1 ≤ h.explicit_threshold; omega,
        hnodup, hkeys, hvals, by simp [init_storage]⟩
    · split
      · rcases arsp_cases (init_storage h .SPARSE) v hw1 hw8 with heq |
          ⟨j, p, hj, hp1, hp2, _, heq⟩
        · rw [heq]
          exact ⟨h4, h30, hw1, hw8, by simp [init_storage], by simp [init_storage],
            hfwlt, hesort, by simp [init_storage],
            by simp [init_storage], by simp [init_storage], by simp [init_storage],
            by intro _; simp [init_storage]⟩
        · rw [heq]
          refine ⟨h4, h30, hw1, hw8, by simp [init_storage], by simp [init_storage],
            hfwlt, hesort, by simp [init_storage], ?_, ?_, ?_, ?_⟩
          · show ((dict_set [] j p).map Prod.fst).Nodup
            rw [dict_set_nil]
            simp
          · show ∀ q ∈ dict_set [] j p, q.1 < _
            rw [dict_set_nil]
            intro q hq
            simp at hq
            subst hq
            exact hj
          · show ∀ q ∈ dict_set [] j p, 1 ≤ q.2 ∧ q.2 ≤ _
            rw [dict_set_nil]
            intro q hq
            simp at hq
            subst hq
            exact ⟨hp1, hp2⟩
          · intro _
            show (dict_set [] j p).length ≤ max h.sparse_threshold (h.explicit_threshold + 1)
            rw [dict_set_nil]
            simp only [List.length_singleton]
            omega
      · rcases arp_cases (init_storage h .FULL) v hw1 hw8 with heq |
          ⟨j, p, hj, hp1, hp2, heq⟩
        · rw [heq]
          refine ⟨h4, h30, hw1, hw8, by simp [init_storage], ?_, ?_, hesort,
            by simp [init_storage], hnodup, hkeys, hvals, by simp [init_storage]⟩
          · intro _
            show (BitVector.mk_words h.regwidth h.m).length = _
            rw [mk_words_length]
            rfl
          · exact mk_words_lt _ _
        · rw [heq]
          refine ⟨h4, h30, hw1, hw8, by simp [init_storage], ?_, ?_, hesort,
            by simp [init_storage], hnodup, hkeys, hvals, by simp [init_storage]⟩
          · intro _
            show (BitVector.set_max_register h.regwidth
              (BitVector.mk_words h.regwidth h.m) j p).length = _
            rw [length_set_max, mk_words_length]
            rfl
          · exact set_max_words_lt _ _ (mk_words_lt _ _) _ _
  case EXPLICIT =>
    simp only [add_raw, htype]
    split
    · rename_i hover
      split
      · rename_i hso
        obtain ⟨a1, a2, a3, a4⟩ := foldl_arsp_facts (set_add h.explicit_storage v)
          (init_storage { h with type := .EXPLICIT, explicit_storage := (set_add h.explicit_storage v) } .SPARSE)
          hw1 hw8 (by simp [init_storage]) (by simp [init_storage]) (by simp [init_storage])
        obtain ⟨d, hd⟩ := foldl_arsp_proj (set_add h.explicit_storage v)
          (init_storage { h with type := .EXPLICIT, explicit_storage := (set_add h.explicit_storage v) } .SPARSE)
        rw [hd] at a1 a2 a3 a4 ⊢
        have hlen1 : (set_add h.explicit_storage v).length ≤ h.explicit_storage.length + 1 :=
          set_add_length_le _ _
        refine ⟨h4, h30, hw1, hw8, by simp [init_storage], by simp [init_storage],
          hfwlt, List.sorted_nil, by simp, a1, a2, a3, ?_⟩
        · intro _
          show d.length ≤ max h.sparse_threshold (h.explicit_threshold + 1)
          have ha4 : d.length ≤ 0 + (set_add h.explicit_storage v).length := a4
          have he := hesize htype
          omega
      · rename_i hso
        obtain ⟨b1, b2⟩ := foldl_arp_facts (set_add h.explicit_storage v)
          (init_storage { h with type := .EXPLICIT, explicit_storage := (set_add h.explicit_storage v) } .FULL)
          hw1 hw8
          (by
            show (BitVector.mk_words h.regwidth h.m).length = _
            rw [mk_words_length]
            rfl)
          (mk_words_lt _ _)
        obtain ⟨d, hd⟩ := foldl_arp_proj (set_add h.explicit_storage v)
          (init_storage { h with type := .EXPLICIT, explicit_storage := (set_add h.explicit_storage v) } .FULL)
        rw [hd] at b1 b2 ⊢
        refine ⟨h4, h30, hw1, hw8, by simp [init_storage], ?_, b2, List.sorted_nil,
          by simp, hnodup, hkeys, hvals, by simp [init_storage]⟩
        · intro _
          exact b1
    · rename_i hok
      exact ⟨h4, h30, hw1, hw8, by simp [htype], by simp [htype],
        hfwlt, set_add_sorted _ _ hesort,
        by
          intro _
          show (set_add h.explicit_storage v).length ≤ h.explicit_threshold
          omega,
        hnodup, hkeys, hvals, by simp [htype]⟩
  case SPARSE =>
    simp only [add_raw, htype]
    rcases arsp_cases h v hw1 hw8 with heq | ⟨j, p, hj, hp1, hp2, _, heq⟩ <;> rw [heq]
    · split
      · rename_i hov
        rw [promote_spec]
        refine ⟨h4, h30, hw1, hw8, by simp [init_storage], ?_, ?_, hesort,
          by simp [init_storage], by simp, by simp, by simp, by simp [init_storage]⟩
        · intro _
          dsimp only [init_storage]
          rw [foldl_set_max_len, mk_words_length]
          rfl
        · dsimp only [init_storage]
          exact foldl_set_max_words_lt _ _ _ (mk_words_lt _ _)
      · exact ⟨h4, h30, hw1, hw8, htok, hflen, hfwlt, hesort, hesize, hnodup, hkeys,
          hvals, hssize⟩
    · have hnd1 : ((dict_set h.sparse_storage j p).map Prod.fst).Nodup :=
        dict_set_nodup _ _ _ hnodup
      have hk1 : ∀ q ∈ dict_set h.sparse_storage j p, q.1 < h.m := by
        intro q hq
        rcases dict_set_mem _ _ _ q hq with rfl | hq
        · exact hj
        · exact hkeys q hq
      have hv1 : ∀ q ∈ dict_set h.sparse_storage j p,
          1 ≤ q.2 ∧ q.2 ≤ ((2 ^ h.regwidth - 1 : Nat) : Int) := by
        intro q hq
        rcases dict_set_mem _ _ _ q hq with rfl | hq
        · exact ⟨hp1, hp2⟩
        · exact hvals q hq
      split
      · rename_i hov
        rw [promote_spec]
        refine ⟨h4, h30, hw1, hw8, by simp [init_storage], ?_, ?_, hesort,
          by simp [init_storage], by simp, by simp, by simp, by simp [init_storage]⟩
        · intro _
          dsimp only [init_storage]
          rw [foldl_set_max_len, mk_words_length]
          rfl
        · dsimp only [init_storage]
          exact foldl_set_max_words_lt _ _ _ (mk_words_lt _ _)
      · rename_i hnov
        have hnov2 : ¬((dict_set h.sparse_storage j p).length > h.sparse_threshold) := hnov
        refine ⟨h4, h30, hw1, hw8, by simp [htype], by simp [htype], hfwlt, hesort,
          by simp [htype], hnd1, hk1, hv1, ?_⟩
        · intro _
          show (dict_set h.sparse_storage j p).length
            ≤ max h.sparse_threshold (h.explicit_threshold + 1)
          omega
  case FULL =>
    simp only [add_raw, htype]
    rcases arp_cases h v hw1 hw8 with heq | ⟨j, p, hj, hp1, hp2, heq⟩ <;> rw [heq]
    · exact ⟨h4, h30, hw1, hw8, htok, hflen, hfwlt, hesort, hesize, hnodup, hkeys,
        hvals, hssize⟩
    · refine ⟨h4, h30, hw1, hw8, htok, ?_, set_max_words_lt _ _ hfwlt _ _, hesort,
        hesize, hnodup, hkeys, hvals, hssize⟩
      intro _
      show (BitVector.set_max_register h.regwidth h.probabilistic_storage j p).length = _
      rw [length_set_max]
      exact hflen htype

/-- clear preserves the structural invariant. -/
theorem inv_clear (h : HLL) (hI : Inv h) : Inv (clear h) := by
  obtain ⟨h4, h30, hw1, hw8, htok, hflen, hfwlt, hesort, hesize, hnodup, hkeys, hvals,
    hssize⟩ := hI
  cases htype : h.type
  case UNDEFINED => exact absurd htype htok
  case EMPTY =>
    simp only [clear, htype]
    exact ⟨h4, h30, hw1, hw8, htok, hflen, hfwlt, hesort, hesize, hnodup, hkeys, hvals,
      hssize⟩
  case EXPLICIT =>
    simp only [clear, htype]
    exact ⟨h4, h30, hw1, hw8, by simp [htype], by simp [htype], hfwlt, List.sorted_nil,
      by intro _; simp, hnodup, hkeys, hvals, by simp [htype]⟩
  case SPARSE =>
    simp only [clear, htype]
    exact ⟨h4, h30, hw1, hw8, by simp [htype], by simp [htype], hfwlt, hesort,
      by simp [htype], by simp, by simp, by simp, by intro _; simp⟩
  case FULL =>
    simp only [clear, htype]
    refine ⟨h4, h30, hw1, hw8, by simp [htype], ?_, fill_words_lt _ _ _ _ hfwlt, hesort,
      by simp [htype], hnodup, hkeys, hvals, by simp [htype]⟩
    intro _
    show (BitVector.fill h.regwidth h.m h.probabilistic_storage 0).length = _
    rw [fill_length]
    exact hflen htype

/-- A fold of add_raw calls preserves the structural invariant. -/
theorem inv_foldl_add_raw (l : List Int) (g : HLL) (hI : Inv g) :
    Inv (l.foldl add_raw g) := by
  induction l generalizing g with
  | nil => exact hI
  | cons x xs ih =>
    rw [List.foldl_cons]
    exact ih _ (inv_add_raw g x hI)

/-- The homogeneous sparse merge fold only rewrites the sparse dictionary
and keeps it well-formed when the folded entries are in range. -/
theorem foldl_merge_facts (qs : List (Nat × Int)) (g : HLL)
    (hqk : ∀ p ∈ qs, p.1 < g.m)
    (hqv : ∀ p ∈ qs, 1 ≤ p.2 ∧ p.2 ≤ ((2 ^ g.regwidth - 1 : Nat) : Int))
    (hnd : (g.sparse_storage.map Prod.fst).Nodup)
    (hk : ∀ p ∈ g.sparse_storage, p.1 < g.m)
    (hv : ∀ p ∈ g.sparse_storage, 1 ≤ p.2 ∧ p.2 ≤ ((2 ^ g.regwidth - 1 : Nat) : Int)) :
    ∃ d, (qs.foldl (fun h p =>
        if p.2 > dict_get h.sparse_storage p.1 0 then
          { h with sparse_storage := dict_set h.sparse_storage p.1 p.2 }
        else h) g) = { g with sparse_storage := d } ∧
      ((d.map Prod.fst).Nodup) ∧ (∀ p ∈ d, p.1 < g.m) ∧
      (∀ p ∈ d, 1 ≤ p.2 ∧ p.2 ≤ ((2 ^ g.regwidth - 1 : Nat) : Int)) := by
  induction qs generalizing g with
  | nil => exact ⟨g.sparse_storage, rfl, hnd, hk, hv⟩
  | cons q qs ih =>
    rw [List.foldl_cons]
    by_cases hgt : q.2 > dict_get g.sparse_storage q.1 0
    · rw [if_pos hgt]
      have hk1 : ∀ p ∈ dict_set g.sparse_storage q.1 q.2, p.1 < g.m := by
        intro p hp
        rcases dict_set_mem _ _ _ p hp with rfl | hp
        · exact hqk q (List.mem_cons_self _ _)
        · exact hk p hp
      have hv1 : ∀ p ∈ dict_set g.sparse_storage q.1 q.2,
          1 ≤ p.2 ∧ p.2 ≤ ((2 ^ g.regwidth - 1 : Nat) : Int) := by
        intro p hp
        rcases dict_set_mem _ _ _ p hp with rfl | hp
        · exact hqv q (List.mem_cons_self _ _)
        · exact hv p hp
      obtain ⟨d, hd, d1, d2, d3⟩ :=
        ih { g with sparse_storage := dict_set g.sparse_storage q.1 q.2 }
          (fun p hp => hqk p (List.mem_cons_of_mem _ hp))
          (fun p hp => hqv p (List.mem_cons_of_mem _ hp))
          (dict_set_nodup _ _ _ hnd) hk1 hv1
      exact ⟨d, by rw [hd], d1, d2, d3⟩
    · rw [if_neg hgt]
      exact ih g (fun p hp => hqk p (List.mem_cons_of_mem _ hp))
        (fun p hp => hqv p (List.mem_cons_of_mem _ hp)) hnd hk hv

/-- The homogeneous full merge fold only rewrites the backing words and
keeps them sized and bounded. -/
theorem foldl_union_full_facts (l : List Nat) (b : HLL) (g : HLL)
    (hlen : g.probabilistic_storage.length = (g.regwidth * g.m + 63) / 64)
    (hwlt : ∀ x ∈ g.probabilistic_storage, x < 2 ^ 64) :
    ∃ ws, (l.foldl (fun h i =>
        { h with probabilistic_storage :=
            (BitVector.set_max_register h.regwidth h.probabilistic_storage i
              ((BitVector.get_register b.regwidth b.probabilistic_storage i : Nat) : Int)) })
        g)
      = { g with probabilistic_storage := ws } ∧
      ws.length = (g.regwidth * g.m + 63) / 64 ∧ ∀ x ∈ ws, x < 2 ^ 64 := by
  induction l generalizing g with
  | nil => exact ⟨g.probabilistic_storage, rfl, hlen, hwlt⟩
  | cons i l ih =>
    rw [List.foldl_cons]
    obtain ⟨ws, hws, w1, w2⟩ := ih { g with probabilistic_storage :=
        (BitVector.set_max_register g.regwidth g.probabilistic_storage i
          ((BitVector.get_register b.regwidth b.probabilistic_storage i : Nat) : Int)) }
      (by rw [length_set_max]; exact hlen) (set_max_words_lt _ _ hwlt _ _)
    exact ⟨ws, by rw [hws], w1, w2⟩

/-- Folding add_raw and then discarding the explicit set preserves the
invariant. -/
theorem inv_strip_explicit (g : HLL) (l : List Int) (hI : Inv g) :
    Inv { l.foldl add_raw g with explicit_storage := ([] : List Int) } := by
  have hIf := inv_foldl_add_raw l g hI
  exact ⟨hIf.log2m_lb, hIf.log2m_ub, hIf.regwidth_lb, hIf.regwidth_ub, hIf.type_ok,
    hIf.full_len, hIf.full_words_lt, List.sorted_nil, by intro _; simp,
    hIf.sparse_nodup, hIf.sparse_keys, hIf.sparse_values, hIf.sparse_size⟩

/-- union preserves the structural invariant when the operands share
their parameters. -/
theorem inv_union (a b : HLL) (hIa : Inv a) (hIb : Inv b) (hsp : SameParams a b) :
    Inv (union a b) := by
  obtain ⟨hL, hW, hEA, hEO, hET, hSO, hST⟩ := hsp
  have hm : a.m = b.m := by unfold HLL.m; rw [hL]
  by_cases hty : a.type = b.type
  · unfold union
    rw [if_pos hty]
    cases atype : a.type with
    | EMPTY =>
      simp only [homogeneous_union, atype]
      exact hIa
    | EXPLICIT =>
      simp only [homogeneous_union, atype]
      exact inv_foldl_add_raw _ _ hIa
    | SPARSE =>
      simp only [homogeneous_union, atype]
      obtain ⟨d, hd, d1, d2, d3⟩ := foldl_merge_facts b.sparse_storage a
        (by intro p hp; rw [hm]; exact hIb.sparse_keys p hp)
        (by intro p hp; rw [hW]; exact hIb.sparse_values p hp)
        hIa.sparse_nodup hIa.sparse_keys hIa.sparse_values
      rw [hd]
      split
      · rename_i hov
        rw [promote_spec]
        refine ⟨hIa.log2m_lb, hIa.log2m_ub, hIa.regwidth_lb, hIa.regwidth_ub,
          by simp [init_storage], ?_, ?_, hIa.explicit_sorted, by simp [init_storage, atype],
          by simp, by simp, by simp, by simp [init_storage]⟩
        · intro _
          dsimp only [init_storage]
          rw [foldl_set_max_len, mk_words_length]
          rfl
        · dsimp only [init_storage]
          exact foldl_set_max_words_lt _ _ _ (mk_words_lt _ _)
      · rename_i hnov
        have hnov2 : ¬(d.length > a.sparse_threshold) := hnov
        refine ⟨hIa.log2m_lb, hIa.log2m_ub, hIa.regwidth_lb, hIa.regwidth_ub,
          by simp [atype], by simp [atype], hIa.full_words_lt, hIa.explicit_sorted,
          by simp [atype], d1, d2, d3, ?_⟩
        intro _
        show d.length ≤ max a.sparse_threshold (a.explicit_threshold + 1)
        omega
    | FULL =>
      simp only [homogeneous_union, atype]
      obtain ⟨ws, hws, w1, w2⟩ := foldl_union_full_facts (List.range a.m) b a
        (hIa.full_len atype) hIa.full_words_lt
      rw [hws]
      exact ⟨hIa.log2m_lb, hIa.log2m_ub, hIa.regwidth_lb, hIa.regwidth_ub,
        by simp [atype], by intro _; exact w1, w2, hIa.explicit_sorted,
        by simp [atype], hIa.sparse_nodup, hIa.sparse_keys, hIa.sparse_values,
        by simp [atype]⟩
    | UNDEFINED => exact absurd atype hIa.type_ok
  · unfold union
    rw [if_neg hty]
    unfold heterogenous_union
    by_cases haE : a.type = .EMPTY
    · rw [if_pos haE]
      cases btype : b.type with
      | UNDEFINED => exact absurd btype hIb.type_ok
      | EMPTY => exact absurd (haE.trans btype.symm) hty
      | EXPLICIT =>
        simp only [heterogeneous_union_for_empty_hll, btype]
        split
        · rename_i hfits
          exact ⟨hIa.log2m_lb, hIa.log2m_ub, hIa.regwidth_lb, hIa.regwidth_ub,
            by simp, by simp, hIa.full_words_lt, hIb.explicit_sorted,
            by intro _; exact hfits, hIa.sparse_nodup, hIa.sparse_keys,
            hIa.sparse_values, by simp⟩
        · split
          · rename_i hso
            apply inv_foldl_add_raw
            exact ⟨hIa.log2m_lb, hIa.log2m_ub, hIa.regwidth_lb, hIa.regwidth_ub,
              by simp [init_storage], by simp [init_storage, haE], hIa.full_words_lt,
              hIa.explicit_sorted, by simp [init_storage, haE], by simp [init_storage],
              by simp [init_storage], by simp [init_storage], by intro _; simp [init_storage]⟩
          · rename_i hso
            apply inv_foldl_add_raw
            refine ⟨hIa.log2m_lb, hIa.log2m_ub, hIa.regwidth_lb, hIa.regwidth_ub,
              by simp [init_storage], ?_, mk_words_lt _ _, hIa.explicit_sorted,
              by simp [init_storage, haE], hIa.sparse_nodup, hIa.sparse_keys,
              hIa.sparse_values, by simp [init_storage, haE]⟩
            intro _
            show (BitVector.mk_words a.regwidth a.m).length = _
            rw [mk_words_length]
            rfl
      | SPARSE =>
        simp only [heterogeneous_union_for_empty_hll, btype]
        split
        · rename_i hso
          refine ⟨hIa.log2m_lb, hIa.log2m_ub, hIa.regwidth_lb, hIa.regwidth_ub,
            by simp, by simp, hIa.full_words_lt, hIa.explicit_sorted, by simp,
            hIb.sparse_nodup, ?_, ?_, ?_⟩
          · intro p hp
            show p.1 < a.m
            rw [hm]
            exact hIb.sparse_keys p hp
          · intro p hp
            show 1 ≤ p.2 ∧ p.2 ≤ ((2 ^ a.regwidth - 1 : Nat) : Int)
            rw [hW]
            exact hIb.sparse_values p hp
          · intro _
            show b.sparse_storage.length ≤ max a.sparse_threshold (a.explicit_threshold + 1)
            rw [hST, hET]
            exact hIb.sparse_size btype
        · rename_i hso
          rw [promote_spec]
          refine ⟨hIa.log2m_lb, hIa.log2m_ub, hIa.regwidth_lb, hIa.regwidth_ub,
            by simp [init_storage], ?_, ?_, hIa.explicit_sorted,
            by simp [init_storage], hIa.sparse_nodup, hIa.sparse_keys,
            hIa.sparse_values, by simp [init_storage]⟩
          · intro _
            dsimp only [init_storage]
            rw [foldl_set_max_len, mk_words_length]
            rfl
          · dsimp only [init_storage]
            exact foldl_set_max_words_lt _ _ _ (mk_words_lt _ _)
      | FULL =>
        simp only [heterogeneous_union_for_empty_hll, btype]
        refine ⟨hIa.log2m_lb, hIa.log2m_ub, hIa.regwidth_lb, hIa.regwidth_ub,
          by simp, ?_, hIb.full_words_lt, hIa.explicit_sorted, by simp,
          hIa.sparse_nodup, hIa.sparse_keys, hIa.sparse_values, by simp⟩
        intro _
        show b.probabilistic_storage.length = (a.regwidth * a.m + 63) / 64
        rw [hW, hm]
        exact hIb.full_len btype
    · rw [if_neg haE]
      by_cases hbE : b.type = .EMPTY
      · rw [if_pos hbE]
        exact hIa
      · rw [if_neg hbE]
        cases atype : a.type with
        | UNDEFINED => exact absurd atype hIa.type_ok
        | EMPTY => exact absurd atype haE
        | EXPLICIT =>
          simp only [heterogeneous_union_for_non_empty_hll, atype]
          by_cases hbS : b.type = .SPARSE
          · rw [if_pos hbS]
            by_cases hso : a.sparse_off
            · rw [if_neg (by simp [hso])]
              rw [promote_spec]
              have hIG : Inv { (init_storage a .FULL) with probabilistic_storage :=
                  (b.sparse_storage.foldl
                    (fun a_1 p => BitVector.set_max_register
                      (init_storage a .FULL).regwidth a_1 p.1 p.2)
                    (init_storage a .FULL).probabilistic_storage) } := by
                refine ⟨hIa.log2m_lb, hIa.log2m_ub, hIa.regwidth_lb, hIa.regwidth_ub,
                  by simp [init_storage], ?_, ?_, hIa.explicit_sorted,
                  by simp [init_storage], hIa.sparse_nodup, hIa.sparse_keys,
                  hIa.sparse_values, by simp [init_storage]⟩
                · intro _
                  dsimp only [init_storage]
                  rw [foldl_set_max_len, mk_words_length]
                  rfl
                · dsimp only [init_storage]
                  exact foldl_set_max_words_lt _ _ _ (mk_words_lt _ _)
              exact inv_strip_explicit _ _ hIG
            · rw [if_pos (by simp [hso])]
              have hIG : Inv { a with type := .SPARSE, sparse_storage := b.sparse_storage } := by
                refine ⟨hIa.log2m_lb, hIa.log2m_ub, hIa.regwidth_lb, hIa.regwidth_ub,
                  by simp, by simp, hIa.full_words_lt, hIa.explicit_sorted, by simp,
                  hIb.sparse_nodup, ?_, ?_, ?_⟩
                · intro p hp
                  show p.1 < a.m
                  rw [hm]
                  exact hIb.sparse_keys p hp
                · intro p hp
                  show 1 ≤ p.2 ∧ p.2 ≤ ((2 ^ a.regwidth - 1 : Nat) : Int)
                  rw [hW]
                  exact hIb.sparse_values p hp
                · intro _
                  show b.sparse_storage.length
                    ≤ max a.sparse_threshold (a.explicit_threshold + 1)
                  rw [hST, hET]
                  exact hIb.sparse_size hbS
              exact inv_strip_explicit _ _ hIG
          · rw [if_neg hbS]
            have hbF : b.type = .FULL := by
              cases btype : b.type with
              | EMPTY => exact absurd btype hbE
              | EXPLICIT => exact absurd (atype.trans btype.symm) hty
              | SPARSE => exact absurd btype hbS
              | FULL => rfl
              | UNDEFINED => exact absurd btype hIb.type_ok
            have hIG : Inv { a with type := .FULL, probabilistic_storage := b.probabilistic_storage } := by
              refine ⟨hIa.log2m_lb, hIa.log2m_ub, hIa.regwidth_lb, hIa.regwidth_ub,
                by simp, ?_, hIb.full_words_lt, hIa.explicit_sorted, by simp,
                hIa.sparse_nodup, hIa.sparse_keys, hIa.sparse_values, by simp⟩
              intro _
              show b.probabilistic_storage.length = (a.regwidth * a.m + 63) / 64
              rw [hW, hm]
              exact hIb.full_len hbF
            exact inv_strip_explicit _ _ hIG
        | SPARSE =>
          simp only [heterogeneous_union_for_non_empty_hll, atype]
          by_cases hbX : b.type = .EXPLICIT
          · rw [if_pos hbX]
            exact inv_foldl_add_raw _ _ hIa
          · rw [if_neg hbX]
            have hbF : b.type = .FULL := by
              cases btype : b.type with
              | EMPTY => exact absurd btype hbE
              | EXPLICIT => exact absurd btype hbX
              | SPARSE => exact absurd (atype.trans btype.symm) hty
              | FULL => rfl
              | UNDEFINED => exact absurd btype hIb.type_ok
            rw [promote_spec]
            refine ⟨hIa.log2m_lb, hIa.log2m_ub, hIa.regwidth_lb, hIa.regwidth_ub,
              by simp, ?_, ?_, hIa.explicit_sorted, by simp, by simp, by simp, by simp,
              by simp⟩
            · intro _
              dsimp only
              rw [foldl_set_max_len]
              show b.probabilistic_storage.length = (a.regwidth * a.m + 63) / 64
              rw [hW, hm]
              exact hIb.full_len hbF
            · dsimp only
              exact foldl_set_max_words_lt _ _ _ hIb.full_words_lt
        | FULL =>
          simp only [heterogeneous_union_for_non_empty_hll, atype]
          by_cases hbX : b.type = .EXPLICIT
          · rw [if_pos hbX]
            exact inv_foldl_add_raw _ _ hIa
          · rw [if_neg hbX]
            rw [promote_spec]
            refine ⟨hIa.log2m_lb, hIa.log2m_ub, hIa.regwidth_lb, hIa.regwidth_ub,
              by simp [atype], ?_, ?_, hIa.explicit_sorted, by simp [atype],
              hIa.sparse_nodup, hIa.sparse_keys, hIa.sparse_values, by simp [atype]⟩
            · intro _
              dsimp only
              rw [foldl_set_max_len]
              exact hIa.full_len atype
            · dsimp only
              exact foldl_set_max_words_lt _ _ _ hIa.full_words_lt

/-- Every state reachable through the public mutating interface satisfies
the structural invariant. -/
theorem reached_inv (h : HLL) (hr : Reached h) : Inv h := by
  induction hr with
  | init log2m regwidth expthresh sparseon t g hok =>
    exact inv_mkHLL log2m regwidth expthresh sparseon t g hok
  | add g v _ ih => exact inv_add_raw g v ih
  | clr g _ ih => exact inv_clear g ih
  | uni x y _ _ hsp ihx ihy => exact inv_union x y ihx ihy hsp


/-- Reached is preserved by folding add_raw over generated values. -/
theorem reached_foldl_add (l : List Nat) (g : Nat → Int) (h : HLL) (hr : Reached h) :
    Reached (l.foldl (fun h i => add_raw h (g i)) h) := by
  induction l generalizing h with
  | nil => exact hr
  | cons x xs ih =>
    rw [List.foldl_cons]
    exact ih _ (Reached.add _ _ hr)

set_option maxRecDepth 10000 in
/-- C2 counterexample: from_bytes is not covered by the claimed value
ranges.  Decoding a sparse frame with regwidth 8 reinterprets each
register byte through to_signed_byte, so the frame 13 E4 40 0F F0 decodes
to a Sparse estimator whose register 0 holds -1, below the claimed
minimum 1. -/
theorem c2_from_bytes_sparse_signed_byte_cex :
    (from_bytes [0x13, 0xE4, 0x40, 0x0F, 0xF0]).map (fun g => g.sparse_storage)
      = .ok [(0, -1)] := by decide

/-- C2: on every state reachable through the constructor, add_raw, clear
and parameter-compatible union, each Sparse register value lies in
1..value_mask and each Full register reads at most value_mask.  The
claim's fourth operation, from_bytes, violates the range for regwidth 8
(see the counterexample), so the operation list is corrected to the
mutating interface. -/
theorem c2_register_value_ranges (h : HLL) (hr : Reached h) :
    (∀ p ∈ h.sparse_storage, 1 ≤ p.2 ∧ p.2 ≤ ((2 ^ h.regwidth - 1 : Nat) : Int)) ∧
    (∀ i, BitVector.get_register h.regwidth h.probabilistic_storage i
      ≤ 2 ^ h.regwidth - 1) := by
  have hI := reached_inv h hr
  refine ⟨hI.sparse_values, ?_⟩
  intro i
  have hlt := get_register_lt h.regwidth hI.regwidth_lb hI.regwidth_ub
    h.probabilistic_storage hI.full_words_lt i
  omega

set_option maxRecDepth 10000 in
/-- C2 witness: the state reached by one add_raw on HLL(4, 5, 5, sparse). -/
theorem c2_register_value_ranges_witness :
    (∀ p ∈ (add_raw overshoot_base 16).sparse_storage,
      1 ≤ p.2 ∧ p.2 ≤ ((2 ^ (add_raw overshoot_base 16).regwidth - 1 : Nat) : Int)) ∧
    (∀ i, BitVector.get_register (add_raw overshoot_base 16).regwidth
        (add_raw overshoot_base 16).probabilistic_storage i
      ≤ 2 ^ (add_raw overshoot_base 16).regwidth - 1) :=
  c2_register_value_ranges (add_raw overshoot_base 16)
    (Reached.add overshoot_base 16
      (Reached.init 4 5 5 true .EMPTY overshoot_base (by decide)))

set_option maxRecDepth 10000 in
/-- C9 counterexample: the claimed bound |sparse| ≤ sparse_threshold fails
right after an add_raw.  With HLL(4, 5, 5, sparse), adding the seventeenth
distinct value promotes Explicit to Sparse by replaying all seventeen
values but never re-checks the sparse threshold: the result is a Sparse
state carrying 16 registers against a sparse threshold of 8. -/
theorem c9_sparse_threshold_overshoot_cex :
    (add_raw overshoot_h16 32).type = .SPARSE ∧
    (add_raw overshoot_h16 32).sparse_storage.length = 16 ∧
    (add_raw overshoot_h16 32).sparse_threshold = 8 := by decide

/-- C9: on every reachable state the Explicit set respects its threshold,
and the Sparse map respects the weakened bound
max(sparse_threshold, explicit_threshold + 1): the Explicit-to-Sparse
promotion can overshoot sparse_threshold by replaying up to
explicit_threshold + 1 values with no size re-check, so the claimed bound
|sparse| ≤ sparse_threshold is too strong (see the counterexample). -/
theorem c9_size_bounds (h : HLL) (hr : Reached h) :
    (h.type = .EXPLICIT → h.explicit_storage.length ≤ h.explicit_threshold) ∧
    (h.type = .SPARSE →
      h.sparse_storage.length ≤ max h.sparse_threshold (h.explicit_threshold + 1)) := by
  have hI := reached_inv h hr
  exact ⟨hI.explicit_size, hI.sparse_size⟩

set_option maxRecDepth 10000 in
/-- C9 witness: the overshoot state itself satisfies the corrected bound. -/
theorem c9_size_bounds_witness :
    ((add_raw overshoot_h16 32).type = .EXPLICIT →
      (add_raw overshoot_h16 32).explicit_storage.length
        ≤ (add_raw overshoot_h16 32).explicit_threshold) ∧
    ((add_raw overshoot_h16 32).type = .SPARSE →
      (add_raw overshoot_h16 32).sparse_storage.length
        ≤ max (add_raw overshoot_h16 32).sparse_threshold
            ((add_raw overshoot_h16 32).explicit_threshold + 1)) :=
  c9_size_bounds (add_raw overshoot_h16 32)
    (Reached.add overshoot_h16 32
      (reached_foldl_add (List.range 16) (fun i => 16 + (i : Int)) overshoot_base
        (Reached.init 4 5 5 true .EMPTY overshoot_base (by decide))))

/-! ### Claim C3: idempotence of add_raw -/

theorem p_w_bounds (L W : Nat) (u : Int) (hw1 : 1 ≤ W) (hw8 : W ≤ 8)
    (hne : ¬(p_w L W u = 0)) :
    1 ≤ p_w L W u ∧ p_w L W u ≤ ((2 ^ W - 1 : Nat) : Int) := by
  by_cases hsub : BitUtil.unsigned_right_shift_long u L = 0
  · exact absurd (by simp [p_w, hsub]) hne
  · have h1 : p_w L W u = BitUtil.to_signed_byte
        (1 + BitUtil.least_significant_bit (pyOr (BitUtil.unsigned_right_shift_long u L)
          (HLLUtil.pw_max_mask W))) := by
      simp [p_w, hsub]
    rw [h1]
    exact p_w_value_bound W hw1 hw8 _

/-- The sparse probabilistic update phrased through p_w. -/
theorem arsp_p_w_spec (h : HLL) (v : Int) :
    add_raw_sparse_probabilistic h v =
      (if p_w h.log2m h.regwidth v = 0 then h
       else if p_w h.log2m h.regwidth v
            > dict_get h.sparse_storage (landU v h.m_bits_mask) 0 then
         { h with sparse_storage :=
             (dict_set h.sparse_storage (landU v h.m_bits_mask)
               (p_w h.log2m h.regwidth v)) }
       else h) := rfl

/-- The full probabilistic update phrased through p_w. -/
theorem arp_p_w_spec (h : HLL) (v : Int) :
    add_raw_probabilistic h v =
      (if p_w h.log2m h.regwidth v = 0 then h
       else
         { h with probabilistic_storage :=
             (BitVector.set_max_register h.regwidth h.probabilistic_storage
               (landU v h.m_bits_mask) (p_w h.log2m h.regwidth v)) }) := rfl

/-- A sparse update whose rank does not beat the stored register is a no-op. -/
theorem arsp_noop (g : HLL) (u : Int)
    (hge : p_w g.log2m g.regwidth u ≤ dict_get g.sparse_storage (landU u g.m_bits_mask) 0) :
    add_raw_sparse_probabilistic g u = g := by
  rw [arsp_p_w_spec]
  split
  · rfl
  · rw [if_neg (by omega)]

/-- A full update whose rank does not beat the stored register is a no-op. -/
theorem arp_noop (g : HLL) (u : Int)
    (hge : p_w g.log2m g.regwidth u ≤
      (BitVector.get_register g.regwidth g.probabilistic_storage
        (landU u g.m_bits_mask) : Int)) :
    add_raw_probabilistic g u = g := by
  rw [arp_p_w_spec]
  split
  · rfl
  · have hset : BitVector.set_max_register g.regwidth g.probabilistic_storage
        (landU u g.m_bits_mask) (p_w g.log2m g.regwidth u) = g.probabilistic_storage := by
      simp only [BitVector.set_max_register]
      rw [if_neg (by omega)]
    rw [hset]

/-- A sparse update never decreases any stored register. -/
theorem arsp_dict_mono (g : HLL) (u : Int) (k : Nat) :
    dict_get g.sparse_storage k 0
      ≤ dict_get (add_raw_sparse_probabilistic g u).sparse_storage k 0 := by
  rw [arsp_p_w_spec]
  split
  · exact le_refl _
  · split
    · rename_i hne hgt
      by_cases hk : k = landU u g.m_bits_mask
      · show dict_get g.sparse_storage k 0 ≤
          dict_get (dict_set g.sparse_storage (landU u g.m_bits_mask)
            (p_w g.log2m g.regwidth u)) k 0
        rw [hk, dict_get_set_self]
        omega
      · show dict_get g.sparse_storage k 0 ≤
          dict_get (dict_set g.sparse_storage (landU u g.m_bits_mask)
            (p_w g.log2m g.regwidth u)) k 0
        rw [dict_get_set_ne _ _ _ _ _ hk]
    · exact le_refl _

/-- After a sparse update of nonzero rank, the addressed register holds at
least that rank. -/
theorem arsp_dict_self_ge (g : HLL) (u : Int) (hne : ¬(p_w g.log2m g.regwidth u = 0)) :
    p_w g.log2m g.regwidth u
      ≤ dict_get (add_raw_sparse_probabilistic g u).sparse_storage
          (landU u g.m_bits_mask) 0 := by
  rw [arsp_p_w_spec, if_neg hne]
  split
  · show p_w g.log2m g.regwidth u ≤
      dict_get (dict_set g.sparse_storage (landU u g.m_bits_mask)
        (p_w g.log2m g.regwidth u)) (landU u g.m_bits_mask) 0
    rw [dict_get_set_self]
  · omega

/-- A fixed point of the sparse update with nonzero rank already stores at
least that rank. -/
theorem arsp_fix_ge (g : HLL) (u : Int) (hfix : add_raw_sparse_probabilistic g u = g)
    (hne : ¬(p_w g.log2m g.regwidth u = 0)) :
    p_w g.log2m g.regwidth u ≤ dict_get g.sparse_storage (landU u g.m_bits_mask) 0 := by
  have h1 := arsp_dict_self_ge g u hne
  rw [hfix] at h1
  exact h1

/-- A fold of sparse updates never decreases any stored register. -/
theorem fold_arsp_dict_mono (vals : List Int) (k : Nat) :
    ∀ g : HLL, dict_get g.sparse_storage k 0
      ≤ dict_get (vals.foldl add_raw_sparse_probabilistic g).sparse_storage k 0 := by
  induction vals with
  | nil =>
    intro g
    exact le_refl _
  | cons x xs ih =>
    intro g
    rw [List.foldl_cons]
    exact le_trans (arsp_dict_mono g x k) (ih _)

/-- After folding the sparse update over a list containing u, the register
addressed by u holds at least the rank of u. -/
theorem fold_arsp_dict_ge (u : Int) (L W : Nat) (hne : ¬(p_w L W u = 0)) :
    ∀ (vals : List Int), u ∈ vals → ∀ (g : HLL), g.log2m = L → g.regwidth = W →
      p_w L W u
        ≤ dict_get (vals.foldl add_raw_sparse_probabilistic g).sparse_storage
            (landU u (2 ^ L - 1)) 0 := by
  intro vals
  induction vals with
  | nil =>
    intro hu
    cases hu
  | cons x xs ih =>
    intro hu g hL hW
    rw [List.foldl_cons]
    rcases List.mem_cons.mp hu with rfl | hu
    · refine le_trans ?_ (fold_arsp_dict_mono xs _ _)
      have hmask : g.m_bits_mask = 2 ^ L - 1 := by
        unfold HLL.m_bits_mask HLL.m
        rw [hL]
      have h1 := arsp_dict_self_ge g u (by rw [hL, hW]; exact hne)
      rw [hL, hW, hmask] at h1
      exact h1
    · exact ih hu (add_raw_sparse_probabilistic g x)
        (by rw [arsp_eq g x]; exact hL) (by rw [arsp_eq g x]; exact hW)

/-- A full update never decreases any register. -/
theorem arp_reg_mono (g : HLL) (u : Int) (k : Nat)
    (hw1 : 1 ≤ g.regwidth) (hw8 : g.regwidth ≤ 8)
    (hwords : ∀ x ∈ g.probabilistic_storage, x < 2 ^ 64)
    (hlen : g.probabilistic_storage.length = (g.regwidth * g.m + 63) / 64) :
    BitVector.get_register g.regwidth g.probabilistic_storage k
      ≤ BitVector.get_register g.regwidth
          (add_raw_probabilistic g u).probabilistic_storage k := by
  rw [arp_p_w_spec]
  split
  · exact le_refl _
  · rename_i hne
    show BitVector.get_register g.regwidth g.probabilistic_storage k
      ≤ BitVector.get_register g.regwidth
          (BitVector.set_max_register g.regwidth g.probabilistic_storage
            (landU u g.m_bits_mask) (p_w g.log2m g.regwidth u)) k
    obtain ⟨hp1, hp2⟩ := p_w_bounds g.log2m g.regwidth u hw1 hw8 hne
    have hv : p_w g.log2m g.regwidth u < ((2 ^ g.regwidth : Nat) : Int) := by
      refine lt_of_le_of_lt hp2 ?_
      exact_mod_cast Nat.sub_lt (by positivity) (by norm_num)
    exact get_set_max_mono g.regwidth hw1 hw8 _ hwords _ _ (by omega) hv
      (fit_of_lt (landU_lt_m g u) hlen) k

/-- After a full update of nonzero rank, the addressed register holds at
least that rank. -/
theorem arp_reg_self_ge (g : HLL) (u : Int)
    (hw1 : 1 ≤ g.regwidth) (hw8 : g.regwidth ≤ 8)
    (hwords : ∀ x ∈ g.probabilistic_storage, x < 2 ^ 64)
    (hlen : g.probabilistic_storage.length = (g.regwidth * g.m + 63) / 64)
    (hne : ¬(p_w g.log2m g.regwidth u = 0)) :
    p_w g.log2m g.regwidth u
      ≤ (BitVector.get_register g.regwidth
          (add_raw_probabilistic g u).probabilistic_storage
          (landU u g.m_bits_mask) : Int) := by
  rw [arp_p_w_spec, if_neg hne]
  show p_w g.log2m g.regwidth u
    ≤ (BitVector.get_register g.regwidth
        (BitVector.set_max_register g.regwidth g.probabilistic_storage
          (landU u g.m_bits_mask) (p_w g.log2m g.regwidth u))
        (landU u g.m_bits_mask) : Int)
  obtain ⟨hp1, hp2⟩ := p_w_bounds g.log2m g.regwidth u hw1 hw8 hne
  have hv : p_w g.log2m g.regwidth u < ((2 ^ g.regwidth : Nat) : Int) := by
    refine lt_of_le_of_lt hp2 ?_
    exact_mod_cast Nat.sub_lt (by positivity) (by norm_num)
  exact get_set_max_ge g.regwidth hw1 hw8 _ hwords _ _ (by omega) hv
    (fit_of_lt (landU_lt_m g u) hlen)

/-- A full update keeps the backing-word count. -/
theorem arp_len (g : HLL) (u : Int) :
    (add_raw_probabilistic g u).probabilistic_storage.length
      = g.probabilistic_storage.length := by
  rw [arp_p_w_spec]
  split
  · rfl
  · show (BitVector.set_max_register g.regwidth g.probabilistic_storage
        (landU u g.m_bits_mask) (p_w g.log2m g.regwidth u)).length = _
    rw [length_set_max]

/-- A full update keeps every backing word below 2^64. -/
theorem arp_words (g : HLL) (u : Int) (hw : ∀ x ∈ g.probabilistic_storage, x < 2 ^ 64) :
    ∀ x ∈ (add_raw_probabilistic g u).probabilistic_storage, x < 2 ^ 64 := by
  rw [arp_p_w_spec]
  split
  · exact hw
  · exact set_max_words_lt _ _ hw _ _

/-- A fold of full updates never decreases any register. -/
theorem fold_arp_reg_mono (L W : Nat) (hw1 : 1 ≤ W) (hw8 : W ≤ 8) (k : Nat) :
    ∀ (vals : List Int) (g : HLL), g.log2m = L → g.regwidth = W →
      (∀ x ∈ g.probabilistic_storage, x < 2 ^ 64) →
      g.probabilistic_storage.length = (W * 2 ^ L + 63) / 64 →
      BitVector.get_register W g.probabilistic_storage k
        ≤ BitVector.get_register W
            ((vals.foldl add_raw_probabilistic g).probabilistic_storage) k := by
  intro vals
  induction vals with
  | nil =>
    intro g _ _ _ _
    exact le_refl _
  | cons x xs ih =>
    intro g hL hW hwords hlen
    rw [List.foldl_cons]
    have hm : g.m = 2 ^ L := by
      unfold HLL.m
      rw [hL]
    have hstep := arp_reg_mono g x k (by omega) (by omega) hwords (by rw [hW, hm]; exact hlen)
    rw [hW] at hstep
    refine le_trans hstep ?_
    exact ih (add_raw_probabilistic g x)
      (by rw [arp_eq g x]; exact hL) (by rw [arp_eq g x]; exact hW)
      (by rw [arp_eq g x]; exact arp_words g x hwords)
      (by rw [arp_eq g x]; show (add_raw_probabilistic g x).probabilistic_storage.length = _;
          rw [arp_len]; exact hlen)

/-- After folding the full update over a list containing u, the register
addressed by u holds at least the rank of u. -/
theorem fold_arp_reg_ge (u : Int) (L W : Nat) (hw1 : 1 ≤ W) (hw8 : W ≤ 8)
    (hne : ¬(p_w L W u = 0)) :
    ∀ (vals : List Int), u ∈ vals → ∀ (g : HLL), g.log2m = L → g.regwidth = W →
      (∀ x ∈ g.probabilistic_storage, x < 2 ^ 64) →
      g.probabilistic_storage.length = (W * 2 ^ L + 63) / 64 →
      p_w L W u ≤ (BitVector.get_register W
          ((vals.foldl add_raw_probabilistic g).probabilistic_storage)
          (landU u (2 ^ L - 1)) : Int) := by
  intro vals
  induction vals with
  | nil =>
    intro hu
    cases hu
  | cons x xs ih =>
    intro hu g hL hW hwords hlen
    rw [List.foldl_cons]
    have hm : g.m = 2 ^ L := by
      unfold HLL.m
      rw [hL]
    rcases List.mem_cons.mp hu with rfl | hu
    · have hmask : g.m_bits_mask = 2 ^ L - 1 := by
        unfold HLL.m_bits_mask HLL.m
        rw [hL]
      have h1 := arp_reg_self_ge g u (by omega) (by omega) hwords
        (by rw [hW, hm]; exact hlen) (by rw [hL, hW]; exact hne)
      rw [hL, hW, hmask] at h1
      have h2 := fold_arp_reg_mono L W hw1 hw8 (landU u (2 ^ L - 1)) xs
        (add_raw_probabilistic g u)
        (by rw [arp_eq g u]; exact hL) (by rw [arp_eq g u]; exact hW)
        (by rw [arp_eq g u]; exact arp_words g u hwords)
        (by rw [arp_eq g u]; show (add_raw_probabilistic g u).probabilistic_storage.length = _;
            rw [arp_len]; exact hlen)
      refine le_trans h1 ?_
      have h3 : (BitVector.get_register W (add_raw_probabilistic g u).probabilistic_storage
          (landU u (2 ^ L - 1)) : Int)
          ≤ (BitVector.get_register W
              ((xs.foldl add_raw_probabilistic (add_raw_probabilistic g u)).probabilistic_storage)
              (landU u (2 ^ L - 1)) : Int) := by
        exact_mod_cast h2
      exact h3
    · exact ih hu (add_raw_probabilistic g x)
        (by rw [arp_eq g x]; exact hL) (by rw [arp_eq g x]; exact hW)
        (by rw [arp_eq g x]; exact arp_words g x hwords)
        (by rw [arp_eq g x]; show (add_raw_probabilistic g x).probabilistic_storage.length = _;
            rw [arp_len]; exact hlen)

/-- The inserted value is a member of the set after set_add. -/
theorem set_add_self_mem (l : List Int) (v : Int) : v ∈ set_add l v := by
  induction l with
  | nil => exact List.mem_singleton.mpr rfl
  | cons x xs ih =>
    rw [set_add_cons]
    by_cases h1 : v < x
    · rw [if_pos h1]
      exact List.mem_cons_self _ _
    · rw [if_neg h1]
      by_cases h2 : v = x
      · rw [if_pos h2]
        exact List.mem_cons.mpr (Or.inl h2)
      · rw [if_neg h2]
        exact List.mem_cons_of_mem _ ih

/-- The sparse probabilistic update is idempotent. -/
theorem arsp_idem (g : HLL) (u : Int) :
    add_raw_sparse_probabilistic (add_raw_sparse_probabilistic g u) u
      = add_raw_sparse_probabilistic g u := by
  by_cases hP0 : p_w g.log2m g.regwidth u = 0
  · have h1 : add_raw_sparse_probabilistic g u = g := by
      rw [arsp_p_w_spec, if_pos hP0]
    rw [h1]
    exact h1
  · apply arsp_noop
    rw [arsp_eq g u]
    exact arsp_dict_self_ge g u hP0

/-- The full probabilistic update is idempotent on well-sized storage. -/
theorem arp_idem (g : HLL) (u : Int) (hw1 : 1 ≤ g.regwidth) (hw8 : g.regwidth ≤ 8)
    (hwords : ∀ x ∈ g.probabilistic_storage, x < 2 ^ 64)
    (hlen : g.probabilistic_storage.length = (g.regwidth * g.m + 63) / 64) :
    add_raw_probabilistic (add_raw_probabilistic g u) u = add_raw_probabilistic g u := by
  by_cases hP0 : p_w g.log2m g.regwidth u = 0
  · have h1 : add_raw_probabilistic g u = g := by
      rw [arp_p_w_spec, if_pos hP0]
    rw [h1]
    exact h1
  · apply arp_noop
    rw [arp_eq g u]
    exact arp_reg_self_ge g u hw1 hw8 hwords hlen hP0

/-- add_raw unfolded on an EMPTY state. -/
theorem add_raw_empty_eq (g : HLL) (u : Int) (ht : g.type = .EMPTY) :
    add_raw g u =
      (if g.explicit_threshold > 0 then
        { g with type := .EXPLICIT, explicit_storage := [u] }
      else if ¬g.sparse_off then
        add_raw_sparse_probabilistic
          { g with type := .SPARSE, sparse_storage := ([] : List (Nat × Int)) } u
      else
        add_raw_probabilistic
          { g with type := .FULL,
                   probabilistic_storage := (BitVector.mk_words g.regwidth g.m) } u) := by
  simp only [add_raw, ht]
  rfl

/-- add_raw unfolded on an EXPLICIT state. -/
theorem add_raw_explicit_eq (g : HLL) (u : Int) (ht : g.type = .EXPLICIT) :
    add_raw g u =
      (if (set_add g.explicit_storage u).length > g.explicit_threshold then
        (if ¬g.sparse_off then
          { (set_add g.explicit_storage u).foldl add_raw_sparse_probabilistic
              { g with type := .SPARSE, explicit_storage := (set_add g.explicit_storage u),
                       sparse_storage := ([] : List (Nat × Int)) } with
            explicit_storage := ([] : List Int) }
        else
          { (set_add g.explicit_storage u).foldl add_raw_probabilistic
              { g with type := .FULL, explicit_storage := (set_add g.explicit_storage u),
                       probabilistic_storage := (BitVector.mk_words g.regwidth g.m) } with
            explicit_storage := ([] : List Int) })
      else { g with type := .EXPLICIT, explicit_storage := (set_add g.explicit_storage u) }) := by
  simp only [add_raw, ht]
  rfl

/-- add_raw unfolded on a SPARSE state. -/
theorem add_raw_sparse_eq (g : HLL) (u : Int) (ht : g.type = .SPARSE) :
    add_raw g u =
      (if (add_raw_sparse_probabilistic g u).sparse_storage.length
          > (add_raw_sparse_probabilistic g u).sparse_threshold then
        { promote_sparse_entries (init_storage (add_raw_sparse_probabilistic g u) .FULL)
            (add_raw_sparse_probabilistic g u).sparse_storage with
          sparse_storage := ([] : List (Nat × Int)) }
      else add_raw_sparse_probabilistic g u) := by
  simp only [add_raw, ht]

/-- add_raw unfolded on a FULL state. -/
theorem add_raw_full_eq (g : HLL) (u : Int) (ht : g.type = .FULL) :
    add_raw g u = add_raw_probabilistic g u := by
  simp only [add_raw, ht]

/-- add_raw unfolded on the inert UNDEFINED state. -/
theorem add_raw_undef_eq (g : HLL) (u : Int) (ht : g.type = .UNDEFINED) :
    add_raw g u = g := by
  simp only [add_raw, ht]

/-- Claim C3 (amended): add_raw is idempotent on every reachable state
except when the single add lands a SPARSE result that overshoots the
sparse threshold; in that case the second add promotes to FULL while the
first did not, so the original unconditional claim fails.  Under the
no-overshoot side condition, h.add_raw(v); h.add_raw(v) leaves exactly
the state of a single h.add_raw(v). -/
theorem c3_add_raw_idempotent_amended (h : HLL) (v : Int) (hr : Reached h)
    (hns : ¬((add_raw h v).type = .SPARSE ∧
      (add_raw h v).sparse_storage.length > (add_raw h v).sparse_threshold)) :
    add_raw (add_raw h v) v = add_raw h v := by
  obtain ⟨h4, h30, hw1, hw8, htok, hflen, hfwlt, hesort, hesize, hnodup, hkeys, hvals,
    hssize⟩ := reached_inv h hr
  cases htype : h.type
  case UNDEFINED => exact absurd htype htok
  case FULL =>
    rw [add_raw_full_eq h v htype]
    rw [add_raw_full_eq _ v (by rw [arp_eq h v]; exact htype)]
    exact arp_idem h v hw1 hw8 hfwlt (hflen htype)
  case EMPTY =>
    rw [add_raw_empty_eq h v htype] at hns ⊢
    by_cases hthr : h.explicit_threshold > 0
    · rw [if_pos hthr]
      rw [add_raw_explicit_eq _ v rfl]
      dsimp only
      rw [set_add_cons, if_neg (lt_irrefl v), if_pos rfl]
      rw [if_neg (by simp only [List.length_singleton]; omega)]
    · rw [if_neg hthr] at hns ⊢
      by_cases hso : h.sparse_off
      · rw [if_neg (by simp [hso])] at hns ⊢
        rw [add_raw_full_eq _ v (by rw [arp_eq])]
        exact arp_idem _ v hw1 hw8 (mk_words_lt _ _)
          (by
            show (BitVector.mk_words h.regwidth h.m).length = _
            rw [mk_words_length]
            rfl)
      · rw [if_pos hso] at hns ⊢
        have hlen2 : ¬((add_raw_sparse_probabilistic
            { h with
              type := .SPARSE,
              sparse_storage := ([] : List (Nat × Int)) } v).sparse_storage.length
            > (add_raw_sparse_probabilistic
              { h with
                type := .SPARSE,
                sparse_storage := ([] : List (Nat × Int)) } v).sparse_threshold) :=
          fun hc => hns ⟨by rw [arsp_eq], hc⟩
        rw [add_raw_sparse_eq _ v (by rw [arsp_eq]), arsp_idem, if_neg hlen2]
  case EXPLICIT =>
    rw [add_raw_explicit_eq h v htype] at hns ⊢
    by_cases hover : (set_add h.explicit_storage v).length > h.explicit_threshold
    · rw [if_pos hover] at hns ⊢
      by_cases hso : h.sparse_off
      · rw [if_neg (by simp [hso])] at hns ⊢
        obtain ⟨d, hd⟩ := foldl_arp_proj (set_add h.explicit_storage v)
          { h with type := .FULL, explicit_storage := (set_add h.explicit_storage v),
                   probabilistic_storage := (BitVector.mk_words h.regwidth h.m) }
        rw [hd] at hns ⊢
        rw [add_raw_full_eq _ v rfl]
        apply arp_noop
        by_cases hP0 : p_w h.log2m h.regwidth v = 0
        · show p_w h.log2m h.regwidth v ≤
            (BitVector.get_register h.regwidth d (landU v h.m_bits_mask) : Int)
          rw [hP0]
          positivity
        · show p_w h.log2m h.regwidth v ≤
            (BitVector.get_register h.regwidth d (landU v h.m_bits_mask) : Int)
          have hfold := fold_arp_reg_ge v h.log2m h.regwidth hw1 hw8 hP0
            (set_add h.explicit_storage v) (set_add_self_mem _ _)
            { h with type := .FULL, explicit_storage := (set_add h.explicit_storage v),
                     probabilistic_storage := (BitVector.mk_words h.regwidth h.m) }
            rfl rfl (mk_words_lt _ _)
            (by
              show (BitVector.mk_words h.regwidth h.m).length
                = (h.regwidth * 2 ^ h.log2m + 63) / 64
              rw [mk_words_length]
              rfl)
          rw [hd] at hfold
          exact hfold
      · rw [if_pos hso] at hns ⊢
        obtain ⟨d, hd⟩ := foldl_arsp_proj (set_add h.explicit_storage v)
          { h with type := .SPARSE, explicit_storage := (set_add h.explicit_storage v),
                   sparse_storage := ([] : List (Nat × Int)) }
        rw [hd] at hns ⊢
        have hns2 : ¬(({ h with
            type := .SPARSE, explicit_storage := ([] : List Int),
            sparse_storage := d } : HLL).type = .SPARSE ∧
            ({ h with
              type := .SPARSE, explicit_storage := ([] : List Int),
              sparse_storage := d } : HLL).sparse_storage.length >
            ({ h with
              type := .SPARSE, explicit_storage := ([] : List Int),
              sparse_storage := d } : HLL).sparse_threshold) := hns
        show add_raw { h with
            type := .SPARSE, explicit_storage := ([] : List Int),
            sparse_storage := d } v
          = { h with
              type := .SPARSE, explicit_storage := ([] : List Int),
              sparse_storage := d }
        rw [add_raw_sparse_eq _ v rfl]
        have hstep : add_raw_sparse_probabilistic
            { h with
              type := .SPARSE, explicit_storage := ([] : List Int),
              sparse_storage := d } v
            = { h with
                type := .SPARSE, explicit_storage := ([] : List Int),
                sparse_storage := d } := by
          by_cases hP0 : p_w h.log2m h.regwidth v = 0
          · rw [arsp_p_w_spec]
            dsimp only
            rw [if_pos hP0]
          · apply arsp_noop
            show p_w h.log2m h.regwidth v ≤ dict_get d (landU v h.m_bits_mask) 0
            have hfold := fold_arsp_dict_ge v h.log2m h.regwidth hP0
              (set_add h.explicit_storage v) (set_add_self_mem _ _)
              { h with type := .SPARSE, explicit_storage := (set_add h.explicit_storage v),
                       sparse_storage := ([] : List (Nat × Int)) } rfl rfl
            rw [hd] at hfold
            exact hfold
        have hsz : ¬(({ h with
            type := .SPARSE, explicit_storage := ([] : List Int),
            sparse_storage := d } : HLL).sparse_storage.length >
            ({ h with
              type := .SPARSE, explicit_storage := ([] : List Int),
              sparse_storage := d } : HLL).sparse_threshold) := fun hc => hns2 ⟨rfl, hc⟩
        rw [hstep, if_neg hsz]
    · rw [if_neg hover] at hns ⊢
      rw [add_raw_explicit_eq _ v rfl]
      dsimp only
      rw [set_add_idem]
      rw [if_neg hover]
  case SPARSE =>
    rw [add_raw_sparse_eq h v htype] at hns ⊢
    by_cases hov : (add_raw_sparse_probabilistic h v).sparse_storage.length
        > (add_raw_sparse_probabilistic h v).sparse_threshold
    · rw [if_pos hov] at hns ⊢
      rcases arsp_cases h v hw1 hw8 with heq | ⟨j, p, hj, hp1, hp2, hlt, heq⟩
      · rw [heq] at hov ⊢
        rw [promote_spec]
        show add_raw { h with
            type := .FULL, sparse_storage := ([] : List (Nat × Int)),
            probabilistic_storage :=
              (h.sparse_storage.foldl
                (fun a q => BitVector.set_max_register h.regwidth a q.1 q.2)
                (BitVector.mk_words h.regwidth h.m)) } v
          = { h with
              type := .FULL, sparse_storage := ([] : List (Nat × Int)),
              probabilistic_storage :=
                (h.sparse_storage.foldl
                  (fun a q => BitVector.set_max_register h.regwidth a q.1 q.2)
                  (BitVector.mk_words h.regwidth h.m)) }
        rw [add_raw_full_eq _ v rfl]
        apply arp_noop
        by_cases hP0 : p_w h.log2m h.regwidth v = 0
        · show p_w h.log2m h.regwidth v ≤
            (BitVector.get_register h.regwidth
              (h.sparse_storage.foldl
                (fun a q => BitVector.set_max_register h.regwidth a q.1 q.2)
                (BitVector.mk_words h.regwidth h.m)) (landU v h.m_bits_mask) : Int)
          rw [hP0]
          positivity
        · show p_w h.log2m h.regwidth v ≤
            (BitVector.get_register h.regwidth
              (h.sparse_storage.foldl
                (fun a q => BitVector.set_max_register h.regwidth a q.1 q.2)
                (BitVector.mk_words h.regwidth h.m)) (landU v h.m_bits_mask) : Int)
          have hval := arsp_fix_ge h v heq hP0
          obtain ⟨hpw1, hpw2⟩ := p_w_bounds h.log2m h.regwidth v hw1 hw8 hP0
          have hmem := dict_get_mem h.sparse_storage (landU v h.m_bits_mask) (by omega)
          have hvals2 : ∀ q ∈ h.sparse_storage,
              0 ≤ q.2 ∧ q.2 < ((2 ^ h.regwidth : Nat) : Int) := by
            intro q hq
            obtain ⟨hq1, hq2⟩ := hvals q hq
            have h2 : ((2 ^ h.regwidth - 1 : Nat) : Int) < ((2 ^ h.regwidth : Nat) : Int) := by
              exact_mod_cast Nat.sub_lt (by positivity) (by norm_num)
            exact ⟨by omega, by omega⟩
          have hgoal := foldl_set_max_ge h.regwidth hw1 hw8 h.m h.sparse_storage
            (BitVector.mk_words h.regwidth h.m) hkeys hvals2 (mk_words_lt _ _)
            (by rw [mk_words_length]) _ hmem
          exact le_trans hval hgoal
      · rw [heq] at hov ⊢
        rw [promote_spec]
        show add_raw { h with
            type := .FULL, sparse_storage := ([] : List (Nat × Int)),
            probabilistic_storage :=
              ((dict_set h.sparse_storage j p).foldl
                (fun a q => BitVector.set_max_register h.regwidth a q.1 q.2)
                (BitVector.mk_words h.regwidth h.m)) } v
          = { h with
              type := .FULL, sparse_storage := ([] : List (Nat × Int)),
              probabilistic_storage :=
                ((dict_set h.sparse_storage j p).foldl
                  (fun a q => BitVector.set_max_register h.regwidth a q.1 q.2)
                  (BitVector.mk_words h.regwidth h.m)) }
        rw [add_raw_full_eq _ v rfl]
        apply arp_noop
        by_cases hP0 : p_w h.log2m h.regwidth v = 0
        · show p_w h.log2m h.regwidth v ≤
            (BitVector.get_register h.regwidth
              ((dict_set h.sparse_storage j p).foldl
                (fun a q => BitVector.set_max_register h.regwidth a q.1 q.2)
                (BitVector.mk_words h.regwidth h.m)) (landU v h.m_bits_mask) : Int)
          rw [hP0]
          positivity
        · show p_w h.log2m h.regwidth v ≤
            (BitVector.get_register h.regwidth
              ((dict_set h.sparse_storage j p).foldl
                (fun a q => BitVector.set_max_register h.regwidth a q.1 q.2)
                (BitVector.mk_words h.regwidth h.m)) (landU v h.m_bits_mask) : Int)
          have hval0 := arsp_dict_self_ge h v hP0
          rw [heq] at hval0
          have hval : p_w h.log2m h.regwidth v
              ≤ dict_get (dict_set h.sparse_storage j p) (landU v h.m_bits_mask) 0 := hval0
          obtain ⟨hpw1, hpw2⟩ := p_w_bounds h.log2m h.regwidth v hw1 hw8 hP0
          have hmem := dict_get_mem (dict_set h.sparse_storage j p)
            (landU v h.m_bits_mask) (by omega)
          have hk1 : ∀ q ∈ dict_set h.sparse_storage j p, q.1 < h.m := by
            intro q hq
            rcases dict_set_mem _ _ _ q hq with rfl | hq
            · exact hj
            · exact hkeys q hq
          have hv1 : ∀ q ∈ dict_set h.sparse_storage j p,
              0 ≤ q.2 ∧ q.2 < ((2 ^ h.regwidth : Nat) : Int) := by
            intro q hq
            have h2 : ((2 ^ h.regwidth - 1 : Nat) : Int) < ((2 ^ h.regwidth : Nat) : Int) := by
              exact_mod_cast Nat.sub_lt (by positivity) (by norm_num)
            rcases dict_set_mem _ _ _ q hq with rfl | hq
            · exact ⟨by omega, by omega⟩
            · obtain ⟨hq1, hq2⟩ := hvals q hq
              exact ⟨by omega, by omega⟩
          have hgoal := foldl_set_max_ge h.regwidth hw1 hw8 h.m
            (dict_set h.sparse_storage j p)
            (BitVector.mk_words h.regwidth h.m) hk1 hv1 (mk_words_lt _ _)
            (by rw [mk_words_length]) _ hmem
          exact le_trans hval hgoal
    · rw [if_neg hov] at hns ⊢
      rw [add_raw_sparse_eq _ v (by rw [arsp_eq h v]; exact htype)]
      rw [arsp_idem]
      rw [if_neg hov]

set_option maxRecDepth 10000 in
/-- Claim C3, witness: the amended theorem applied to the concrete
reachable EMPTY state of HLL(log2m=4, regwidth=5, expthresh=5,
sparseon) and the raw value 5, whose single add lands in EXPLICIT, so
the side condition holds by evaluation. -/
theorem c3_add_raw_idempotent_amended_witness :
    add_raw (add_raw overshoot_base 5) 5 = add_raw overshoot_base 5 :=
  c3_add_raw_idempotent_amended overshoot_base 5
    (Reached.init 4 5 5 true .EMPTY overshoot_base (by decide)) (by decide)

set_option maxRecDepth 10000 in
/-- Claim C3, counterexample to the unconditional statement: on the
reachable SPARSE state holding registers for the 16 values 16..31
against a sparse threshold of 8, one add_raw(32) stays SPARSE (the
promotion check runs before the insert count crosses), but a second
add_raw(32) finds the map over threshold and promotes to FULL, so the
state after two identical adds differs from the state after one. -/
theorem c3_add_raw_not_idempotent_cex :
    (add_raw overshoot_h16 32).type = .SPARSE ∧
    (add_raw (add_raw overshoot_h16 32) 32).type = .FULL ∧
    add_raw (add_raw overshoot_h16 32) 32 ≠ add_raw overshoot_h16 32 := by decide

/-! ### Claim C7: the big-endian ascending word codec -/

theorem testBit_ge_false {a n i : Nat} (h : a < 2 ^ n) (hi : n ≤ i) : a.testBit i = false :=
  Nat.testBit_lt_two_pow (lt_of_lt_of_le h (Nat.pow_le_pow_right (by norm_num) hi))

theorem eq_of_testBit_below {a b n : Nat} (ha : a < 2 ^ n) (hb : b < 2 ^ n)
    (h : ∀ i, i < n → a.testBit i = b.testBit i) : a = b := by
  refine Nat.eq_of_testBit_eq (fun i => ?_)
  by_cases hi : i < n
  · exact h i hi
  · rw [testBit_ge_false ha (by omega), testBit_ge_false hb (by omega)]

theorem toU64_wrap64 (v : Int) : toU64 (wrap64 v) = toU64 v := by
  unfold wrap64
  exact toU64_ofU64 _ (toU64_lt v)

theorem toU64_mul_pow (v : Int) (c : Nat) (hc : c ≤ 8) :
    toU64 (v * 2 ^ c) = (toU64 v * 2 ^ c) % 2 ^ 64 := by
  unfold toU64
  obtain ⟨k, hk, hv⟩ : ∃ k : Nat, k < 2 ^ 64 ∧ v % 2 ^ 64 = (k : Int) :=
    ⟨(v % 2 ^ 64).toNat, by omega, by omega⟩
  have hcl : ((2 : Int) ^ c) % 2 ^ 64 = 2 ^ c := by
    apply Int.emod_eq_of_lt (by positivity)
    calc ((2 : Int) ^ c) ≤ 2 ^ 8 := pow_le_pow_right₀ (by norm_num) hc
      _ < 2 ^ 64 := by norm_num
  have h1 : (v * 2 ^ c) % 2 ^ 64 = ((k : Int) * 2 ^ c) % 2 ^ 64 := by
    rw [Int.mul_emod, hv, hcl]
  rw [h1, hv, Int.toNat_natCast]
  rw [show ((k : Int) * 2 ^ c) = ((k * 2 ^ c : Nat) : Int) from by push_cast; ring]
  rw [show ((2 : Int) ^ 64) = ((2 ^ 64 : Nat) : Int) from by norm_num]
  rw [← Int.natCast_mod, Int.toNat_natCast]

theorem toU64_lsl (v : Int) (c : Nat) (hc : c ≤ 8) :
    toU64 (BitUtil.left_shift_long v c) = (toU64 v <<< c) % 2 ^ 64 := by
  unfold BitUtil.left_shift_long
  rw [toU64_wrap64, toU64_mul_pow v c hc, Nat.shiftLeft_eq]

theorem toU64_pyOr (a b : Int) : toU64 (pyOr a b) = toU64 a ||| toU64 b := by
  unfold pyOr
  split
  · rename_i h
    have h1 : toU64 ((a.toNat ||| b.toNat : Nat) : Int) = (a.toNat ||| b.toNat) % 2 ^ 64 := by
      unfold toU64
      omega
    have h2 : toU64 a = a.toNat % 2 ^ 64 := by
      unfold toU64
      omega
    have h3 : toU64 b = b.toNat % 2 ^ 64 := by
      unfold toU64
      omega
    rw [h1, h2, h3, ← land_mask_eq_mod, ← land_mask_eq_mod, ← land_mask_eq_mod]
    apply Nat.eq_of_testBit_eq
    intro i
    simp only [Nat.testBit_and, Nat.testBit_or]
    cases a.toNat.testBit i <;> cases b.toNat.testBit i <;> simp
  · exact toU64_ofU64 _ (Nat.or_lt_two_pow (toU64_lt a) (toU64_lt b))

theorem wrap64_range (v : Int) : wrap64 v < 2 ^ 63 ∧ -(2 ^ 63) ≤ wrap64 v := by
  unfold wrap64 ofU64
  have := toU64_lt v
  split <;> omega

theorem pyOr_eq_ofU64 (a b : Int) (ha : a < 2 ^ 63) (hb : b < 2 ^ 63) :
    pyOr a b = ofU64 (toU64 (pyOr a b)) := by
  unfold pyOr
  split
  · rename_i h
    have hx : a.toNat ||| b.toNat < 2 ^ 63 := Nat.or_lt_two_pow (by omega) (by omega)
    rw [toU64_natCast _ (by omega)]
    unfold ofU64
    rw [if_pos hx]
  · rw [toU64_ofU64 _ (Nat.or_lt_two_pow (toU64_lt a) (toU64_lt b))]

theorem pyOr_range (a b : Int) (ha : a < 2 ^ 63) (hb : b < 2 ^ 63) :
    -(2 ^ 63) ≤ pyOr a b ∧ pyOr a b < 2 ^ 63 := by
  unfold pyOr
  split
  · rename_i h
    have hx : a.toNat ||| b.toNat < 2 ^ 63 := Nat.or_lt_two_pow (by omega) (by omega)
    omega
  · have hor := Nat.or_lt_two_pow (toU64_lt a) (toU64_lt b)
    unfold ofU64
    split <;> omega

/-- The middle-byte loop of the deserializer accumulates exactly the top
R + 8*mc bits of the word being read. -/
theorem read_middle_fold (N W R fbi : Nat) (bytes : List Nat) (hN : N < 2 ^ W)
    (hw64 : W ≤ 64) :
    ∀ (mc : Nat), R + 8 * mc < W →
      (∀ j, j < mc → ∀ i, i ≤ 7 →
        (bytes.getD (fbi + j + 1) 0).testBit i = N.testBit (W - (R + 8 * (j + 1)) + i)) →
      ∀ (v0 : Int), -(2 ^ 63) ≤ v0 → v0 < 2 ^ 63 →
      (∀ i, (toU64 v0).testBit i = (decide (i < R) && N.testBit (W - R + i))) →
      (-(2 ^ 63) ≤ (List.range mc).foldl
          (fun v i => pyOr (BitUtil.left_shift_long v 8)
            ((bytes.getD (fbi + i + 1) 0 &&& 255 : Nat) : Int)) v0 ∧
        (List.range mc).foldl
          (fun v i => pyOr (BitUtil.left_shift_long v 8)
            ((bytes.getD (fbi + i + 1) 0 &&& 255 : Nat) : Int)) v0 < 2 ^ 63) ∧
      (∀ i, (toU64 ((List.range mc).foldl
          (fun v i => pyOr (BitUtil.left_shift_long v 8)
            ((bytes.getD (fbi + i + 1) 0 &&& 255 : Nat) : Int)) v0)).testBit i
        = (decide (i < R + 8 * mc) && N.testBit (W - (R + 8 * mc) + i))) := by
  intro mc
  induction mc with
  | zero =>
    intro hcnt hmid v0 hlo hhi hbits
    simp only [List.range_zero, List.foldl_nil, Nat.mul_zero, Nat.add_zero]
    exact ⟨⟨hlo, hhi⟩, hbits⟩
  | succ mc ih =>
    intro hcnt hmid v0 hlo hhi hbits
    simp only [List.range_succ, List.foldl_append, List.foldl_cons, List.foldl_nil]
    obtain ⟨⟨hrlo, hrhi⟩, hrbits⟩ := ih (by omega) (fun j hj => hmid j (by omega)) v0 hlo hhi hbits
    have hmb : bytes.getD (fbi + mc + 1) 0 &&& 255 < 2 ^ 8 := by
      rw [show (255 : Nat) = 2 ^ 8 - 1 from rfl, land_mask_eq_mod]
      exact Nat.mod_lt _ (by norm_num)
    constructor
    · exact pyOr_range _ _ (wrap64_range _).1 (by omega)
    · intro i
      rw [toU64_pyOr, toU64_lsl _ _ (by norm_num), toU64_natCast _ (by omega)]
      rw [Nat.testBit_or, testBit_mod64, Nat.testBit_shiftLeft]
      rw [hrbits (i - 8)]
      by_cases h8 : i < 8
      · have hmbbit : (bytes.getD (fbi + mc + 1) 0 &&& 255).testBit i
            = N.testBit (W - (R + 8 * (mc + 1)) + i) := by
          rw [Nat.testBit_and]
          rw [show ((255 : Nat)).testBit i = true from by
            rw [show (255 : Nat) = 2 ^ 8 - 1 from rfl, Nat.testBit_two_pow_sub_one]
            simp
            omega]
          rw [Bool.and_true]
          exact hmid mc (by omega) i (by omega)
        rw [hmbbit]
        rw [show decide (i ≥ 8) = false from by simp; omega]
        rw [show decide (i < R + 8 * (mc + 1)) = true from by simp; omega]
        simp
      · by_cases h64 : i < 64
        · rw [testBit_ge_false hmb (show 8 ≤ i from by omega), Bool.or_false]
          rw [show decide (i < 64) = true from by simp [h64], Bool.true_and]
          rw [show decide (i ≥ 8) = true from by simp; omega, Bool.true_and]
          rw [show W - (R + 8 * mc) + (i - 8) = W - (R + 8 * (mc + 1)) + i from by omega]
          rw [show decide (i - 8 < R + 8 * mc) = decide (i < R + 8 * (mc + 1)) from by
            simp only [decide_eq_decide]
            omega]
        · rw [show decide (i < 64) = false from by simp; omega, Bool.false_and, Bool.false_or]
          rw [testBit_ge_false hmb (show 8 ≤ i from by omega)]
          rw [show decide (i < R + 8 * (mc + 1)) = false from by simp; omega, Bool.false_and]

/-- The deserializer returns the signed-64 view of the W bits stored at
word position k, whatever the surrounding bytes hold. -/
theorem read_word_of_bits (W P k : Nat) (hw1 : 1 ≤ W) (hw64 : W ≤ 64)
    (bytes : List Nat) (N : Nat) (hN : N < 2 ^ W)
    (hbits : ∀ i, i < W → byte_bit bytes (8 * P + k * W + i) = N.testBit (W - 1 - i)) :
    Deser.read_word W P bytes k = ofU64 N := by
  have hbyte : ∀ b j u, j ≤ 7 → u < W → 8 * b + (7 - j) = 8 * P + k * W + u →
      (bytes.getD b 0).testBit j = N.testBit (W - 1 - u) := by
    intro b j u hj hu hx
    have hb := hbits u hu
    unfold byte_bit at hb
    rw [show (8 * P + k * W + u) / 8 = b from by omega,
        show 7 - (8 * P + k * W + u) % 8 = j from by omega] at hb
    exact hb
  have hskip : k * W % 8 < 8 := Nat.mod_lt _ (by norm_num)
  by_cases hone : P + k * W / 8 = P + (k * W + W - 1) / 8
  · -- the whole word lives in one byte
    have h8 : k * W % 8 + W ≤ 8 := by omega
    simp only [Deser.read_word]
    rw [if_pos hone]
    rw [show min (8 - k * W % 8) W = W from by omega]
    have hfb2 : (bytes.getD (P + k * W / 8) 0 &&& (2 ^ (8 - k * W % 8) - 1))
        >>> (8 - k * W % 8 - W) = N := by
      refine eq_of_testBit_below (n := W) ?_ hN ?_
      · rw [land_mask_eq_mod, Nat.shiftRight_eq_div_pow]
        rw [Nat.div_lt_iff_lt_mul (by positivity)]
        calc bytes.getD (P + k * W / 8) 0 % 2 ^ (8 - k * W % 8)
            < 2 ^ (8 - k * W % 8) := Nat.mod_lt _ (by positivity)
          _ = 2 ^ W * 2 ^ (8 - k * W % 8 - W) := by
              rw [← pow_add]
              congr 1
              omega
      · intro i hi
        rw [Nat.testBit_shiftRight, land_mask_eq_mod, Nat.testBit_mod_two_pow]
        rw [show decide (8 - k * W % 8 - W + i < 8 - k * W % 8) = true from by simp; omega]
        rw [Bool.true_and]
        have hb := hbyte (P + k * W / 8) (8 - k * W % 8 - W + i) (W - 1 - i)
          (by omega) (by omega) (by omega)
        rw [show W - 1 - (W - 1 - i) = i from by omega] at hb
        exact hb
    rw [hfb2]
    have hpow : (2 : Nat) ^ W ≤ 2 ^ 8 := Nat.pow_le_pow_right (by norm_num) (by omega)
    unfold ofU64
    rw [if_pos (by omega)]
  · -- the word spans several bytes
    have hW8 : 8 < k * W % 8 + W := by omega
    simp only [Deser.read_word]
    rw [if_neg hone]
    rw [show min (8 - k * W % 8) W = 8 - k * W % 8 from by omega]
    rw [show 8 - k * W % 8 - (8 - k * W % 8) = 0 from by omega, Nat.shiftRight_zero]
    obtain ⟨c2, hc2eq, hc2_1, hc2_8, hc2id⟩ :
        ∃ c2, (if (k * W + W - 1 + 1) % 8 = 0 then 8 else (k * W + W - 1 + 1) % 8) = c2 ∧
          1 ≤ c2 ∧ c2 ≤ 8 ∧ 8 * (P + (k * W + W - 1) / 8) + c2 = 8 * P + k * W + W := by
      refine ⟨_, rfl, ?_, ?_, ?_⟩
      · split <;> omega
      · split <;> omega
      · split <;> omega
    rw [hc2eq]
    have hfbm : bytes.getD (P + k * W / 8) 0 &&& (2 ^ (8 - k * W % 8) - 1) < 2 ^ 8 := by
      rw [land_mask_eq_mod]
      have h1 := Nat.mod_lt (bytes.getD (P + k * W / 8) 0)
        (show 0 < 2 ^ (8 - k * W % 8) from by positivity)
      have h2 : (2 : Nat) ^ (8 - k * W % 8) ≤ 2 ^ 8 :=
        Nat.pow_le_pow_right (by norm_num) (by omega)
      omega
    have hV0 : ∀ i, (toU64 (((bytes.getD (P + k * W / 8) 0
        &&& (2 ^ (8 - k * W % 8) - 1) : Nat)) : Int)).testBit i
        = (decide (i < 8 - k * W % 8) && N.testBit (W - (8 - k * W % 8) + i)) := by
      intro i
      rw [toU64_natCast _ (by omega)]
      rw [land_mask_eq_mod, Nat.testBit_mod_two_pow]
      by_cases hi : i < 8 - k * W % 8
      · rw [show decide (i < 8 - k * W % 8) = true from by simp [hi]]
        rw [Bool.true_and, Bool.true_and]
        have hb := hbyte (P + k * W / 8) i (8 - k * W % 8 - 1 - i) (by omega) (by omega) (by omega)
        rw [show W - 1 - (8 - k * W % 8 - 1 - i) = W - (8 - k * W % 8) + i from by omega] at hb
        exact hb
      · rw [show decide (i < 8 - k * W % 8) = false from by simp; omega]
        rw [Bool.false_and, Bool.false_and]
    have hmid : ∀ j, j < P + (k * W + W - 1) / 8 - (P + k * W / 8) - 1 → ∀ i, i ≤ 7 →
        (bytes.getD (P + k * W / 8 + j + 1) 0).testBit i
          = N.testBit (W - (8 - k * W % 8 + 8 * (j + 1)) + i) := by
      intro j hj i hi
      have hb := hbyte (P + k * W / 8 + j + 1) i (8 - k * W % 8 + 8 * j + 7 - i)
        (by omega) (by omega) (by omega)
      rw [show W - 1 - (8 - k * W % 8 + 8 * j + 7 - i)
          = W - (8 - k * W % 8 + 8 * (j + 1)) + i from by omega] at hb
      exact hb
    obtain ⟨⟨hflo, hfhi⟩, hfbits⟩ := read_middle_fold N W (8 - k * W % 8) (P + k * W / 8)
      bytes hN hw64 (P + (k * W + W - 1) / 8 - (P + k * W / 8) - 1) (by omega) hmid
      (((bytes.getD (P + k * W / 8) 0 &&& (2 ^ (8 - k * W % 8) - 1) : Nat)) : Int)
      (by omega) (by omega) hV0
    have hlb : (bytes.getD (P + (k * W + W - 1) / 8) 0 &&& 255) >>> (8 - c2) < 2 ^ 8 := by
      have h1 : bytes.getD (P + (k * W + W - 1) / 8) 0 &&& 255 < 2 ^ 8 := by
        rw [show (255 : Nat) = 2 ^ 8 - 1 from rfl, land_mask_eq_mod]
        exact Nat.mod_lt _ (by norm_num)
      have h2 : (bytes.getD (P + (k * W + W - 1) / 8) 0 &&& 255) >>> (8 - c2)
          ≤ bytes.getD (P + (k * W + W - 1) / 8) 0 &&& 255 := by
        rw [Nat.shiftRight_eq_div_pow]
        exact Nat.div_le_self _ _
      omega
    have hc2W : c2 < W := by omega
    have hlb2 : (bytes.getD (P + (k * W + W - 1) / 8) 0 &&& 255) >>> (8 - c2) < 2 ^ c2 := by
      have h1 : bytes.getD (P + (k * W + W - 1) / 8) 0 &&& 255 < 2 ^ 8 := by
        rw [show (255 : Nat) = 2 ^ 8 - 1 from rfl, land_mask_eq_mod]
        exact Nat.mod_lt _ (by norm_num)
      rw [Nat.shiftRight_eq_div_pow, Nat.div_lt_iff_lt_mul (by positivity)]
      calc bytes.getD (P + (k * W + W - 1) / 8) 0 &&& 255 < 2 ^ 8 := h1
        _ = 2 ^ c2 * 2 ^ (8 - c2) := by
            rw [← pow_add]
            congr 1
            omega
    rw [pyOr_eq_ofU64]
    · congr 1
      rw [toU64_pyOr, toU64_lsl _ _ hc2_8, toU64_natCast _ (by omega)]
      refine eq_of_testBit_below (n := 64) ?_ ?_ ?_
      · exact Nat.or_lt_two_pow (Nat.mod_lt _ (by norm_num)) (by omega)
      · calc N < 2 ^ W := hN
          _ ≤ 2 ^ 64 := Nat.pow_le_pow_right (by norm_num) hw64
      · intro i hi
        rw [Nat.testBit_or, testBit_mod64, Nat.testBit_shiftLeft, hfbits (i - c2)]
        by_cases hic2 : i < c2
        · have hlbbit : ((bytes.getD (P + (k * W + W - 1) / 8) 0 &&& 255) >>> (8 - c2)).testBit i
              = N.testBit i := by
            rw [Nat.testBit_shiftRight, Nat.testBit_and]
            rw [show ((255 : Nat)).testBit (8 - c2 + i) = true from by
              rw [show (255 : Nat) = 2 ^ 8 - 1 from rfl, Nat.testBit_two_pow_sub_one]
              simp
              omega]
            rw [Bool.and_true]
            have hb := hbyte (P + (k * W + W - 1) / 8) (8 - c2 + i) (W - 1 - i)
              (by omega) (by omega) (by omega)
            rw [show W - 1 - (W - 1 - i) = i from by omega] at hb
            exact hb
          rw [hlbbit]
          rw [show decide (i ≥ c2) = false from by simp; omega]
          simp
        · by_cases hiW : i < W
          · have hlbf : ((bytes.getD (P + (k * W + W - 1) / 8) 0 &&& 255)
                >>> (8 - c2)).testBit i = false := by
              rw [Nat.testBit_shiftRight, Nat.testBit_and]
              rw [show ((255 : Nat)).testBit (8 - c2 + i) = false from by
                rw [show (255 : Nat) = 2 ^ 8 - 1 from rfl, Nat.testBit_two_pow_sub_one]
                simp
                omega]
              rw [Bool.and_false]
            rw [hlbf, Bool.or_false]
            rw [show decide (i < 64) = true from by simp [hi], Bool.true_and]
            rw [show decide (i ≥ c2) = true from by simp; omega, Bool.true_and]
            rw [show W - (8 - k * W % 8 + 8 * (P + (k * W + W - 1) / 8 - (P + k * W / 8) - 1))
                + (i - c2) = i from by omega]
            rw [show decide (i - c2 < 8 - k * W % 8
                + 8 * (P + (k * W + W - 1) / 8 - (P + k * W / 8) - 1)) = true from by
              simp
              omega]
            rw [Bool.true_and]
          · rw [testBit_ge_false hlb2 (show c2 ≤ i from by omega), Bool.or_false]
            rw [show decide (i - c2 < 8 - k * W % 8
                + 8 * (P + (k * W + W - 1) / 8 - (P + k * W / 8) - 1)) = false from by
              simp
              omega]
            rw [testBit_ge_false hN (show W ≤ i from by omega)]
            simp
    · exact (wrap64_range _).1
    · omega

theorem toU64_emod_pow (word : Int) (blw : Nat) (hblw64 : blw ≤ 64) :
    toU64 (word % ((2 : Int) ^ blw)) = toU64 word % 2 ^ blw := by
  unfold toU64
  have h0 : (0 : Int) ≤ word % 2 ^ blw := Int.emod_nonneg _ (by positivity)
  have hlt : word % 2 ^ blw < 2 ^ 64 :=
    lt_of_lt_of_le (Int.emod_lt_of_pos _ (by positivity))
      (pow_le_pow_right₀ (by norm_num) hblw64)
  rw [Int.emod_eq_of_lt h0 hlt]
  have hdvd : ((2 : Int) ^ blw) ∣ 2 ^ 64 := pow_dvd_pow 2 hblw64
  rw [show word % ((2 : Int) ^ blw) = (word % 2 ^ 64) % 2 ^ blw
    from (Int.emod_emod_of_dvd word hdvd).symm]
  have h00 : (0 : Int) ≤ word % 2 ^ 64 := Int.emod_nonneg _ (by positivity)
  obtain ⟨n, hn⟩ : ∃ n : Nat, word % 2 ^ 64 = (n : Int) := ⟨(word % 2 ^ 64).toNat, by omega⟩
  rw [hn, show ((2 : Int) ^ blw) = ((2 ^ blw : Nat) : Int) from by push_cast; ring,
    ← Int.natCast_mod, Int.toNat_natCast, Int.toNat_natCast]

/-- A fresh byte is entered lazily: starting a chunk write with an
exhausted byte is the same as starting it at the next byte. -/
theorem write_chunks_norm (fuel : Nat) (word : Int) (wl : Nat) (bytes : List Nat)
    (bi blw : Nat) (hblw : ¬(blw = 0)) :
    Ser.write_chunks (fuel + 1) word wl bytes bi 0 blw
      = Ser.write_chunks (fuel + 1) word wl bytes (bi + 1) 8 blw := by
  simp only [Ser.write_chunks]
  rw [if_neg hblw, if_neg hblw]
  norm_num

/-- One iteration of the chunk-writing loop, with a byte in progress. -/
theorem write_chunks_step (fuel : Nat) (word : Int) (wl : Nat) (bytes : List Nat)
    (bi bl blw : Nat) (hbl : ¬(bl = 0)) (hblw : ¬(blw = 0)) :
    Ser.write_chunks (fuel + 1) word wl bytes bi bl blw
      = Ser.write_chunks fuel word wl
          (bytes.set bi (bytes.getD bi 0 |||
            toU64 (BitUtil.left_shift_long
              (if blw > min bl blw then
                BitUtil.unsigned_right_shift_long
                  (if (if blw = 64 then (-1 : Int) else 2 ^ blw - 1) = -1 then word
                   else word % ((2 : Int) ^ blw))
                  (blw - bl)
               else
                (if (if blw = 64 then (-1 : Int) else 2 ^ blw - 1) = -1 then word
                 else word % ((2 : Int) ^ blw)))
              (bl - min bl blw)) &&& 255))
          bi (bl - min bl blw) (blw - min bl blw) := by
  simp only [Ser.write_chunks]
  rw [if_neg hblw]
  simp only [if_neg hbl]

/-- The byte-sized chunk a single loop iteration ors into the current
byte: the next min bl blw bits of the word, aligned to the byte. -/
theorem chunk_value (word : Int) (bl blw : Nat) (hbl1 : 1 ≤ bl) (hbl8 : bl ≤ 8)
    (hblw1 : 1 ≤ blw) (hblw64 : blw ≤ 64) :
    toU64 (BitUtil.left_shift_long
      (if blw > min bl blw then
        BitUtil.unsigned_right_shift_long
          (if (if blw = 64 then (-1 : Int) else 2 ^ blw - 1) = -1 then word
           else word % ((2 : Int) ^ blw))
          (blw - bl)
       else
        (if (if blw = 64 then (-1 : Int) else 2 ^ blw - 1) = -1 then word
         else word % ((2 : Int) ^ blw)))
      (bl - min bl blw)) &&& 255
    = ((toU64 word % 2 ^ blw) >>> (blw - min bl blw)) <<< (bl - min bl blw) := by
  have hp8 : (2 : Nat) ^ bl ≤ 2 ^ 8 := Nat.pow_le_pow_right (by norm_num) hbl8
  by_cases h64 : blw = 64
  · subst h64
    rw [if_pos rfl, if_pos rfl]
    have hmin : min bl 64 = bl := by omega
    rw [hmin]
    rw [if_pos (show 64 > bl from by omega)]
    unfold BitUtil.unsigned_right_shift_long
    rw [if_neg (show ¬(64 - bl = 0) from by omega)]
    have hX : toU64 word >>> (64 - bl) < 2 ^ bl := by
      rw [Nat.shiftRight_eq_div_pow, Nat.div_lt_iff_lt_mul (by positivity)]
      calc toU64 word < 2 ^ 64 := toU64_lt word
        _ = 2 ^ bl * 2 ^ (64 - bl) := by
            rw [← pow_add]
            congr 1
            omega
    rw [toU64_lsl _ _ (by omega), toU64_natCast _ (by omega)]
    rw [Nat.sub_self, Nat.shiftLeft_zero]
    rw [Nat.mod_eq_of_lt (by omega)]
    rw [show (255 : Nat) = 2 ^ 8 - 1 from rfl, land_mask_eq_mod, Nat.mod_eq_of_lt (by omega)]
    rw [Nat.mod_eq_of_lt (toU64_lt word), Nat.shiftLeft_zero]
  · rw [if_neg h64]
    rw [if_neg (show ¬((2 : Int) ^ blw - 1 = -1) from by
      have h1 : (0 : Int) < 2 ^ blw := by positivity
      omega)]
    have hrem : toU64 (word % ((2 : Int) ^ blw)) = toU64 word % 2 ^ blw :=
      toU64_emod_pow word blw hblw64
    have hmod : toU64 word % 2 ^ blw < 2 ^ blw := Nat.mod_lt _ (by positivity)
    by_cases hgt : blw > min bl blw
    · have hmin : min bl blw = bl := by omega
      rw [hmin] at hgt ⊢
      rw [if_pos hgt]
      unfold BitUtil.unsigned_right_shift_long
      rw [if_neg (show ¬(blw - bl = 0) from by omega)]
      rw [hrem]
      have hX : (toU64 word % 2 ^ blw) >>> (blw - bl) < 2 ^ bl := by
        rw [Nat.shiftRight_eq_div_pow, Nat.div_lt_iff_lt_mul (by positivity)]
        calc toU64 word % 2 ^ blw < 2 ^ blw := hmod
          _ = 2 ^ bl * 2 ^ (blw - bl) := by
              rw [← pow_add]
              congr 1
              omega
      rw [toU64_lsl _ _ (by omega), toU64_natCast _ (by omega)]
      rw [Nat.sub_self, Nat.shiftLeft_zero]
      rw [Nat.mod_eq_of_lt (by omega)]
      rw [show (255 : Nat) = 2 ^ 8 - 1 from rfl, land_mask_eq_mod, Nat.mod_eq_of_lt (by omega)]
    · have hmin : min bl blw = blw := by omega
      rw [hmin]
      rw [if_neg (by omega)]
      rw [toU64_lsl _ _ (by omega), hrem]
      rw [show blw - blw = 0 from by omega, Nat.shiftRight_zero]
      have hXs : (toU64 word % 2 ^ blw) <<< (bl - blw) < 2 ^ bl := by
        rw [Nat.shiftLeft_eq]
        calc toU64 word % 2 ^ blw * 2 ^ (bl - blw) < 2 ^ blw * 2 ^ (bl - blw) :=
            (Nat.mul_lt_mul_right (by positivity)).mpr hmod
          _ = 2 ^ bl := by
              rw [← pow_add]
              congr 1
              omega
      rw [Nat.mod_eq_of_lt (by omega)]
      rw [show (255 : Nat) = 2 ^ 8 - 1 from rfl, land_mask_eq_mod, Nat.mod_eq_of_lt (by omega)]

theorem write_chunks_zero (f : Nat) (word : Int) (wl : Nat) (bs : List Nat) (bi bl : Nat) :
    Ser.write_chunks f word wl bs bi bl 0 = (bs, bi, bl) := by
  cases f with
  | zero => rfl
  | succ f => simp [Ser.write_chunks]

theorem set_or_bit (bytes : List Nat) (bi : Nat) (ch : Nat) (hbi : bi < bytes.length) (x : Nat) :
    byte_bit (bytes.set bi (bytes.getD bi 0 ||| ch)) x
      = if x / 8 = bi then (byte_bit bytes x || ch.testBit (7 - x % 8))
        else byte_bit bytes x := by
  by_cases hx : x / 8 = bi
  · rw [if_pos hx]
    unfold byte_bit
    rw [hx, getD_set_self _ _ hbi, Nat.testBit_or]
  · rw [if_neg hx]
    unfold byte_bit
    rw [getD_set_ne _ _ (fun h => hx h.symm)]

/-- The chunk-writing loop writes the low blw bits of the word, most
significant first, at the running bit position, touching nothing else. -/
theorem write_chunks_spec : ∀ (fuel blw : Nat), blw ≤ fuel → blw ≤ 64 →
    ∀ (word : Int) (wl : Nat) (bytes : List Nat) (bi bl : Nat),
    1 ≤ bl → bl ≤ 8 →
    8 * bi + (8 - bl) + blw ≤ 8 * bytes.length →
    (∀ b, bytes.getD b 0 < 256) →
    (∀ x, 8 * bi + (8 - bl) ≤ x → byte_bit bytes x = false) →
    ∃ bytes2 bi2 bl2,
      Ser.write_chunks fuel word wl bytes bi bl blw = (bytes2, bi2, bl2) ∧
      bytes2.length = bytes.length ∧
      (∀ b, bytes2.getD b 0 < 256) ∧
      8 * bi2 + (8 - bl2) = 8 * bi + (8 - bl) + blw ∧
      bl2 ≤ 8 ∧
      (∀ x, x < 8 * bi + (8 - bl) → byte_bit bytes2 x = byte_bit bytes x) ∧
      (∀ i, i < blw → byte_bit bytes2 (8 * bi + (8 - bl) + i)
        = (toU64 word).testBit (blw - 1 - i)) ∧
      (∀ x, 8 * bi + (8 - bl) + blw ≤ x → byte_bit bytes2 x = false) := by
  intro fuel
  induction fuel with
  | zero =>
    intro blw hf _ word wl bytes bi bl hbl1 hbl8 hfit hb256 hzero
    have hblw : blw = 0 := by omega
    subst hblw
    exact ⟨bytes, bi, bl, rfl, rfl, hb256, by omega, hbl8, fun x _ => rfl,
      fun i hi => absurd hi (by omega), fun x hx => hzero x (by omega)⟩
  | succ fuel ih =>
    intro blw hf hblw64 word wl bytes bi bl hbl1 hbl8 hfit hb256 hzero
    by_cases hblw0 : blw = 0
    · subst hblw0
      refine ⟨bytes, bi, bl, ?_, rfl, hb256, by omega, hbl8, fun x _ => rfl,
        fun i hi => absurd hi (by omega), fun x hx => hzero x (by omega)⟩
      simp [Ser.write_chunks]
    · rw [write_chunks_step fuel word wl bytes bi bl blw (by omega) hblw0]
      rw [chunk_value word bl blw hbl1 hbl8 (by omega) hblw64]
      have hbi : bi < bytes.length := by omega
      by_cases hend : blw - min bl blw = 0
      · -- the whole word fits in the current byte
        have hcblw : min bl blw = blw := by omega
        rw [hcblw]
        rw [show blw - blw = 0 from by omega, Nat.shiftRight_zero, write_chunks_zero]
        have hmod : toU64 word % 2 ^ blw < 2 ^ blw := Nat.mod_lt _ (by positivity)
        have hCHlt : (toU64 word % 2 ^ blw) <<< (bl - blw) < 2 ^ bl := by
          rw [Nat.shiftLeft_eq]
          calc toU64 word % 2 ^ blw * 2 ^ (bl - blw) < 2 ^ blw * 2 ^ (bl - blw) :=
              (Nat.mul_lt_mul_right (by positivity)).mpr hmod
            _ = 2 ^ bl := by
                rw [← pow_add]
                congr 1
                omega
        have hp8 : (2 : Nat) ^ bl ≤ 2 ^ 8 := Nat.pow_le_pow_right (by norm_num) hbl8
        refine ⟨_, _, _, rfl, List.length_set _ _ _, ?_, by omega, by omega, ?_, ?_, ?_⟩
        · intro b
          by_cases hb : b = bi
          · subst hb
            rw [getD_set_self _ _ hbi]
            exact Nat.or_lt_two_pow (show bytes.getD b 0 < 2 ^ 8 from hb256 b) (by omega)
          · rw [getD_set_ne _ _ (fun h => hb h.symm)]
            exact hb256 b
        · intro x hx
          rw [set_or_bit bytes bi _ hbi x]
          by_cases hx8 : x / 8 = bi
          · rw [if_pos hx8]
            rw [testBit_ge_false hCHlt (show bl ≤ 7 - x % 8 from by omega), Bool.or_false]
          · rw [if_neg hx8]
        · intro i hi
          rw [set_or_bit bytes bi _ hbi _]
          rw [if_pos (show (8 * bi + (8 - bl) + i) / 8 = bi from by omega)]
          rw [hzero _ (by omega), Bool.false_or]
          rw [show 7 - (8 * bi + (8 - bl) + i) % 8 = bl - 1 - i from by omega]
          rw [Nat.testBit_shiftLeft]
          rw [show decide (bl - 1 - i ≥ bl - blw) = true from by simp; omega, Bool.true_and]
          rw [show bl - 1 - i - (bl - blw) = blw - 1 - i from by omega]
          rw [Nat.testBit_mod_two_pow]
          rw [show decide (blw - 1 - i < blw) = true from by simp; omega, Bool.true_and]
        · intro x hx
          rw [set_or_bit bytes bi _ hbi x]
          by_cases hx8 : x / 8 = bi
          · rw [if_pos hx8]
            rw [hzero x (by omega), Bool.false_or]
            rw [Nat.testBit_shiftLeft]
            rw [show decide (7 - x % 8 ≥ bl - blw) = false from by simp; omega, Bool.false_and]
          · rw [if_neg hx8]
            exact hzero x (by omega)
      · -- the chunk fills the byte; the rest of the word continues
        have hcbl : min bl blw = bl := by omega
        rw [hcbl]
        rw [show bl - bl = 0 from by omega, Nat.shiftLeft_zero]
        obtain ⟨f2, rfl⟩ : ∃ f2, fuel = f2 + 1 := ⟨fuel - 1, by omega⟩
        rw [write_chunks_norm f2 word wl _ bi (blw - bl) (by omega)]
        have hCHlt : (toU64 word % 2 ^ blw) >>> (blw - bl) < 2 ^ bl := by
          rw [Nat.shiftRight_eq_div_pow, Nat.div_lt_iff_lt_mul (by positivity)]
          calc toU64 word % 2 ^ blw < 2 ^ blw := Nat.mod_lt _ (by positivity)
            _ = 2 ^ bl * 2 ^ (blw - bl) := by
                rw [← pow_add]
                congr 1
                omega
        have hp8 : (2 : Nat) ^ bl ≤ 2 ^ 8 := Nat.pow_le_pow_right (by norm_num) hbl8
        obtain ⟨bytes2, bi2, bl2, heq, hlen, h256, hpos, hbl2, hpre, hwr, hz⟩ :=
          ih (blw - bl) (by omega) (by omega) word wl
            (bytes.set bi (bytes.getD bi 0 ||| (toU64 word % 2 ^ blw) >>> (blw - bl)))
            (bi + 1) 8 (by norm_num) (by norm_num)
            (by rw [List.length_set]; omega)
            (by
              intro b
              by_cases hb : b = bi
              · subst hb
                rw [getD_set_self _ _ hbi]
                exact Nat.or_lt_two_pow (show bytes.getD b 0 < 2 ^ 8 from hb256 b) (by omega)
              · rw [getD_set_ne _ _ (fun h => hb h.symm)]
                exact hb256 b)
            (by
              intro x hx
              rw [set_or_bit bytes bi _ hbi x]
              by_cases hx8 : x / 8 = bi
              · exact absurd hx8 (by omega)
              · rw [if_neg hx8]
                exact hzero x (by omega))
        refine ⟨bytes2, bi2, bl2, heq, by rw [hlen, List.length_set], h256,
          by omega, hbl2, ?_, ?_, ?_⟩
        · intro x hx
          rw [hpre x (by omega)]
          rw [set_or_bit bytes bi _ hbi x]
          by_cases hx8 : x / 8 = bi
          · rw [if_pos hx8]
            rw [testBit_ge_false hCHlt (show bl ≤ 7 - x % 8 from by omega), Bool.or_false]
          · rw [if_neg hx8]
        · intro i hi
          by_cases hibl : i < bl
          · rw [hpre _ (by omega)]
            rw [set_or_bit bytes bi _ hbi _]
            rw [if_pos (show (8 * bi + (8 - bl) + i) / 8 = bi from by omega)]
            rw [hzero _ (by omega), Bool.false_or]
            rw [show 7 - (8 * bi + (8 - bl) + i) % 8 = bl - 1 - i from by omega]
            rw [Nat.testBit_shiftRight, Nat.testBit_mod_two_pow]
            rw [show blw - bl + (bl - 1 - i) = blw - 1 - i from by omega]
            rw [show decide (blw - 1 - i < blw) = true from by simp; omega, Bool.true_and]
          · have hw := hwr (i - bl) (by omega)
            rw [show 8 * (bi + 1) + (8 - 8) + (i - bl) = 8 * bi + (8 - bl) + i
              from by omega] at hw
            rw [show blw - bl - 1 - (i - bl) = blw - 1 - i from by omega] at hw
            exact hw
        · intro x hx
          exact hz x (by omega)

/-- write_chunks with the fuel write_word passes, allowing the exhausted
byte state the previous write may have left. -/
theorem write_chunks_spec128 (word : Int) (wl : Nat) (blw : Nat) (hblw64 : blw ≤ 64)
    (bytes : List Nat) (bi bl : Nat) (hbl8 : bl ≤ 8)
    (hfit : 8 * bi + (8 - bl) + blw ≤ 8 * bytes.length)
    (hb256 : ∀ b, bytes.getD b 0 < 256)
    (hzero : ∀ x, 8 * bi + (8 - bl) ≤ x → byte_bit bytes x = false) :
    ∃ bytes2 bi2 bl2,
      Ser.write_chunks 128 word wl bytes bi bl blw = (bytes2, bi2, bl2) ∧
      bytes2.length = bytes.length ∧
      (∀ b, bytes2.getD b 0 < 256) ∧
      8 * bi2 + (8 - bl2) = 8 * bi + (8 - bl) + blw ∧
      bl2 ≤ 8 ∧
      (∀ x, x < 8 * bi + (8 - bl) → byte_bit bytes2 x = byte_bit bytes x) ∧
      (∀ i, i < blw → byte_bit bytes2 (8 * bi + (8 - bl) + i)
        = (toU64 word).testBit (blw - 1 - i)) ∧
      (∀ x, 8 * bi + (8 - bl) + blw ≤ x → byte_bit bytes2 x = false) := by
  by_cases hbl0 : bl = 0
  · subst hbl0
    by_cases hblw0 : blw = 0
    · subst hblw0
      rw [write_chunks_zero]
      exact ⟨bytes, bi, 0, rfl, rfl, hb256, by omega, by omega, fun x _ => rfl,
        fun i hi => absurd hi (by omega), fun x hx => hzero x (by omega)⟩
    · rw [show (128 : Nat) = 127 + 1 from rfl, write_chunks_norm 127 word wl bytes bi blw hblw0]
      obtain ⟨b2, i2, l2, heq, hlen, h256, hpos, hbl2, hpre, hwr, hz⟩ :=
        write_chunks_spec (127 + 1) blw (by omega) hblw64 word wl bytes (bi + 1) 8
          (by norm_num) (by norm_num) (by omega) hb256 (fun x hx => hzero x (by omega))
      refine ⟨b2, i2, l2, heq, hlen, h256, by omega, hbl2,
        fun x hx => hpre x (by omega), ?_, fun x hx => hz x (by omega)⟩
      intro i hi
      have hw := hwr i hi
      rw [show 8 * (bi + 1) + (8 - 8) + i = 8 * bi + (8 - 0) + i from by omega] at hw
      exact hw
  · exact write_chunks_spec 128 blw (by omega) hblw64 word wl bytes bi bl (by omega) hbl8
      hfit hb256 hzero

/-- Folding write_word over a word list lays the words down back to back,
each W bits wide, most significant bit first. -/
theorem fold_words_spec (W n : Nat) (hw1 : 1 ≤ W) (hw64 : W ≤ 64) :
    ∀ (todo : List Int) (k q : Nat) (bytes : List Nat) (bi bl : Nat),
      k + todo.length ≤ n →
      bl ≤ 8 →
      8 * bi + (8 - bl) = q →
      q + todo.length * W ≤ 8 * bytes.length →
      (∀ b, bytes.getD b 0 < 256) →
      (∀ x, q ≤ x → byte_bit bytes x = false) →
      ∃ s2 : Ser, todo.foldl Ser.write_word
          { word_length := W, word_count := n, bytes := bytes,
            bits_left_in_byte := bl, byte_index := bi, words_written := k } = s2 ∧
        s2.bytes.length = bytes.length ∧
        (∀ x, x < q → byte_bit s2.bytes x = byte_bit bytes x) ∧
        (∀ j, j < todo.length → ∀ i, i < W →
          byte_bit s2.bytes (q + j * W + i)
            = (toU64 (todo.getD j 0)).testBit (W - 1 - i)) := by
  intro todo
  induction todo with
  | nil =>
    intro k q bytes bi bl hkn hbl8 hq hfit hb256 hzero
    exact ⟨_, rfl, rfl, fun x _ => rfl, fun j hj => absurd hj (by simp)⟩
  | cons w ws ihw =>
    intro k q bytes bi bl hkn hbl8 hq hfit hb256 hzero
    have hkn' : k + (ws.length + 1) ≤ n := by
      rw [List.length_cons] at hkn
      exact hkn
    have hfit2 : q + (ws.length * W + W) ≤ 8 * bytes.length := by
      rw [show ws.length * W + W = (w :: ws).length * W from by
        rw [List.length_cons, Nat.succ_mul]]
      exact hfit
    rw [List.foldl_cons]
    obtain ⟨b2, i2, l2, heq, hlen, h256, hpos, hbl2, hpre, hwr, hz⟩ :=
      write_chunks_spec128 w W W hw64 bytes bi bl hbl8 (by omega) hb256
        (fun x hx => hzero x (by omega))
    have hstep : Ser.write_word
        { word_length := W, word_count := n, bytes := bytes, bits_left_in_byte := bl,
          byte_index := bi, words_written := k } w
        = { word_length := W, word_count := n, bytes := b2, bits_left_in_byte := l2,
            byte_index := i2, words_written := k + 1 } := by
      simp only [Ser.write_word]
      rw [if_neg (show ¬(k = n) from by omega)]
      rw [heq]
    rw [hstep]
    obtain ⟨s2, heq2, hlen2, hpre2, hwr2⟩ :=
      ihw (k + 1) (q + W) b2 i2 l2 (by omega) hbl2 (by omega)
        (by rw [hlen]; omega) h256 (fun x hx => hz x (by omega))
    refine ⟨s2, heq2, by rw [hlen2, hlen], ?_, ?_⟩
    · intro x hx
      rw [hpre2 x (by omega), hpre x (by omega)]
    · intro j hj i hi
      cases j with
      | zero =>
        rw [show q + 0 * W + i = 8 * bi + (8 - bl) + i from by omega]
        rw [hpre2 _ (by omega)]
        exact hwr i hi
      | succ j =>
        have hj' : j < ws.length := by
          rw [List.length_cons] at hj
          omega
        have hw2 := hwr2 j hj' i hi
        rw [show q + W + j * W + i = q + (j + 1) * W + i from by
          rw [Nat.succ_mul]
          omega] at hw2
        exact hw2

theorem replicate_getD (B b : Nat) : (List.replicate B (0 : Nat)).getD b 0 = 0 := by
  induction B generalizing b with
  | zero => rfl
  | succ B ih =>
    rw [List.replicate_succ]
    cases b with
    | zero => rfl
    | succ b =>
      rw [List.getD_cons_succ]
      exact ih b

/-- The serializer's one-shot use produces a byte array of the documented
size holding the words back to back, W bits each, MSB first, after the
padding bytes. -/
theorem serialize_words_bits (W P : Nat) (hw1 : 1 ≤ W) (hw64 : W ≤ 64) (ws : List Int) :
    ∀ k, k < ws.length → ∀ i, i < W →
      byte_bit (serialize_words W P ws) (8 * P + k * W + i)
        = (toU64 (ws.getD k 0)).testBit (W - 1 - i) := by
  intro k hk i hi
  unfold serialize_words Ser.init Ser.get_bytes
  have hfit : 8 * P + ws.length * W ≤ 8 * (List.replicate
      (W * ws.length / 8 + (if W * ws.length % 8 ≠ 0 then 1 else 0) + P) (0 : Nat)).length := by
    rw [List.length_replicate, Nat.mul_comm ws.length W]
    split <;> omega
  obtain ⟨s2, heq, hlen, hpre, hwr⟩ := fold_words_spec W ws.length hw1 hw64 ws 0 (8 * P)
    (List.replicate (W * ws.length / 8 + (if W * ws.length % 8 ≠ 0 then 1 else 0) + P) 0)
    P 8 (by omega) (by norm_num) (by omega) hfit
    (by
      intro b
      rw [replicate_getD]
      norm_num)
    (by
      intro x hx
      unfold byte_bit
      rw [replicate_getD]
      exact Nat.zero_testBit _)
  rw [heq]
  exact hwr k hk i hi

/-- Claim C7 (amended): for every word width W in 1..64, every byte
padding P, and every word sequence with each word in [0, 2^W), writing
the words with the big-endian ascending word serializer and reading
position k back with the matching deserializer returns the signed 64-bit
view of word k; for W at most 63 that is exactly the original word.  The
original claim's full range W = 1..64 fails only at W = 64, where the
deserializer's accumulator reinterprets values of 2^63 and above as
negative longs. -/
theorem c7_word_codec_roundtrip (W P : Nat) (hw1 : 1 ≤ W) (hw64 : W ≤ 64)
    (ws : List Int) (hws : ∀ w ∈ ws, 0 ≤ w ∧ w < ((2 ^ W : Nat) : Int))
    (k : Nat) (hk : k < ws.length) :
    Deser.read_word W P (serialize_words W P ws) k = ofU64 ((ws.getD k 0).toNat) ∧
    (W ≤ 63 → Deser.read_word W P (serialize_words W P ws) k = ws.getD k 0) := by
  have hmem : ws.getD k 0 ∈ ws := by
    rw [List.getD_eq_getElem _ _ hk]
    exact List.getElem_mem hk
  obtain ⟨h0, hlt⟩ := hws _ hmem
  have hp64 : (2 : Nat) ^ W ≤ 2 ^ 64 := Nat.pow_le_pow_right (by norm_num) hw64
  have hN : (ws.getD k 0).toNat < 2 ^ W := by omega
  have htu : toU64 (ws.getD k 0) = (ws.getD k 0).toNat := by
    unfold toU64
    omega
  have hread := read_word_of_bits W P k hw1 hw64 (serialize_words W P ws)
    (ws.getD k 0).toNat hN
    (by
      intro i hi
      rw [serialize_words_bits W P hw1 hw64 ws k hk i hi, htu])
  refine ⟨hread, ?_⟩
  intro h63
  rw [hread]
  have hp63 : (2 : Nat) ^ W ≤ 2 ^ 63 := Nat.pow_le_pow_right (by norm_num) h63
  unfold ofU64
  rw [if_pos (by omega)]
  omega

set_option maxRecDepth 10000 in
/-- Claim C7, witness: the amended theorem applied to width 5, padding 3
and the three words 31, 1, 5 of the serializer's docstring example, at
position 1. -/
theorem c7_word_codec_roundtrip_witness :
    Deser.read_word 5 3 (serialize_words 5 3 [31, 1, 5]) 1
      = ofU64 ((([31, 1, 5] : List Int).getD 1 0).toNat) ∧
    (5 ≤ 63 → Deser.read_word 5 3 (serialize_words 5 3 [31, 1, 5]) 1
      = ([31, 1, 5] : List Int).getD 1 0) :=
  c7_word_codec_roundtrip 5 3 (by decide) (by decide) [31, 1, 5] (by decide) 1 (by decide)

set_option maxRecDepth 10000 in
/-- Claim C7, counterexample to the claimed exact roundtrip at W = 64:
the word 2^63 is in [0, 2^64), yet reading it back returns -2^63, not
2^63 - the deserializer reassembles the bits through wrapping signed
64-bit arithmetic. -/
theorem c7_word64_sign_cex :
    Deser.read_word 64 0 (serialize_words 64 0 [(2 : Int) ^ 63]) 0 = -(2 ^ 63) ∧
    (0 : Int) ≤ 2 ^ 63 ∧ ((2 : Int) ^ 63) < ((2 ^ 64 : Nat) : Int) ∧
    Deser.read_word 64 0 (serialize_words 64 0 [(2 : Int) ^ 63]) 0 ≠ (2 : Int) ^ 63 := by
  decide

end PyHLL
